import Mathlib

/-!
# structlayout-optimize: a verification development

A shallow embedding of `structlayout/cmd/structlayout-optimize/main.go`.

* `int64` values are integers; every `+` and `-` of the source is followed by
  `wrap64`, the two's-complement wrap-around of Go's fixed-width arithmetic.
* Go's `%` is the truncated remainder; a zero divisor is a run-time panic.
* A run-time panic (division by zero, slice bounds out of range) is the
  result `none`.
* A slice is a list; the loops of the source are recursions over the list
  that carry the loop's local variables.
* `sort.Sort` of Go's standard library, which `optimize` calls, is embedded as
  the library's pattern-defeating quicksort over the methods `Len`, `Less` and
  `Swap` of the source.
-/

namespace StructLayout

/-! ## Definitions -/

/-- The record `Field` of the source. `Typ` is the source's `Type`. -/
structure Field where
  Name : String
  Typ : String
  Start : Int
  End : Int
  Size : Int
  Align : Int
  IsPadding : Bool
deriving DecidableEq

/-- Go's zero value `Field{}`. -/
def zeroField : Field :=
  { Name := "", Typ := "", Start := 0, End := 0, Size := 0, Align := 0,
    IsPadding := false }

/-- The smallest `int64`, `-2^63`. -/
def minInt64 : Int := -9223372036854775808

/-- The largest `int64`, `2^63 - 1`. -/
def maxInt64 : Int := 9223372036854775807

/-- Two's-complement wrap-around of an integer into the `int64` range. -/
def wrap64 (v : Int) : Int :=
  (v + 9223372036854775808) % 18446744073709551616 - 9223372036854775808

/-- Go's `a + b` on `int64`. -/
def addInt64 (a b : Int) : Int := wrap64 (a + b)

/-- Go's `a - b` on `int64`. -/
def subInt64 (a b : Int) : Int := wrap64 (a - b)

/-- Go's `a % b` on `int64`: the remainder of the truncated division, with the
sign of `a`; `b == 0` panics. -/
def remInt64 (a b : Int) : Option Int :=
  if b = 0 then none else some (Int.tmod a b)

/-- The function `align` of the source: `y := x + a - 1; return y - y%a`. -/
def align (x a : Int) : Option Int := do
  let y := subInt64 (addInt64 x a) 1
  let r ← remInt64 y a
  pure (subInt64 y r)

/-- The loop of `offsetsof`, started with the cursor `o`. -/
def offsetsofLoop (o : Int) : List Field → Option (List Int)
  | [] => some []
  | f :: rest => do
    let a := f.Align
    let o1 ← align o a
    let offsets ← offsetsofLoop (addInt64 o1 f.Size) rest
    pure (o1 :: offsets)

/-- The function `offsetsof` of the source. -/
def offsetsof (fields : List Field) : Option (List Int) :=
  offsetsofLoop 0 fields

/-- The padding entry that `pad` appends: only `IsPadding`, `Start`, `End` and
`Size` are set, the other members keep Go's zero values. -/
def paddingField (pos padding : Int) : Field :=
  { Name := "", Typ := "", Start := pos, End := addInt64 pos padding,
    Size := padding, Align := 0, IsPadding := true }

/-- The loop of `pad`, started with the cursor `pos`; the second list is what
is left of `offsets`, so that its head is `offsets[i]`. -/
def padLoop (pos : Int) : List Field → List Int → List Field
  | field :: rest, off :: offsets =>
    if off > pos then
      let padding := subInt64 off pos
      let pos1 := addInt64 pos padding
      paddingField pos padding ::
        { field with Start := pos1, End := addInt64 pos1 field.Size } ::
        padLoop (addInt64 pos1 field.Size) rest offsets
    else
      { field with Start := pos, End := addInt64 pos field.Size } ::
        padLoop (addInt64 pos field.Size) rest offsets
  | _, _ => []

/-- The function `pad` of the source. -/
def pad (fields : List Field) : Option (List Field) := do
  let offsets ← offsetsof fields
  pure (padLoop 0 fields offsets)

/-- The method `byAlignAndSize.Less` of the source, on the two records
`s.fields[i]` and `s.fields[j]`. -/
def Less (fi fj : Field) : Bool :=
  if fi.Size == 0 && fj.Size != 0 then true
  else if fj.Size == 0 && fi.Size != 0 then false
  else if fi.Align != fj.Align then decide (fi.Align > fj.Align)
  else if fi.Size != fj.Size then decide (fi.Size > fj.Size)
  else false

/-! ### Go's `sort.Sort`

`optimize` calls `sort.Sort` of Go's standard library, which reaches the slice
only through the methods `Len`, `Less` and `Swap` of the source. The library's
pattern-defeating quicksort is embedded function by function: `insertionSort`
on 12 elements or fewer, `heapSort` when `limit` is used up, otherwise
`breakPatterns`, `choosePivot`, `reverseRange`, `partialInsertionSort`,
`partitionEqual` and `partition`. Indices are natural numbers. A loop is a
recursion on a counter that bounds its iterations; the theorems on the loops
show that no counter runs out before its loop has ended. -/

/-- The element `s.fields[i]`; the indices that the sort produces are all in
range, an index out of range would be a run-time panic. -/
def fieldAt (s : List Field) (i : Nat) : Field :=
  s.getD i zeroField

/-- The method `byAlignAndSize.Len` of the source. -/
def Len (s : List Field) : Nat :=
  s.length

/-- The method `byAlignAndSize.Swap` of the source,
`s.fields[i], s.fields[j] = s.fields[j], s.fields[i]`. -/
def Swap (s : List Field) (i j : Nat) : List Field :=
  if i < s.length ∧ j < s.length then
    (s.set i (fieldAt s j)).set j (fieldAt s i)
  else s

/-- The method `byAlignAndSize.Less` of the source on the indices `i` and `j`. -/
def LessAt (s : List Field) (i j : Nat) : Bool :=
  Less (fieldAt s i) (fieldAt s j)

/-- The inner loop of `insertionSort`,
`for j := i; j > a && data.Less(j, j-1); j-- { data.Swap(j, j-1) }`,
entered at `j`. -/
def insertionInner (a : Nat) : Nat → List Field → List Field
  | 0, data => data
  | j + 1, data =>
    if j + 1 > a ∧ LessAt data (j + 1) j = true then
      insertionInner a j (Swap data (j + 1) j)
    else data

/-- The outer loop of `insertionSort`, `for i := a + 1; i < b; i++`, entered
at `i` with at most `n` iterations to go. -/
def insertionOuter (a b : Nat) : Nat → Nat → List Field → List Field
  | 0, _, data => data
  | n + 1, i, data =>
    if i < b then insertionOuter a b n (i + 1) (insertionInner a i data) else data

/-- The function `insertionSort(data, a, b)` of Go's package `sort`. -/
def insertionSort (data : List Field) (a b : Nat) : List Field :=
  insertionOuter a b (b - a) (a + 1) data

/-- The loop of `siftDown(data, lo, hi, first)`, entered at `root`:
```
child := 2*root + 1
if child >= hi { return }
if child+1 < hi && data.Less(first+child, first+child+1) { child++ }
if !data.Less(first+root, first+child) { return }
data.Swap(first+root, first+child)
root = child
```
-/
def siftDownLoop (hi first : Nat) : Nat → List Field → Nat → List Field
  | 0, data, _ => data
  | fuel + 1, data, root =>
    if 2 * root + 1 ≥ hi then data
    else
      let child :=
        if 2 * root + 1 + 1 < hi ∧
            LessAt data (first + (2 * root + 1)) (first + (2 * root + 1) + 1) = true then
          2 * root + 1 + 1
        else 2 * root + 1
      if LessAt data (first + root) (first + child) = false then data
      else siftDownLoop hi first fuel (Swap data (first + root) (first + child)) child

/-- The function `siftDown(data, lo, hi, first)` of Go's package `sort`. -/
def siftDown (data : List Field) (lo hi first : Nat) : List Field :=
  siftDownLoop hi first hi data lo

/-- The first loop of `heapSort`, `for i := (hi - 1) / 2; i >= 0; i--`, with
`n` iterations to go: the next one has `i = n - 1`. -/
def heapBuild (hi first : Nat) : Nat → List Field → List Field
  | 0, data => data
  | i + 1, data => heapBuild hi first i (siftDown data i hi first)

/-- The second loop of `heapSort`, `for i := hi - 1; i >= 0; i--`, with `n`
iterations to go: the next one has `i = n - 1`. -/
def heapPop (first : Nat) : Nat → List Field → List Field
  | 0, data => data
  | i + 1, data => heapPop first i (siftDown (Swap data first (first + i)) 0 i first)

/-- The function `heapSort(data, a, b)` of Go's package `sort`. -/
def heapSort (data : List Field) (a b : Nat) : List Field :=
  let first := a
  let hi := b - a
  heapPop first hi (heapBuild hi first ((hi - 1) / 2 + 1) data)

/-- A loop `for i <= j && p(i) { i++ }`; it returns the final `i`. -/
def scanUp (p : Nat → Bool) (j : Nat) : Nat → Nat → Nat
  | 0, i => i
  | fuel + 1, i => if i ≤ j ∧ p i = true then scanUp p j fuel (i + 1) else i

/-- A loop `for i <= j && p(j) { j-- }`; it returns the final `j`. The loops of
the sort have `i ≥ 1`, so `j` does not go below 0. -/
def scanDown (p : Nat → Bool) (i : Nat) : Nat → Nat
  | 0 => 0
  | j + 1 => if i ≤ j + 1 ∧ p (j + 1) = true then scanDown p i j else j + 1

/-- The loop `for { ... }` of `partition`:
```
for i <= j && data.Less(i, a) { i++ }
for i <= j && !data.Less(j, a) { j-- }
if i > j { break }
data.Swap(i, j); i++; j--
```
It returns the slice and the final `j`. -/
def partitionLoop (a : Nat) : Nat → List Field → Nat → Nat → List Field × Nat
  | 0, data, _, j => (data, j)
  | fuel + 1, data, i, j =>
    let i1 := scanUp (fun k => LessAt data k a) j (j + 1 - i) i
    let j1 := scanDown (fun k => !LessAt data k a) i1 j
    if i1 > j1 then (data, j1)
    else partitionLoop a fuel (Swap data i1 j1) (i1 + 1) (j1 - 1)

/-- The function `partition(data, a, b, pivot)` of Go's package `sort`; it
returns the slice, `newpivot` and `alreadyPartitioned`. -/
def partition (data : List Field) (a b pivot : Nat) : List Field × Nat × Bool :=
  let data1 := Swap data a pivot
  let i := scanUp (fun k => LessAt data1 k a) (b - 1) (b - 1 + 1 - (a + 1)) (a + 1)
  let j := scanDown (fun k => !LessAt data1 k a) i (b - 1)
  if i > j then (Swap data1 j a, j, true)
  else
    let r := partitionLoop a (j - i) (Swap data1 i j) (i + 1) (j - 1)
    (Swap r.1 r.2 a, r.2, false)

/-- The loop of `partitionEqual`:
```
for i <= j && !data.Less(a, i) { i++ }
for i <= j && data.Less(a, j) { j-- }
if i > j { break }
data.Swap(i, j); i++; j--
```
It returns the slice and the final `i`. -/
def partitionEqualLoop (a : Nat) : Nat → List Field → Nat → Nat → List Field × Nat
  | 0, data, i, _ => (data, i)
  | fuel + 1, data, i, j =>
    let i1 := scanUp (fun k => !LessAt data a k) j (j + 1 - i) i
    let j1 := scanDown (fun k => LessAt data a k) i1 j
    if i1 > j1 then (data, i1)
    else partitionEqualLoop a fuel (Swap data i1 j1) (i1 + 1) (j1 - 1)

/-- The function `partitionEqual(data, a, b, pivot)` of Go's package `sort`; it
returns the slice and `newpivot`. -/
def partitionEqual (data : List Field) (a b pivot : Nat) : List Field × Nat :=
  partitionEqualLoop a (b - a) (Swap data a pivot) (a + 1) (b - 1)

/-- The loop `for i < b && !data.Less(i, i-1) { i++ }` of
`partialInsertionSort`; it returns the final `i`. -/
def scanSorted (data : List Field) (b : Nat) : Nat → Nat → Nat
  | 0, i => i
  | fuel + 1, i =>
    if i < b ∧ LessAt data i (i - 1) = false then scanSorted data b fuel (i + 1) else i

/-- The loop of `partialInsertionSort` that shifts the smaller element to the
left, entered at `j`:
`for j := i - 1; j >= 1; j-- { if !data.Less(j, j-1) { break }; data.Swap(j, j-1) }`. -/
def shiftSmaller : Nat → List Field → List Field
  | 0, data => data
  | j + 1, data =>
    if LessAt data (j + 1) j = false then data
    else shiftSmaller j (Swap data (j + 1) j)

/-- The loop of `partialInsertionSort` that shifts the greater element to the
right, entered at `j`:
`for j := i + 1; j < b; j++ { if !data.Less(j, j-1) { break }; data.Swap(j, j-1) }`. -/
def shiftGreater (b : Nat) : Nat → Nat → List Field → List Field
  | 0, _, data => data
  | fuel + 1, j, data =>
    if j < b then
      if LessAt data j (j - 1) = false then data
      else shiftGreater b fuel (j + 1) (Swap data j (j - 1))
    else data

/-- The loop `for j := 0; j < maxSteps; j++` of `partialInsertionSort`, with
`steps` iterations to go; `maxSteps = 5`, `shortestShifting = 50`. -/
def partialInsertionLoop (a b : Nat) : Nat → List Field → Nat → List Field × Bool
  | 0, data, _ => (data, false)
  | steps + 1, data, i =>
    let i1 := scanSorted data b (b - i) i
    if i1 = b then (data, true)
    else if b - a < 50 then (data, false)
    else
      let data1 := Swap data i1 (i1 - 1)
      let data2 := if i1 - a ≥ 2 then shiftSmaller (i1 - 1) data1 else data1
      let data3 :=
        if b - i1 ≥ 2 then shiftGreater b (b - (i1 + 1)) (i1 + 1) data2 else data2
      partialInsertionLoop a b steps data3 i1

/-- The function `partialInsertionSort(data, a, b)` of Go's package `sort`; it
returns the slice and whether it is sorted at the end. -/
def partialInsertionSort (data : List Field) (a b : Nat) : List Field × Bool :=
  partialInsertionLoop a b 5 data (a + 1)

/-- The loop `for i < j { data.Swap(i, j); i++; j-- }` of `reverseRange`. -/
def reverseLoop : Nat → Nat → Nat → List Field → List Field
  | 0, _, _, data => data
  | fuel + 1, i, j, data =>
    if i < j then reverseLoop fuel (i + 1) (j - 1) (Swap data i j) else data

/-- The function `reverseRange(data, a, b)` of Go's package `sort`. -/
def reverseRange (data : List Field) (a b : Nat) : List Field :=
  reverseLoop (b - a) a (b - 1) data

/-- The method `(*xorshift).Next` of Go's package `sort`, on `uint64`:
`*r ^= *r << 13; *r ^= *r >> 7; *r ^= *r << 17`. -/
def xorshiftNext (r : Nat) : Nat :=
  let r1 := r ^^^ (r <<< 13 % 18446744073709551616)
  let r2 := r1 ^^^ (r1 >>> 7)
  r2 ^^^ (r2 <<< 17 % 18446744073709551616)

/-- Go's `bits.Len`: the number of bits needed to write `n`. -/
def bitsLen (n : Nat) : Nat :=
  if n = 0 then 0 else Nat.log2 n + 1

/-- The function `nextPowerOfTwo(length)` of Go's package `sort`,
`1 << bits.Len(uint(length))`. -/
def nextPowerOfTwo (length : Nat) : Nat :=
  1 <<< bitsLen length

/-- The loop `for i := 0; i < 3; i++` of `breakPatterns`, at `i` with `n`
iterations to go:
```
other := int(uint(random.Next()) & (modulus - 1))
if other >= length { other -= length }
data.Swap(idx-1+i, a+other)
```
-/
def breakPatternsLoop (a length modulus idx : Nat) :
    Nat → Nat → Nat → List Field → List Field
  | 0, _, _, data => data
  | n + 1, i, random, data =>
    let random1 := xorshiftNext random
    let other0 := random1 &&& (modulus - 1)
    let other := if other0 ≥ length then other0 - length else other0
    breakPatternsLoop a length modulus idx n (i + 1) random1
      (Swap data (idx - 1 + i) (a + other))

/-- The function `breakPatterns(data, a, b)` of Go's package `sort`. -/
def breakPatterns (data : List Field) (a b : Nat) : List Field :=
  let length := b - a
  if length ≥ 8 then
    breakPatternsLoop a length (nextPowerOfTwo length) (a + (length / 4) * 2 - 1)
      3 0 length data
  else data

/-- The type `sortedHint` of Go's package `sort`. -/
inductive sortedHint where
  | unknownHint
  | increasingHint
  | decreasingHint
deriving DecidableEq

/-- The function `order2(data, a, b, swaps)` of Go's package `sort`; the
counter `*swaps` is the third component of the result. -/
def order2 (data : List Field) (a b swaps : Nat) : Nat × Nat × Nat :=
  if LessAt data b a = true then (b, a, swaps + 1) else (a, b, swaps)

/-- The function `median(data, a, b, c, swaps)` of Go's package `sort`:
```
a, b = order2(data, a, b, swaps)
b, c = order2(data, b, c, swaps)
a, b = order2(data, a, b, swaps)
return b
```
-/
def median (data : List Field) (a b c swaps : Nat) : Nat × Nat :=
  let r1 := order2 data a b swaps
  let r2 := order2 data r1.2.1 c r1.2.2
  let r3 := order2 data r1.1 r2.1 r2.2.2
  (r3.2.1, r3.2.2)

/-- The function `medianAdjacent(data, a, swaps)` of Go's package `sort`. -/
def medianAdjacent (data : List Field) (a swaps : Nat) : Nat × Nat :=
  median data (a - 1) a (a + 1) swaps

/-- The function `choosePivot(data, a, b)` of Go's package `sort`;
`shortestNinther = 50`, `maxSwaps = 4 * 3`. -/
def choosePivot (data : List Field) (a b : Nat) : Nat × sortedHint :=
  let l := b - a
  let i := a + l / 4 * 1
  let j := a + l / 4 * 2
  let k := a + l / 4 * 3
  if l ≥ 8 then
    let m : Nat × Nat × Nat × Nat :=
      if l ≥ 50 then
        let mi := medianAdjacent data i 0
        let mj := medianAdjacent data j mi.2
        let mk := medianAdjacent data k mj.2
        (mi.1, mj.1, mk.1, mk.2)
      else (i, j, k, 0)
    let r := median data m.1 m.2.1 m.2.2.1 m.2.2.2
    (r.1,
      if r.2 = 0 then sortedHint.increasingHint
      else if r.2 = 4 * 3 then sortedHint.decreasingHint
      else sortedHint.unknownHint)
  else (j, sortedHint.increasingHint)

/-- The loop `for { ... }` of `pdqsort(data, a, b, limit)`, with its local
variables `wasBalanced` and `wasPartitioned`; `maxInsertion = 12`. The call
`pdqsort(data, a, mid, limit)` inside the loop enters the loop afresh, with
both variables `true`. Every turn of the loop and every call works on a
shorter range, so `fuel = b - a` is never used up. -/
def pdqsortLoop : Nat → List Field → Nat → Nat → Nat → Bool → Bool → List Field
  | 0, data, _, _, _, _, _ => data
  | fuel + 1, data, a, b, limit, wasBalanced, wasPartitioned =>
    let length := b - a
    if length ≤ 12 then insertionSort data a b
    else if limit = 0 then heapSort data a b
    else
      let data1 := if !wasBalanced then breakPatterns data a b else data
      let limit1 := if !wasBalanced then limit - 1 else limit
      let ph := choosePivot data1 a b
      let data2 :=
        if ph.2 = sortedHint.decreasingHint then reverseRange data1 a b else data1
      let pivot :=
        if ph.2 = sortedHint.decreasingHint then (b - 1) - (ph.1 - a) else ph.1
      let hint :=
        if ph.2 = sortedHint.decreasingHint then sortedHint.increasingHint else ph.2
      let pis :=
        if wasBalanced && wasPartitioned && hint = sortedHint.increasingHint then
          partialInsertionSort data2 a b
        else (data2, false)
      if pis.2 = true then pis.1
      else if a > 0 ∧ LessAt pis.1 (a - 1) pivot = false then
        let pe := partitionEqual pis.1 a b pivot
        pdqsortLoop fuel pe.1 pe.2 b limit1 wasBalanced wasPartitioned
      else
        let pt := partition pis.1 a b pivot
        let mid := pt.2.1
        let leftLen := mid - a
        let rightLen := b - mid
        let balanceThreshold := length / 8
        if leftLen < rightLen then
          pdqsortLoop fuel (pdqsortLoop fuel pt.1 a mid limit1 true true)
            (mid + 1) b limit1 (decide (leftLen ≥ balanceThreshold)) pt.2.2
        else
          pdqsortLoop fuel (pdqsortLoop fuel pt.1 (mid + 1) b limit1 true true)
            a mid limit1 (decide (rightLen ≥ balanceThreshold)) pt.2.2

/-- The function `pdqsort(data, a, b, limit)` of Go's package `sort`. -/
def pdqsort (data : List Field) (a b limit : Nat) : List Field :=
  pdqsortLoop (b - a) data a b limit true true

/-- The function `sort.Sort(data)` of Go's standard library, on the methods
`Len`, `Less` and `Swap` of the source:
```
n := data.Len()
if n <= 1 { return }
limit := bits.Len(uint(n))
pdqsort(data, 0, n, limit)
```
-/
def sortSort (data : List Field) : List Field :=
  let n := Len data
  if n ≤ 1 then data else pdqsort data 0 n (bitsLen n)

/-- The function `optimize` of the source, `sort.Sort(&byAlignAndSize{fields})`.
The slice sorted in place is the result. -/
def optimize (fields : List Field) : List Field :=
  sortSort fields

/-- Go's `strings.Split(s, ".")` on the characters of `s`. -/
def splitDotChars : List Char → List (List Char)
  | [] => [[]]
  | c :: cs =>
    if c = '.' then [] :: splitDotChars cs
    else
      match splitDotChars cs with
      | [] => [[c]]
      | p :: ps => (c :: p) :: ps

/-- The two lines `p := strings.Split(field.Name, ".")` and
`strings.Join(p[:2], ".")` of `combine`; `p[:2]` panics when the name has
fewer than two components. -/
def twoComponents (name : String) : Option String :=
  match splitDotChars name.toList with
  | a :: b :: _ => some (String.mk a ++ "." ++ String.mk b)
  | _ => none

/-- The local variables of `combine` that live across loop iterations. -/
structure CombineState where
  new : Field
  cur : String
  out : List Field
  wasPad : Bool
deriving DecidableEq

/-- The state of `combine` before its loop. -/
def combineInit : CombineState :=
  { new := zeroField, cur := "", out := [], wasPad := true }

/-- One iteration of the loop of `combine`. -/
def combineStep (st : CombineState) (field : Field) : Option CombineState :=
  if field.IsPadding then
    some { st with wasPad := true }
  else do
    let pfx ← twoComponents field.Name
    let new1 : Field :=
      if field.Align > st.new.Align then { st.new with Align := field.Align }
      else st.new
    let new2 : Field :=
      if !st.wasPad then
        { new1 with End := field.Start, Size := subInt64 field.Start new1.Start }
      else new1
    if pfx != st.cur then
      let out1 := if st.cur != "" then st.out ++ [new2] else st.out
      pure { new := { field with Name := pfx }, cur := pfx, out := out1,
             wasPad := false }
    else
      pure { new := { new2 with Typ := "struct" }, cur := st.cur, out := st.out,
             wasPad := false }

/-- The loop of `combine`. -/
def combineLoop (st : CombineState) : List Field → Option CombineState
  | [] => some st
  | field :: rest => do
    let st1 ← combineStep st field
    combineLoop st1 rest

/-- The function `combine` of the source. -/
def combine (fields : List Field) : Option (List Field) := do
  let st ← combineLoop combineInit fields
  let new : Field := { st.new with Size := subInt64 st.new.End st.new.Start }
  pure (st.out ++ [new])

/-- The function `main` of the source between the decoding of its input and
the printing of its output: the fields that are printed. `fRecurse` is the
flag `-r`; on an empty input `main` returns before it prints anything. -/
def main (fRecurse : Bool) (input : List Field) : Option (List Field) :=
  if input.length = 0 then some []
  else do
    let input1 ← if !fRecurse then combine input else pure input
    let fields := input1.filter (fun field => !field.IsPadding)
    pad (optimize fields)

/-! ## Vocabulary of the statements -/

/-- The sizes and alignments of the fields add up to an `int64`: with fields
of positive alignment and non-negative size this keeps every sum formed by
`offsetsof` and `pad` inside the `int64` range. -/
def noOverflow (fields : List Field) : Prop :=
  (fields.map (fun f => f.Size + f.Align)).sum ≤ maxInt64

instance (fields : List Field) : Decidable (noOverflow fields) := by
  unfold noOverflow
  infer_instance

/-- The members of a field that `pad` leaves alone. -/
def content (f : Field) : String × String × Int × Int × Bool :=
  (f.Name, f.Typ, f.Size, f.Align, f.IsPadding)

/-- The two-component prefixes of the fields that are not padding markers,
in input order. -/
def prefixesOf (fields : List Field) : List String :=
  (fields.filter (fun f => !f.IsPadding)).filterMap
    (fun f => twoComponents f.Name)

/-- The distinct values of a list, each once, in order of first appearance. -/
def distinctInOrder : List String → List String
  | [] => []
  | x :: xs => x :: (distinctInOrder xs).filter (fun y => y != x)

/-- Every maximal run of consecutive equal values reduced to one value. -/
def collapseRuns : List String → List String
  | x :: y :: rest =>
    if x = y then collapseRuns (y :: rest) else x :: collapseRuns (y :: rest)
  | l => l

/-- Equal values are consecutive: a value followed by a different one does
not come back. -/
def runsConsecutive : List String → Prop
  | x :: y :: rest => (x ≠ y → x ∉ rest) ∧ runsConsecutive (y :: rest)
  | _ => True

instance decidableRunsConsecutive :
    (l : List String) → Decidable (runsConsecutive l)
  | [] => isTrue trivial
  | [_] => isTrue trivial
  | x :: y :: rest =>
    have : Decidable (runsConsecutive (y :: rest)) :=
      decidableRunsConsecutive (y :: rest)
    inferInstanceAs (Decidable ((x ≠ y → x ∉ rest) ∧ runsConsecutive (y :: rest)))

/-- The total size of a layout: the `End` of its last entry, 0 when there is
no entry. -/
def totalSize (out : List Field) : Int :=
  match out.getLast? with
  | some e => e.End
  | none => 0

/-- The members of an entry that describe the layout, all but `Name` and
`Type`. -/
def layout (e : Field) : Int × Int × Int × Int × Bool :=
  (e.Start, e.End, e.Size, e.Align, e.IsPadding)

/-- The simple cumulative sum: every field starts where the previous one
ends, the first one at `o`. -/
def packFrom (o : Int) : List Field → List Field
  | [] => []
  | f :: rest =>
    { f with Start := o, End := o + f.Size } :: packFrom (o + f.Size) rest

/-- The entries are placed one after the other from `prevEnd` on: each one
starts at the smallest multiple of its `Align` that is not before the end of
the previous one, and ends `Size` bytes later. -/
def placedFrom (prevEnd : Int) : List Field → Prop
  | [] => True
  | e :: rest =>
    (e.Align ∣ e.Start ∧ prevEnd ≤ e.Start ∧
      ∀ m, e.Align ∣ m → prevEnd ≤ m → e.Start ≤ m) ∧
    e.End = e.Start + e.Size ∧ placedFrom e.End rest

/-- The two members of a field that `Less` and the offset computation read. -/
def sortKey (f : Field) : Int × Int :=
  (f.Size, f.Align)

/-- A field with a given size and alignment and nothing else. -/
def keyField (k : Int × Int) : Field :=
  { Name := "", Typ := "", Start := 0, End := 0, Size := k.1, Align := k.2,
    IsPadding := false }

/-- The slice `s'` comes from `s` by moving elements inside `[a, b)`: same
length, a permutation, nothing changed outside `[a, b)`, and every element
in `[a, b)` was in `[a, b)` before. -/
structure Within (a b : Nat) (s s' : List Field) : Prop where
  length_eq : s'.length = s.length
  perm : s'.Perm s
  outside : ∀ i, (i < a ∨ b ≤ i) → fieldAt s' i = fieldAt s i
  inside : ∀ i, a ≤ i → i < b → ∃ k, a ≤ k ∧ k < b ∧ fieldAt s' i = fieldAt s k

/-- The range `[a, b)` of the slice is in order: no element is `Less` than the
one before it. -/
def SortedRange (a b : Nat) (s : List Field) : Prop :=
  ∀ i, a ≤ i → i + 1 < b → Less (fieldAt s (i + 1)) (fieldAt s i) = false

/-- No element of `[a, b)` is `Less` than the element before the range, when
there is one. -/
def LowerBounded (a b : Nat) (s : List Field) : Prop :=
  0 < a → ∀ k, a ≤ k → k < b → Less (fieldAt s k) (fieldAt s (a - 1)) = false

/-- Below `first + hi`, every node `r ≥ lo` of the heap rooted at `first` is
not `Less` than its children. -/
def HeapAbove (first lo hi : Nat) (s : List Field) : Prop :=
  ∀ r c, lo ≤ r → c < hi → (c = 2 * r + 1 ∨ c = 2 * r + 2) →
    Less (fieldAt s (first + r)) (fieldAt s (first + c)) = false

/-- The element at `mid` separates `[a, b)`: everything before it is `Less`
than it, nothing after it is. -/
def PivotAt (a mid b : Nat) (s : List Field) : Prop :=
  (∀ k, a ≤ k → k < mid → Less (fieldAt s k) (fieldAt s mid) = true) ∧
    (∀ k, mid < k → k < b → Less (fieldAt s k) (fieldAt s mid) = false)

/-! ## Sample inputs -/

/-- The input of the first end-to-end scenario: a four-byte `a`, four bytes of
padding, an eight-byte `b`. -/
def scenario1 : List Field :=
  [{ Name := "a", Typ := "int32", Start := 0, End := 4, Size := 4, Align := 4,
     IsPadding := false },
   { Name := "pad", Typ := "", Start := 4, End := 8, Size := 4, Align := 0,
     IsPadding := true },
   { Name := "b", Typ := "int64", Start := 8, End := 16, Size := 8, Align := 8,
     IsPadding := false }]

/-- The two members of the nested struct `T.a`, contiguous, and nothing else. -/
def nestedOnly : List Field :=
  [{ Name := "T.a.x", Typ := "int32", Start := 0, End := 4, Size := 4,
     Align := 4, IsPadding := false },
   { Name := "T.a.y", Typ := "int32", Start := 4, End := 8, Size := 4,
     Align := 4, IsPadding := false }]

/-- Fields of (size, alignment) (5, 4), (4, 4), (3, 1), in the order that
`optimize` gives them. -/
def greedyFields : List Field :=
  [{ Name := "a", Typ := "t", Start := 0, End := 0, Size := 5, Align := 4,
     IsPadding := false },
   { Name := "b", Typ := "t", Start := 0, End := 0, Size := 4, Align := 4,
     IsPadding := false },
   { Name := "c", Typ := "t", Start := 0, End := 0, Size := 3, Align := 1,
     IsPadding := false }]

/-- The fields of `greedyFields` in the order (5, 4), (3, 1), (4, 4). -/
def betterOrder : List Field :=
  [{ Name := "a", Typ := "t", Start := 0, End := 0, Size := 5, Align := 4,
     IsPadding := false },
   { Name := "c", Typ := "t", Start := 0, End := 0, Size := 3, Align := 1,
     IsPadding := false },
   { Name := "b", Typ := "t", Start := 0, End := 0, Size := 4, Align := 4,
     IsPadding := false }]

/-- Two one-byte fields aligned to 4. -/
def twoBytesAligned4 : List Field :=
  [{ Name := "a", Typ := "t", Start := 0, End := 0, Size := 1, Align := 4,
     IsPadding := false },
   { Name := "b", Typ := "t", Start := 0, End := 0, Size := 1, Align := 4,
     IsPadding := false }]

/-- Two four-byte fields aligned to 4, and the same two the other way round. -/
def twoWords : List Field :=
  [{ Name := "a", Typ := "int32", Start := 0, End := 0, Size := 4, Align := 4,
     IsPadding := false },
   { Name := "b", Typ := "uint32", Start := 0, End := 0, Size := 4, Align := 4,
     IsPadding := false }]

/-- The fields of `twoWords` in the other order. -/
def twoWordsSwapped : List Field :=
  [{ Name := "b", Typ := "uint32", Start := 0, End := 0, Size := 4, Align := 4,
     IsPadding := false },
   { Name := "a", Typ := "int32", Start := 0, End := 0, Size := 4, Align := 4,
     IsPadding := false }]

/-- A field of the largest size, a one-byte field, and a zero-sized field
aligned to 2. -/
def hugeByteEven : List Field :=
  [{ Name := "a", Typ := "t", Start := 0, End := 0,
     Size := 9223372036854775807, Align := 1, IsPadding := false },
   { Name := "b", Typ := "t", Start := 0, End := 0, Size := 1, Align := 1,
     IsPadding := false },
   { Name := "c", Typ := "t", Start := 0, End := 0, Size := 0, Align := 2,
     IsPadding := false }]

/-- Three fields of size `2^63 - 2` aligned to 2. -/
def threeHugeEven : List Field :=
  [{ Name := "a", Typ := "t", Start := 0, End := 0,
     Size := 9223372036854775806, Align := 2, IsPadding := false },
   { Name := "b", Typ := "t", Start := 0, End := 0,
     Size := 9223372036854775806, Align := 2, IsPadding := false },
   { Name := "c", Typ := "t", Start := 0, End := 0,
     Size := 9223372036854775806, Align := 2, IsPadding := false }]

/-- A zero-sized field between two fields of non-zero size. -/
def zeroInTheMiddle : List Field :=
  [{ Name := "a", Typ := "int64", Start := 0, End := 8, Size := 8, Align := 8,
     IsPadding := false },
   { Name := "z", Typ := "struct{}", Start := 8, End := 8, Size := 0, Align := 1,
     IsPadding := false },
   { Name := "b", Typ := "int8", Start := 8, End := 9, Size := 1, Align := 1,
     IsPadding := false }]

/-- Two members of `T.a` separated by `T.b`. -/
def interleaved : List Field :=
  [{ Name := "T.a", Typ := "int32", Start := 0, End := 4, Size := 4, Align := 4,
     IsPadding := false },
   { Name := "T.b", Typ := "int32", Start := 4, End := 8, Size := 4, Align := 4,
     IsPadding := false },
   { Name := "T.a.x", Typ := "int32", Start := 8, End := 12, Size := 4,
     Align := 4, IsPadding := false }]

/-- The struct `T { a struct { x, y int32 }; b int64 }` as a flat field list. -/
def nestedThenWord : List Field :=
  [{ Name := "T.a.x", Typ := "int32", Start := 0, End := 4, Size := 4,
     Align := 4, IsPadding := false },
   { Name := "T.a.y", Typ := "int32", Start := 4, End := 8, Size := 4,
     Align := 4, IsPadding := false },
   { Name := "T.b", Typ := "int64", Start := 8, End := 16, Size := 8,
     Align := 8, IsPadding := false }]

/-- The struct `T { a int32; b int64 }` with its four bytes of padding. -/
def wordPaddingLong : List Field :=
  [{ Name := "T.a", Typ := "int32", Start := 0, End := 4, Size := 4, Align := 4,
     IsPadding := false },
   { Name := "", Typ := "", Start := 4, End := 8, Size := 4, Align := 0,
     IsPadding := true },
   { Name := "T.b", Typ := "int64", Start := 8, End := 16, Size := 8,
     Align := 8, IsPadding := false }]

/-- A one-byte field followed by a four-byte field aligned to 4. -/
def byteThenWord : List Field :=
  [{ Name := "a", Typ := "int8", Start := 0, End := 1, Size := 1, Align := 1,
     IsPadding := false },
   { Name := "b", Typ := "int32", Start := 4, End := 8, Size := 4, Align := 4,
     IsPadding := false }]

/-- Three fields of the largest `int64` size and alignment 1. -/
def threeHuge : List Field :=
  [{ Name := "a", Typ := "t", Start := 0, End := 0,
     Size := 9223372036854775807, Align := 1, IsPadding := false },
   { Name := "b", Typ := "t", Start := 0, End := 0,
     Size := 9223372036854775807, Align := 1, IsPadding := false },
   { Name := "c", Typ := "t", Start := 0, End := 0,
     Size := 9223372036854775807, Align := 1, IsPadding := false }]

/-- A field of the largest `int64` size followed by a zero-sized field
aligned to 2. -/
def hugeThenEven : List Field :=
  [{ Name := "a", Typ := "t", Start := 0, End := 0,
     Size := 9223372036854775807, Align := 1, IsPadding := false },
   { Name := "b", Typ := "t", Start := 0, End := 0, Size := 0, Align := 2,
     IsPadding := false }]

/-! ## Theorems -/

/-! ### Fixed-width arithmetic -/

theorem wrap64_of_inRange (v : Int) (h1 : minInt64 ≤ v) (h2 : v ≤ maxInt64) :
    wrap64 v = v := by
  unfold minInt64 at h1
  unfold maxInt64 at h2
  unfold wrap64
  omega

theorem addInt64_of_inRange (a b : Int) (h1 : minInt64 ≤ a + b)
    (h2 : a + b ≤ maxInt64) : addInt64 a b = a + b :=
  wrap64_of_inRange _ h1 h2

theorem subInt64_of_inRange (a b : Int) (h1 : minInt64 ≤ a - b)
    (h2 : a - b ≤ maxInt64) : subInt64 a b = a - b :=
  wrap64_of_inRange _ h1 h2

/-- The first line of `align`: the two wrapped operations of `x + a - 1` give
the exact value as soon as that value is an `int64`, also when `x + a` alone
is not. -/
theorem align_numerator (x a : Int) (h1 : minInt64 ≤ x + a - 1)
    (h2 : x + a - 1 ≤ maxInt64) : subInt64 (addInt64 x a) 1 = x + a - 1 := by
  unfold minInt64 at h1
  unfold maxInt64 at h2
  unfold subInt64 addInt64 wrap64
  omega

/-- What `align` returns on a non-negative `x` and a positive `a` when
`x + a - 1` is an `int64`. -/
theorem align_eq (x a : Int) (hx : 0 ≤ x) (ha : 0 < a)
    (hfit : x + a - 1 ≤ maxInt64) :
    align x a = some (x + a - 1 - (x + a - 1) % a) := by
  have hy : subInt64 (addInt64 x a) 1 = x + a - 1 :=
    align_numerator x a (by unfold minInt64; omega) hfit
  have hy0 : 0 ≤ x + a - 1 := by omega
  have hr0 : 0 ≤ (x + a - 1) % a := Int.emod_nonneg _ (by omega)
  have hr1 : (x + a - 1) % a < a := Int.emod_lt_of_pos _ ha
  have hne : a ≠ 0 := by omega
  have hsub : subInt64 (x + a - 1) ((x + a - 1) % a)
      = x + a - 1 - (x + a - 1) % a :=
    subInt64_of_inRange _ _ (by unfold minInt64; omega) (by omega)
  simp only [align, hy, remInt64, hne, if_false, Option.bind_eq_bind,
    Option.some_bind, Option.pure_def, Int.tmod_eq_emod hy0 (Int.le_of_lt ha), hsub]

/-- The value of `align_eq` is a multiple of `a` in the interval `[x, x + a)`. -/
theorem align_value_bounds (x a : Int) (ha : 0 < a) :
    a ∣ x + a - 1 - (x + a - 1) % a ∧ x ≤ x + a - 1 - (x + a - 1) % a ∧
      x + a - 1 - (x + a - 1) % a < x + a := by
  have hr0 : 0 ≤ (x + a - 1) % a := Int.emod_nonneg _ (by omega)
  have hr1 : (x + a - 1) % a < a := Int.emod_lt_of_pos _ ha
  refine ⟨?_, by omega, by omega⟩
  exact Int.dvd_sub_of_emod_eq rfl

/-- C1. For `x ≥ 0` and `a > 0` such that `x + a - 1` is an `int64` (no
overflow), `align x a` returns the smallest multiple of `a` that is `≥ x`:
`a` divides it, it is `≥ x`, it is `< x + a`, and no multiple of `a` that is
`≥ x` is smaller. -/
theorem align_smallest_multiple (x a : Int) (hx : 0 ≤ x) (ha : 0 < a)
    (hfit : x + a - 1 ≤ maxInt64) :
    ∃ y, align x a = some y ∧ a ∣ y ∧ x ≤ y ∧ y < x + a ∧
      ∀ m, a ∣ m → x ≤ m → y ≤ m := by
  obtain ⟨hdvd, hle, hlt⟩ := align_value_bounds x a ha
  refine ⟨_, align_eq x a hx ha hfit, hdvd, hle, hlt, ?_⟩
  intro m hm hxm
  by_contra hcon
  have hpos : 0 < x + a - 1 - (x + a - 1) % a - m := by omega
  have := Int.le_of_dvd hpos (Int.dvd_sub hdvd hm)
  omega

/-- An instance: `align 5 4`. -/
theorem align_smallest_multiple_witness :
    (0 : Int) ≤ 5 ∧ (0 : Int) < 4 ∧ (5 : Int) + 4 - 1 ≤ maxInt64 ∧
      ∃ y, align 5 4 = some y ∧ (4 : Int) ∣ y ∧ 5 ≤ y ∧ y < 5 + 4 ∧
        ∀ m, (4 : Int) ∣ m → 5 ≤ m → y ≤ m :=
  ⟨by decide, by decide, by decide,
    align_smallest_multiple 5 4 (by decide) (by decide) (by decide)⟩

/-! ### When the offset computation panics -/

theorem align_eq_none_iff (x a : Int) : align x a = none ↔ a = 0 := by
  by_cases ha : a = 0 <;> simp [align, remInt64, ha]

theorem offsetsofLoop_eq_none_iff (fields : List Field) :
    ∀ o, offsetsofLoop o fields = none ↔ ∃ f ∈ fields, f.Align = 0 := by
  induction fields with
  | nil => intro o; simp [offsetsofLoop]
  | cons f rest ih =>
    intro o
    by_cases ha : f.Align = 0
    · have hnone : align o f.Align = none := (align_eq_none_iff o f.Align).mpr ha
      have hex : ∃ g ∈ f :: rest, g.Align = 0 := ⟨f, List.mem_cons_self _ _, ha⟩
      simp only [offsetsofLoop, hnone, Option.bind_eq_bind, Option.none_bind, true_iff]
      exact hex
    · cases hal : align o f.Align with
      | none => exact absurd ((align_eq_none_iff o f.Align).mp hal) ha
      | some o1 =>
        cases hrest : offsetsofLoop (addInt64 o1 f.Size) rest with
        | none =>
          have := (ih (addInt64 o1 f.Size)).mp hrest
          simp [offsetsofLoop, hal, hrest, ha, this]
        | some offsets =>
          have hno : ¬ ∃ g ∈ rest, g.Align = 0 := by
            intro hex
            have := (ih (addInt64 o1 f.Size)).mpr hex
            simp [hrest] at this
          simp only [not_exists, not_and] at hno
          simp [offsetsofLoop, hal, hrest, ha]
          exact hno

theorem offsetsofLoop_length (fields : List Field) :
    ∀ o offsets, offsetsofLoop o fields = some offsets →
      offsets.length = fields.length := by
  induction fields with
  | nil => intro o offsets h; simp [offsetsofLoop] at h; simp [h]
  | cons f rest ih =>
    intro o offsets h
    cases hal : align o f.Align with
    | none => simp [offsetsofLoop, hal] at h
    | some o1 =>
      cases hrest : offsetsofLoop (addInt64 o1 f.Size) rest with
      | none => simp [offsetsofLoop, hal, hrest] at h
      | some offs =>
        simp [offsetsofLoop, hal, hrest] at h
        subst h
        simp [ih _ _ hrest]

theorem pad_eq_none_iff (fields : List Field) :
    pad fields = none ↔ ∃ f ∈ fields, f.Align = 0 := by
  rw [← offsetsofLoop_eq_none_iff fields 0]
  cases h : offsetsofLoop 0 fields <;> simp [pad, offsetsof, h]

/-- With no zero alignment `pad` returns, and what it returns is the loop of
`pad` run on the offsets of `offsetsof`. -/
theorem pad_eq_some (fields : List Field) (h : ∀ f ∈ fields, f.Align ≠ 0) :
    ∃ offsets, offsetsofLoop 0 fields = some offsets ∧
      offsets.length = fields.length ∧
      pad fields = some (padLoop 0 fields offsets) := by
  cases hoff : offsetsofLoop 0 fields with
  | none =>
    obtain ⟨f, hf, hz⟩ := (offsetsofLoop_eq_none_iff fields 0).mp hoff
    exact absurd hz (h f hf)
  | some offsets =>
    exact ⟨offsets, rfl, offsetsofLoop_length fields 0 offsets hoff,
      by simp [pad, offsetsof, hoff]⟩

/-- C8 (amended). The offset computation fails exactly on a zero alignment:
`align x a` panics if and only if `a = 0`, and `offsetsof` and `pad` panic
if and only if some field has `Align = 0`. A negative alignment is no
failure: there `align`, `offsetsof` and `pad` return a value. -/
theorem offsets_fail_iff_zero_align :
    (∀ x a, align x a = none ↔ a = 0) ∧
    (∀ fields, offsetsof fields = none ↔ ∃ f ∈ fields, f.Align = 0) ∧
    (∀ fields, pad fields = none ↔ ∃ f ∈ fields, f.Align = 0) :=
  ⟨align_eq_none_iff, fun fields => offsetsofLoop_eq_none_iff fields 0,
    pad_eq_none_iff⟩

/-- C8, as stated, fails: the alignment `-1` is `≤ 0`, yet `align 0 (-1)`
returns `-2`, and `pad` returns a layout for the one field of size 1 and
alignment `-1`. -/
theorem align_negative_returns :
    (-1 : Int) ≤ 0 ∧ align 0 (-1) = some (-2) ∧
    pad [{ Name := "x", Typ := "int8", Start := 0, End := 1, Size := 1,
           Align := -1, IsPadding := false }] =
      some [{ Name := "x", Typ := "int8", Start := 0, End := 1, Size := 1,
              Align := -1, IsPadding := false }] := by
  decide

/-! ### The loop of `pad` -/

/-- The first entry that the loop of `pad` emits starts at the cursor, and
every entry ends where the next one starts. No bound on the values is
needed: the cursor and the `End` written are the same wrapped sum. -/
theorem padLoop_tiles (fields : List Field) :
    ∀ pos offsets,
      (∀ e ∈ (padLoop pos fields offsets).head?, e.Start = pos) ∧
      List.Chain' (fun e e' : Field => e.End = e'.Start)
        (padLoop pos fields offsets) := by
  induction fields with
  | nil => intro pos offsets; simp [padLoop]
  | cons f rest ih =>
    intro pos offsets
    cases offsets with
    | nil => simp [padLoop]
    | cons off offs =>
      by_cases hgt : off > pos
      · obtain ⟨hhead, hchain⟩ :=
          ih (addInt64 (addInt64 pos (subInt64 off pos)) f.Size) offs
        simp only [padLoop, hgt, if_true, List.head?_cons, Option.mem_def,
          Option.some.injEq, forall_eq', paddingField, true_and]
        refine List.chain'_cons.mpr ⟨rfl, ?_⟩
        refine List.chain'_cons'.mpr ⟨?_, hchain⟩
        intro e he
        exact (hhead e he).symm
      · obtain ⟨hhead, hchain⟩ := ih (addInt64 pos f.Size) offs
        simp only [padLoop, hgt, if_false, List.head?_cons, Option.mem_def,
          Option.some.injEq, forall_eq', true_and]
        refine List.chain'_cons'.mpr ⟨?_, hchain⟩
        intro e he
        exact (hhead e he).symm

/-- Dropping the padding entries from what the loop of `pad` emits gives back
the fields, up to `Start` and `End`. -/
theorem padLoop_content (fields : List Field)
    (hpad : ∀ f ∈ fields, f.IsPadding = false) :
    ∀ pos offsets, offsets.length = fields.length →
      ((padLoop pos fields offsets).filter (fun e => !e.IsPadding)).map content
        = fields.map content := by
  induction fields with
  | nil => intro pos offsets _; simp [padLoop]
  | cons f rest ih =>
    intro pos offsets hlen
    have hf : f.IsPadding = false := hpad f (List.mem_cons_self _ _)
    have hrest : ∀ g ∈ rest, g.IsPadding = false :=
      fun g hg => hpad g (List.mem_cons_of_mem _ hg)
    cases offsets with
    | nil => simp at hlen
    | cons off offs =>
      have hlen1 : offs.length = rest.length := by simpa using hlen
      by_cases hgt : off > pos
      · simp [padLoop, hgt, paddingField, hf, content, ih hrest _ offs hlen1]
      · simp [padLoop, hgt, hf, content, ih hrest _ offs hlen1]

/-- One iteration of the loop of `pad` when the offset is not before the
cursor and both are non-negative `int64` values: an optional padding entry
up to the offset, then the field at the offset. -/
theorem padLoop_cons_eq (o o1 : Int) (f : Field) (rest : List Field)
    (offsets : List Int) (ho : 0 ≤ o) (h1 : o ≤ o1) (h2 : o1 ≤ maxInt64) :
    padLoop o (f :: rest) (o1 :: offsets) =
      (if o < o1 then
        [{ Name := "", Typ := "", Start := o, End := o1, Size := o1 - o,
           Align := 0, IsPadding := true }]
       else []) ++
      ({ f with Start := o1, End := addInt64 o1 f.Size } ::
        padLoop (addInt64 o1 f.Size) rest offsets) := by
  by_cases hlt : o < o1
  · have hsub : subInt64 o1 o = o1 - o :=
      subInt64_of_inRange _ _ (by unfold minInt64; omega) (by omega)
    have hadd : addInt64 o (o1 - o) = o1 := by
      rw [addInt64_of_inRange _ _ (by unfold minInt64; omega) (by omega)]
      omega
    have hgt : o1 > o := hlt
    simp [padLoop, hgt, hlt, hsub, hadd, paddingField]
  · have heq : o1 = o := by omega
    subst heq
    simp [padLoop]

/-- The layout invariant of `pad` on fields of positive alignment and
non-negative size whose sizes and alignments, added to the cursor, stay
within `int64`: `offsetsof` returns, no entry starts before the cursor, the
starts never decrease, a padding entry has `Align = 0`, and every other entry
starts at a multiple of its positive alignment. -/
theorem padLoop_layout (fields : List Field) :
    ∀ o, 0 ≤ o →
      (∀ f ∈ fields, f.IsPadding = false ∧ 0 < f.Align ∧ 0 ≤ f.Size) →
      o + (fields.map (fun f => f.Size + f.Align)).sum ≤ maxInt64 →
      ∃ offsets, offsetsofLoop o fields = some offsets ∧
        (∀ e ∈ padLoop o fields offsets, o ≤ e.Start ∧
          ((e.IsPadding = true ∧ e.Align = 0) ∨
           (e.IsPadding = false ∧ 0 < e.Align ∧ e.Align ∣ e.Start))) ∧
        List.Chain' (fun e e' : Field => e.Start ≤ e'.Start)
          (padLoop o fields offsets) := by
  induction fields with
  | nil => intro o _ _ _; exact ⟨[], rfl, by simp [padLoop], by simp [padLoop]⟩
  | cons f rest ih =>
    intro o ho h hsum
    obtain ⟨hfp, hfa, hfs⟩ := h f (List.mem_cons_self _ _)
    have hrest : ∀ g ∈ rest, g.IsPadding = false ∧ 0 < g.Align ∧ 0 ≤ g.Size :=
      fun g hg => h g (List.mem_cons_of_mem _ hg)
    have hsum0 : 0 ≤ (rest.map (fun f => f.Size + f.Align)).sum := by
      apply List.sum_nonneg
      intro v hv
      obtain ⟨g, hg, rfl⟩ := List.mem_map.mp hv
      have := hrest g hg
      omega
    simp only [List.map_cons, List.sum_cons] at hsum
    obtain ⟨hdvd, hle, hlt⟩ := align_value_bounds o f.Align hfa
    have hal := align_eq o f.Align ho hfa (by omega)
    generalize o + f.Align - 1 - (o + f.Align - 1) % f.Align = o1 at hdvd hle hlt hal
    have hnext : addInt64 o1 f.Size = o1 + f.Size :=
      addInt64_of_inRange _ _ (by unfold minInt64; omega) (by omega)
    obtain ⟨offs, hoffs, hall, hchain⟩ :=
      ih (o1 + f.Size) (by omega) hrest (by omega)
    refine ⟨o1 :: offs, by simp [offsetsofLoop, hal, hnext, hoffs], ?_, ?_⟩
    · intro e he
      rw [padLoop_cons_eq o o1 f rest offs ho hle (by omega), hnext] at he
      rcases List.mem_append.mp he with hp | hf
      · by_cases hlt1 : o < o1
        · simp [hlt1] at hp
          subst hp
          simp
        · simp [hlt1] at hp
      · rcases List.mem_cons.mp hf with hf | hf
        · subst hf
          exact ⟨hle, Or.inr ⟨hfp, hfa, hdvd⟩⟩
        · obtain ⟨h1, h2⟩ := hall e hf
          exact ⟨by omega, h2⟩
    · rw [padLoop_cons_eq o o1 f rest offs ho hle (by omega), hnext]
      have htail : List.Chain' (fun e e' : Field => e.Start ≤ e'.Start)
          ({ f with Start := o1, End := o1 + f.Size } ::
            padLoop (o1 + f.Size) rest offs) := by
        refine List.chain'_cons'.mpr ⟨?_, hchain⟩
        intro e he
        have hmem : e ∈ padLoop (o1 + f.Size) rest offs :=
          List.mem_of_mem_head? he
        have := (hall e hmem).1
        show o1 ≤ e.Start
        omega
      by_cases hlt1 : o < o1
      · simp only [hlt1, if_true, List.singleton_append]
        exact List.chain'_cons.mpr ⟨hle, htail⟩
      · simpa [hlt1] using htail

/-! ### The output of `pad` -/

/-- C2 (amended). For a non-empty padding-free field sequence whose fields
all have `Align > 0` and `Size ≥ 0`, `pad` returns a non-empty sequence whose
first entry starts at 0 and in which every entry ends where the next one
starts; when moreover the sizes and alignments add up to an `int64` (no
overflow), the starts never decrease. -/
theorem pad_tiles_from_zero (fields : List Field) (hne : fields ≠ [])
    (h : ∀ f ∈ fields, f.IsPadding = false ∧ 0 < f.Align ∧ 0 ≤ f.Size) :
    ∃ out, pad fields = some out ∧ out ≠ [] ∧
      out.head?.map (fun e => e.Start) = some 0 ∧
      List.Chain' (fun e e' : Field => e.End = e'.Start) out ∧
      (noOverflow fields →
        List.Chain' (fun e e' : Field => e.Start ≤ e'.Start) out) := by
  obtain ⟨offsets, hoff, hlen, hpad⟩ :=
    pad_eq_some fields (fun f hf => by have := h f hf; omega)
  obtain ⟨hhead, hchain⟩ := padLoop_tiles fields 0 offsets
  have hnonempty : padLoop 0 fields offsets ≠ [] := by
    intro hnil
    have hc := padLoop_content fields (fun f hf => (h f hf).1) 0 offsets hlen
    rw [hnil] at hc
    apply hne
    simpa using hc.symm
  refine ⟨_, hpad, hnonempty, ?_, hchain, ?_⟩
  · cases hout : padLoop 0 fields offsets with
    | nil => exact absurd hout hnonempty
    | cons e rest =>
      have := hhead e (by simp [hout])
      simp [this]
  · intro hfit
    obtain ⟨offs, hoffs, _, hmono⟩ :=
      padLoop_layout fields 0 (le_refl 0) h (by unfold noOverflow at hfit; omega)
    rw [hoff] at hoffs
    cases hoffs
    exact hmono

/-- An instance: the tiling of `byteThenWord`. -/
theorem pad_tiles_from_zero_witness :
    byteThenWord ≠ [] ∧
    (∀ f ∈ byteThenWord, f.IsPadding = false ∧ 0 < f.Align ∧ 0 ≤ f.Size) ∧
    ∃ out, pad byteThenWord = some out ∧ out ≠ [] ∧
      out.head?.map (fun e => e.Start) = some 0 ∧
      List.Chain' (fun e e' : Field => e.End = e'.Start) out ∧
      (noOverflow byteThenWord →
        List.Chain' (fun e e' : Field => e.Start ≤ e'.Start) out) :=
  ⟨by decide, by decide, pad_tiles_from_zero byteThenWord (by decide) (by decide)⟩

/-- C2, as stated, fails: the three fields of `threeHuge` are padding-free
with `Align = 1 > 0` and `Size = 2^63 - 1 ≥ 0`, and `pad` starts them at
`0`, `2^63 - 1` and `-2`: the cursor wraps around and the starts decrease. -/
theorem pad_starts_decrease_on_overflow :
    threeHuge ≠ [] ∧
    (∀ f ∈ threeHuge, f.IsPadding = false ∧ 0 < f.Align ∧ 0 ≤ f.Size) ∧
    (pad threeHuge).map (fun out => out.map (fun e => e.Start))
      = some [0, 9223372036854775807, -2] ∧
    ¬ List.Chain' (fun a b : Int => a ≤ b) [0, 9223372036854775807, -2] := by
  refine ⟨by decide, by decide, by decide, ?_⟩
  intro hchain
  exact absurd (List.chain'_cons.mp (List.chain'_cons.mp hchain).2).1 (by decide)

/-- C3 (amended). For a padding-free field sequence whose fields all have
`Align > 0` and `Size ≥ 0` and whose sizes and alignments add up to an
`int64` (no overflow), every entry of the output of `pad` that is not a
padding entry satisfies `Start % Align == 0`; a padding entry has
`Align = 0`. -/
theorem pad_fields_aligned (fields : List Field)
    (h : ∀ f ∈ fields, f.IsPadding = false ∧ 0 < f.Align ∧ 0 ≤ f.Size)
    (hfit : noOverflow fields) :
    ∃ out, pad fields = some out ∧
      ∀ e ∈ out, (e.IsPadding = false → remInt64 e.Start e.Align = some 0) ∧
        (e.IsPadding = true → e.Align = 0) := by
  obtain ⟨offsets, hoff, _, hpad⟩ :=
    pad_eq_some fields (fun f hf => by have := h f hf; omega)
  obtain ⟨offs, hoffs, hall, _⟩ :=
    padLoop_layout fields 0 (le_refl 0) h (by unfold noOverflow at hfit; omega)
  rw [hoff] at hoffs
  cases hoffs
  refine ⟨_, hpad, ?_⟩
  intro e he
  rcases (hall e he).2 with ⟨hp, ha⟩ | ⟨hp, ha, hdvd⟩
  · exact ⟨fun hnp => by simp [hp] at hnp, fun _ => ha⟩
  · refine ⟨fun _ => ?_, fun hpt => by simp [hp] at hpt⟩
    have hne : e.Align ≠ 0 := by omega
    simp [remInt64, hne, Int.tmod_eq_zero_of_dvd hdvd]

/-- An instance: the alignment of the entries for `byteThenWord`. -/
theorem pad_fields_aligned_witness :
    (∀ f ∈ byteThenWord, f.IsPadding = false ∧ 0 < f.Align ∧ 0 ≤ f.Size) ∧
    noOverflow byteThenWord ∧
    ∃ out, pad byteThenWord = some out ∧
      ∀ e ∈ out, (e.IsPadding = false → remInt64 e.Start e.Align = some 0) ∧
        (e.IsPadding = true → e.Align = 0) :=
  ⟨by decide, by decide, pad_fields_aligned byteThenWord (by decide) (by decide)⟩

/-- C3, as stated, fails twice. In the output of `pad` on `byteThenWord` the
second entry is a padding entry with `Start = 1` and `Align = 0`: 0 does not
divide 1 and `1 % 0` panics. In the output of `pad` on `hugeThenEven`, where
the cursor overflows, the field of alignment 2 starts at the odd offset
`2^63 - 1`. -/
theorem pad_entry_not_aligned :
    (∀ f ∈ byteThenWord, f.IsPadding = false ∧ 0 < f.Align ∧ 0 ≤ f.Size) ∧
    (pad byteThenWord).map
        (fun out => out.map (fun e => (e.IsPadding, e.Start, e.Align)))
      = some [(false, 0, 1), (true, 1, 0), (false, 4, 4)] ∧
    remInt64 1 0 = none ∧ ¬ ((0 : Int) ∣ 1) ∧
    (∀ f ∈ hugeThenEven, f.IsPadding = false ∧ 0 < f.Align ∧ 0 ≤ f.Size) ∧
    (pad hugeThenEven).map
        (fun out => out.map (fun e => (e.IsPadding, e.Start, e.Align)))
      = some [(false, 0, 1), (false, 9223372036854775807, 2)] ∧
    remInt64 9223372036854775807 2 = some 1 := by
  decide

/-- C4. For a padding-free field sequence whose fields all have `Align > 0`,
`pad` returns, and removing the entries with `IsPadding = true` from its
output leaves as many entries as there are fields, in the same order, each
with the `Name`, `Type`, `Size`, `Align` and `IsPadding` of its field. -/
theorem pad_conserves_fields (fields : List Field)
    (h : ∀ f ∈ fields, f.IsPadding = false ∧ 0 < f.Align) :
    ∃ out, pad fields = some out ∧
      (out.filter (fun e => !e.IsPadding)).map content = fields.map content := by
  obtain ⟨offsets, _, hlen, hpad⟩ :=
    pad_eq_some fields (fun f hf => by have := h f hf; omega)
  exact ⟨_, hpad, padLoop_content fields (fun f hf => (h f hf).1) 0 offsets hlen⟩

/-- An instance: the fields of `byteThenWord` are conserved. -/
theorem pad_conserves_fields_witness :
    (∀ f ∈ byteThenWord, f.IsPadding = false ∧ 0 < f.Align) ∧
    ∃ out, pad byteThenWord = some out ∧
      (out.filter (fun e => !e.IsPadding)).map content
        = byteThenWord.map content :=
  ⟨by decide, pad_conserves_fields byteThenWord (by decide)⟩

/-! ### The comparator -/

/-- The comparator as a proposition: zero-sized before non-zero-sized, then
by decreasing alignment, then by decreasing size. -/
theorem Less_iff (a b : Field) :
    Less a b = true ↔
      (a.Size = 0 ∧ b.Size ≠ 0) ∨
      ((a.Size = 0 ↔ b.Size = 0) ∧
        (b.Align < a.Align ∨ (a.Align = b.Align ∧ b.Size < a.Size))) := by
  unfold Less
  by_cases h1 : a.Size = 0 <;> by_cases h2 : b.Size = 0 <;>
    by_cases h3 : a.Align = b.Align <;> by_cases h4 : a.Size = b.Size <;>
    simp [h1, h2, h3, h4]

theorem Less_eq_false_iff (a b : Field) :
    Less a b = false ↔
      ¬ (a.Size = 0 ∧ b.Size ≠ 0) ∧
      ((a.Size = 0 ↔ b.Size = 0) →
        a.Align ≤ b.Align ∧ (a.Align = b.Align → a.Size ≤ b.Size)) := by
  rw [← Bool.not_eq_true, Less_iff]
  by_cases h1 : a.Size = 0 <;> by_cases h2 : b.Size = 0 <;>
    simp [h1, h2]

theorem Less_asymm (a b : Field) (h : Less a b = true) : Less b a = false := by
  rw [Less_iff] at h
  rw [Less_eq_false_iff]
  omega

theorem Less_false_trans (a b c : Field) (hba : Less b a = false)
    (hcb : Less c b = false) : Less c a = false := by
  rw [Less_eq_false_iff] at hba hcb ⊢
  omega

/-- C7. `Less` is a strict weak ordering on all fields, whatever integers
their `Size` and `Align` are: it is irreflexive and transitive, being
incomparable is transitive, and two fields are incomparable exactly when
they have the same `Align` and the same `Size`. -/
theorem Less_strict_weak_order :
    (∀ a, Less a a = false) ∧
    (∀ a b c, Less a b = true → Less b c = true → Less a c = true) ∧
    (∀ a b c, (Less a b = false ∧ Less b a = false) →
      (Less b c = false ∧ Less c b = false) →
      (Less a c = false ∧ Less c a = false)) ∧
    (∀ a b, (Less a b = false ∧ Less b a = false) ↔
      (a.Align = b.Align ∧ a.Size = b.Size)) := by
  refine ⟨?_, ?_, ?_, ?_⟩
  · intro a
    rw [Less_eq_false_iff]
    omega
  · intro a b c hab hbc
    rw [Less_iff] at hab hbc ⊢
    omega
  · intro a b c hab hbc
    rw [Less_eq_false_iff, Less_eq_false_iff] at hab hbc ⊢
    omega
  · intro a b
    rw [Less_eq_false_iff, Less_eq_false_iff]
    omega

/-! ### The sort -/

/-! ### The slice under `Swap` -/

theorem Less_irrefl (a : Field) : Less a a = false := by
  rw [Less_eq_false_iff]
  omega

/-- From `a < b` and `b ≤ c` follows `a < c`. -/
theorem Less_of_Less_of_not_Less (a b c : Field) (hab : Less a b = true)
    (hcb : Less c b = false) : Less a c = true := by
  rw [Less_iff] at hab ⊢
  rw [Less_eq_false_iff] at hcb
  omega

/-- From `a ≤ b` and `b < c` follows `a < c`. -/
theorem Less_of_not_Less_of_Less (a b c : Field) (hba : Less b a = false)
    (hbc : Less b c = true) : Less a c = true := by
  rw [Less_iff] at hbc ⊢
  rw [Less_eq_false_iff] at hba
  omega

theorem length_Swap (s : List Field) (i j : Nat) : (Swap s i j).length = s.length := by
  unfold Swap
  split <;> simp

theorem fieldAt_set (s : List Field) (i k : Nat) (x : Field) (hi : i < s.length) :
    fieldAt (s.set i x) k = if k = i then x else fieldAt s k := by
  unfold fieldAt
  simp only [List.getD_eq_getElem?_getD, List.getElem?_set]
  by_cases hk : k = i
  · subst hk
    simp [hi]
  · have : ¬ i = k := fun h => hk h.symm
    simp [hk, this]

theorem fieldAt_Swap (s : List Field) (i j k : Nat) (hi : i < s.length)
    (hj : j < s.length) :
    fieldAt (Swap s i j) k =
      if k = j then fieldAt s i else if k = i then fieldAt s j else fieldAt s k := by
  unfold Swap
  rw [if_pos ⟨hi, hj⟩, fieldAt_set _ _ _ _ (by simpa using hj), fieldAt_set _ _ _ _ hi]

theorem fieldAt_eq_getElem (s : List Field) (i : Nat) (hi : i < s.length) :
    fieldAt s i = s[i] := by
  unfold fieldAt
  exact List.getD_eq_getElem _ _ hi

theorem Swap_perm (s : List Field) (i j : Nat) : (Swap s i j).Perm s := by
  unfold Swap
  split
  · rename_i h
    obtain ⟨hi, hj⟩ := h
    rw [List.perm_iff_count]
    intro x
    rw [List.count_set _ _ _ _ (by simpa using hj), List.count_set _ _ _ _ hi]
    have hj2 : j < (s.set i (fieldAt s j)).length := by simpa using hj
    have hji : (s.set i (fieldAt s j))[j] = if i = j then fieldAt s j else s[j] := by
      rw [List.getElem_set]
    rw [hji, fieldAt_eq_getElem s i hi, fieldAt_eq_getElem s j hj]
    have hci : (if s[i] == x then 1 else 0) ≤ s.count x := by
      by_cases hx : s[i] == x
      · simp only [hx, if_true]
        have hmem : s[i] ∈ s := List.getElem_mem _
        rw [beq_iff_eq] at hx
        rw [hx] at hmem
        exact List.count_pos_iff.mpr hmem
      · simp [hx]
    have hcj : (if s[j] == x then 1 else 0) ≤ s.count x := by
      by_cases hx : s[j] == x
      · simp only [hx, if_true]
        have hmem : s[j] ∈ s := List.getElem_mem _
        rw [beq_iff_eq] at hx
        rw [hx] at hmem
        exact List.count_pos_iff.mpr hmem
      · simp [hx]
    by_cases hij : i = j
    · subst hij
      simp only [if_true]
      omega
    · simp only [hij, if_false]
      by_cases h1 : s[i] == x <;> by_cases h2 : s[j] == x <;>
        simp only [h1, h2, if_true, if_false, Bool.false_eq_true] at hci hcj ⊢ <;> omega
  · exact List.Perm.refl _

theorem Within.refl (a b : Nat) (s : List Field) : Within a b s s :=
  ⟨rfl, List.Perm.refl _, fun _ _ => rfl, fun i hi hb => ⟨i, hi, hb, rfl⟩⟩

theorem Within.trans {a b : Nat} {s s' s'' : List Field} (h1 : Within a b s s')
    (h2 : Within a b s' s'') : Within a b s s'' := by
  refine ⟨h2.length_eq.trans h1.length_eq, h2.perm.trans h1.perm, ?_, ?_⟩
  · intro i hi
    rw [h2.outside i hi, h1.outside i hi]
  · intro i hi hb
    obtain ⟨k, hk1, hk2, hk⟩ := h2.inside i hi hb
    obtain ⟨k', hk1', hk2', hk'⟩ := h1.inside k hk1 hk2
    exact ⟨k', hk1', hk2', hk.trans hk'⟩

theorem Within.mono {a b a' b' : Nat} {s s' : List Field} (h : Within a' b' s s')
    (ha : a ≤ a') (hb : b' ≤ b) : Within a b s s' := by
  refine ⟨h.length_eq, h.perm, ?_, ?_⟩
  · intro i hi
    exact h.outside i (by omega)
  · intro i hi hib
    by_cases hin : a' ≤ i ∧ i < b'
    · obtain ⟨k, hk1, hk2, hk⟩ := h.inside i hin.1 hin.2
      exact ⟨k, by omega, by omega, hk⟩
    · exact ⟨i, hi, hib, h.outside i (by omega)⟩

theorem Within_Swap (a b : Nat) (s : List Field) (i j : Nat) (hai : a ≤ i)
    (hib : i < b) (haj : a ≤ j) (hjb : j < b) (hb : b ≤ s.length) :
    Within a b s (Swap s i j) := by
  have hi : i < s.length := by omega
  have hj : j < s.length := by omega
  refine ⟨length_Swap s i j, Swap_perm s i j, ?_, ?_⟩
  · intro k hk
    rw [fieldAt_Swap s i j k hi hj]
    have h1 : k ≠ j := by omega
    have h2 : k ≠ i := by omega
    simp [h1, h2]
  · intro k hk1 hk2
    rw [fieldAt_Swap s i j k hi hj]
    by_cases h1 : k = j
    · exact ⟨i, hai, hib, by rw [if_pos h1]⟩
    · by_cases h2 : k = i
      · exact ⟨j, haj, hjb, by rw [if_neg h1, if_pos h2]⟩
      · exact ⟨k, hk1, hk2, by rw [if_neg h1, if_neg h2]⟩

/-- A property of all elements of the range survives a rearrangement inside
the range. -/
theorem Within.forall_inside {a b : Nat} {s s' : List Field} (h : Within a b s s')
    (P : Field → Prop) (hP : ∀ k, a ≤ k → k < b → P (fieldAt s k)) :
    ∀ k, a ≤ k → k < b → P (fieldAt s' k) := by
  intro k hk1 hk2
  obtain ⟨k', h1, h2, h3⟩ := h.inside k hk1 hk2
  rw [h3]
  exact hP k' h1 h2

theorem Within.lowerBounded {a b : Nat} {s s' : List Field} (h : Within a b s s')
    (hl : LowerBounded a b s) : LowerBounded a b s' := by
  intro ha k hk1 hk2
  rw [h.outside (a - 1) (Or.inl (by omega))]
  exact h.forall_inside (fun x => Less x (fieldAt s (a - 1)) = false) (hl ha) k hk1 hk2

/-- In a range in order, no element is `Less` than any element before it. -/
theorem SortedRange.pairwise {a b : Nat} {s : List Field} (h : SortedRange a b s) :
    ∀ n i, a ≤ i → i + n < b → Less (fieldAt s (i + n)) (fieldAt s i) = false := by
  intro n
  induction n with
  | zero => intro i _ _; exact Less_irrefl _
  | succ n ih =>
    intro i hi hn
    have h1 := ih i hi (by omega)
    have h2 := h (i + n) (by omega) (by omega)
    exact Less_false_trans _ _ _ h1 h2

/-! ### `insertionSort` -/

theorem insertionInner_within (a b : Nat) :
    ∀ j s, j < b → b ≤ s.length → a ≤ j → Within a b s (insertionInner a j s) := by
  intro j
  induction j with
  | zero => intro s _ _ _; exact Within.refl _ _ _
  | succ j ih =>
    intro s hj hb ha
    unfold insertionInner
    split
    · rename_i hc
      have hsw := Within_Swap a b s (j + 1) j ha hj (by omega) (by omega) hb
      exact hsw.trans (ih _ (by omega) (by rw [length_Swap]; exact hb) (by omega))
    · exact Within.refl _ _ _

/-- The inner loop of `insertionSort` entered at `j`, with `[a, j)` in order,
`[j, i]` in order and the element before `j` not above the element after it:
afterwards `[a, i]` is in order. -/
theorem insertionInner_sorted (a i : Nat) :
    ∀ j s, a ≤ j → j ≤ i → i < s.length →
      SortedRange a j s → SortedRange j (i + 1) s →
      (a < j → j < i → Less (fieldAt s (j + 1)) (fieldAt s (j - 1)) = false) →
      SortedRange a (i + 1) (insertionInner a j s) := by
  intro j
  induction j with
  | zero =>
    intro s ha _ _ _ h2 _
    have : a = 0 := by omega
    subst this
    exact h2
  | succ j ih =>
    intro s ha hji hi h1 h2 h3
    unfold insertionInner
    split
    · rename_i hc
      obtain ⟨hgt, hless⟩ := hc
      have hj1 : j + 1 < s.length := by omega
      have hj0 : j < s.length := by omega
      apply ih (Swap s (j + 1) j) (by omega) (by omega) (by rw [length_Swap]; exact hi)
      · intro k hk1 hk2
        rw [fieldAt_Swap s (j + 1) j _ hj1 hj0, fieldAt_Swap s (j + 1) j _ hj1 hj0]
        have e1 : k + 1 ≠ j := by omega
        have e2 : k + 1 ≠ j + 1 := by omega
        have e3 : k ≠ j := by omega
        have e4 : k ≠ j + 1 := by omega
        simp only [e1, e2, e3, e4, if_false]
        exact h1 k hk1 (by omega)
      · intro k hk1 hk2
        rw [fieldAt_Swap s (j + 1) j _ hj1 hj0, fieldAt_Swap s (j + 1) j _ hj1 hj0]
        by_cases hkj : k = j
        · subst hkj
          simp only [if_true, Nat.succ_ne_self, if_false]
          exact Less_asymm _ _ hless
        · by_cases hkj1 : k = j + 1
          · subst hkj1
            have e1 : j + 1 + 1 ≠ j := by omega
            have e2 : j + 1 + 1 ≠ j + 1 := by omega
            have e3 : j + 1 ≠ j := by omega
            simp only [e1, e2, e3, if_true, if_false]
            have := h3 (by omega) (by omega)
            simpa using this
          · have e1 : k + 1 ≠ j := by omega
            have e2 : k + 1 ≠ j + 1 := by omega
            simp only [e1, e2, hkj, hkj1, if_false]
            exact h2 k (by omega) hk2
      · intro haj hji'
        rw [fieldAt_Swap s (j + 1) j _ hj1 hj0, fieldAt_Swap s (j + 1) j _ hj1 hj0]
        have e1 : j - 1 ≠ j := by omega
        have e2 : j - 1 ≠ j + 1 := by omega
        have e3 : j + 1 ≠ j := by omega
        simp only [e1, e2, e3, if_true, if_false]
        have := h1 (j - 1) (by omega) (by omega)
        have hjj : j - 1 + 1 = j := by omega
        rw [hjj] at this
        exact this
    · rename_i hc
      intro k hk1 hk2
      by_cases hkj : k + 1 < j + 1
      · exact h1 k hk1 hkj
      · by_cases hkj2 : j + 1 ≤ k
        · exact h2 k hkj2 hk2
        · have hk : k = j := by omega
          subst hk
          have : ¬ LessAt s (k + 1) k = true := fun hl => hc ⟨by omega, hl⟩
          simpa [LessAt] using this

theorem insertionOuter_spec (a b : Nat) :
    ∀ n i s, a + 1 ≤ i → i ≤ b → b - i ≤ n → b ≤ s.length → SortedRange a i s →
      Within a b s (insertionOuter a b n i s) ∧
        SortedRange a b (insertionOuter a b n i s) := by
  intro n
  induction n with
  | zero =>
    intro i s _ hib hn _ hs
    have : i = b := by omega
    subst this
    exact ⟨Within.refl _ _ _, hs⟩
  | succ n ih =>
    intro i s hai hib hn hb hs
    unfold insertionOuter
    split
    · rename_i hlt
      have hw := insertionInner_within a b i s hlt hb (by omega)
      have hsorted := insertionInner_sorted a i i s (by omega) (le_refl i) (by omega) hs
        (fun k hk1 hk2 => by omega) (fun h1 h2 => by omega)
      obtain ⟨hw2, hs2⟩ := ih (i + 1) (insertionInner a i s) (by omega) (by omega)
        (by omega) (by rw [hw.length_eq]; exact hb) hsorted
      exact ⟨hw.trans hw2, hs2⟩
    · have : i = b := by omega
      subst this
      exact ⟨Within.refl _ _ _, hs⟩

/-- The function `insertionSort(data, a, b)` rearranges `[a, b)` and leaves it in order. -/
theorem insertionSort_spec (s : List Field) (a b : Nat) (hab : a ≤ b)
    (hb : b ≤ s.length) :
    Within a b s (insertionSort s a b) ∧ SortedRange a b (insertionSort s a b) := by
  unfold insertionSort
  by_cases h : a = b
  · subst h
    simp only [Nat.sub_self, insertionOuter]
    exact ⟨Within.refl _ _ _, fun i h1 h2 => by omega⟩
  · exact insertionOuter_spec a b (b - a) (a + 1) s (le_refl _) (by omega) (by omega) hb
      (fun i h1 h2 => by omega)

/-! ### `heapSort` -/

theorem siftDownLoop_within (hi first : Nat) :
    ∀ fuel s root, first + hi ≤ s.length →
      Within first (first + hi) s (siftDownLoop hi first fuel s root) := by
  intro fuel
  induction fuel with
  | zero => intro s root _; exact Within.refl _ _ _
  | succ fuel ih =>
    intro s root hlen
    unfold siftDownLoop
    split
    · exact Within.refl _ _ _
    · rename_i hchild
      simp only []
      generalize hcs : (if 2 * root + 1 + 1 < hi ∧
            LessAt s (first + (2 * root + 1)) (first + (2 * root + 1) + 1) = true then
            2 * root + 1 + 1 else 2 * root + 1) = cs
      have hc : cs < hi := by
        rw [← hcs]
        split
        · rename_i h; exact h.1
        · omega
      split
      · exact Within.refl _ _ _
      · have hsw := Within_Swap first (first + hi) s (first + root) (first + cs)
          (by omega) (by omega) (by omega) (by omega) hlen
        exact hsw.trans (ih _ _ (by rw [length_Swap]; exact hlen))

/-- The loop of `siftDown` entered at `root`, in a heap that is in order at
every node from `lo` on except `root`, and in which the children of `root` are
not above the parent of `root`: afterwards the heap is in order from `lo` on. -/
theorem siftDownLoop_heap (hi first lo : Nat) :
    ∀ fuel s root, hi - root ≤ fuel → lo ≤ root → first + hi ≤ s.length →
      (∀ r c, lo ≤ r → r ≠ root → c < hi → (c = 2 * r + 1 ∨ c = 2 * r + 2) →
        Less (fieldAt s (first + r)) (fieldAt s (first + c)) = false) →
      (∀ g c, lo ≤ g → (root = 2 * g + 1 ∨ root = 2 * g + 2) → c < hi →
        (c = 2 * root + 1 ∨ c = 2 * root + 2) →
        Less (fieldAt s (first + g)) (fieldAt s (first + c)) = false) →
      HeapAbove first lo hi (siftDownLoop hi first fuel s root) := by
  intro fuel
  induction fuel with
  | zero =>
    intro s root hfuel hlo _ h1 _
    intro r c hr hc hrc
    by_cases hroot : r = root
    · omega
    · exact h1 r c hr hroot hc hrc
  | succ fuel ih =>
    intro s root hfuel hlo hlen h1 h2
    unfold siftDownLoop
    split
    · rename_i hchild
      intro r c hr hc hrc
      by_cases hroot : r = root
      · omega
      · exact h1 r c hr hroot hc hrc
    · rename_i hchild
      simp only []
      -- the larger child
      generalize hcs : (if 2 * root + 1 + 1 < hi ∧
            LessAt s (first + (2 * root + 1)) (first + (2 * root + 1) + 1) = true then
            2 * root + 1 + 1 else 2 * root + 1) = cs
      have hcs_lt : cs < hi := by
        rw [← hcs]
        split
        · rename_i h; exact h.1
        · omega
      have hcs_child : cs = 2 * root + 1 ∨ cs = 2 * root + 2 := by
        rw [← hcs]
        split
        · exact Or.inr rfl
        · exact Or.inl rfl
      -- every child of root is not above the larger child
      have hmax : ∀ c, c < hi → (c = 2 * root + 1 ∨ c = 2 * root + 2) →
          Less (fieldAt s (first + cs)) (fieldAt s (first + c)) = false := by
        intro c hc hcc
        by_cases hcond : 2 * root + 1 + 1 < hi ∧
            LessAt s (first + (2 * root + 1)) (first + (2 * root + 1) + 1) = true
        · rw [if_pos hcond] at hcs
          subst hcs
          rcases hcc with rfl | rfl
          · exact Less_asymm _ _ hcond.2
          · exact Less_irrefl _
        · rw [if_neg hcond] at hcs
          subst hcs
          rcases hcc with rfl | rfl
          · exact Less_irrefl _
          · have hnl : ¬ LessAt s (first + (2 * root + 1)) (first + (2 * root + 1) + 1) = true :=
              fun hl => hcond ⟨by omega, hl⟩
            have : Less (fieldAt s (first + (2 * root + 1)))
                (fieldAt s (first + (2 * root + 1) + 1)) = false := by
              simpa [LessAt] using hnl
            exact this
      split
      · rename_i hnl
        intro r c hr hc hrc
        by_cases hroot : r = root
        · subst hroot
          have hm := hmax c hc hrc
          have hnl' : Less (fieldAt s (first + r)) (fieldAt s (first + cs)) = false := hnl
          exact Less_false_trans _ _ _ hm hnl'
        · exact h1 r c hr hroot hc hrc
      · rename_i hl
        have hless : Less (fieldAt s (first + root)) (fieldAt s (first + cs)) = true := by
          simpa [LessAt] using hl
        have hri : first + root < s.length := by omega
        have hci : first + cs < s.length := by omega
        apply ih _ cs (by omega) (by omega) (by rw [length_Swap]; exact hlen)
        · intro r c hr hrcs hc hrc
          rw [fieldAt_Swap s _ _ _ hri hci, fieldAt_Swap s _ _ _ hri hci]
          by_cases hroot : r = root
          · subst hroot
            have e1 : first + r ≠ first + cs := by omega
            simp only [e1, if_true, if_false]
            by_cases hccs : c = cs
            · subst hccs
              simp only [if_true]
              exact Less_asymm _ _ hless
            · have e2 : first + c ≠ first + cs := by omega
              have e3 : first + c ≠ first + r := by omega
              simp only [e2, e3, if_false]
              exact hmax c hc hrc
          · have e1 : first + r ≠ first + cs := by omega
            have e2 : first + r ≠ first + root := by omega
            simp only [e1, e2, if_false]
            by_cases hcroot : c = root
            · subst hcroot
              have e3 : first + c ≠ first + cs := by omega
              simp only [e3, if_true, if_false]
              exact h2 r cs hr hrc hcs_lt hcs_child
            · have e3 : first + c ≠ first + cs := by omega
              have e4 : first + c ≠ first + root := by omega
              simp only [e3, e4, if_false]
              exact h1 r c hr hroot hc hrc
        · intro g c hg hgc hc hcc
          have hgroot : g = root := by omega
          subst hgroot
          rw [fieldAt_Swap s _ _ _ hri hci, fieldAt_Swap s _ _ _ hri hci]
          have e1 : first + g ≠ first + cs := by omega
          have e3 : first + c ≠ first + cs := by omega
          have e4 : first + c ≠ first + g := by omega
          simp only [e1, e3, e4, if_true, if_false]
          exact h1 cs c (by omega) (by omega) hc hcc

theorem heapBuild_spec (hi first : Nat) :
    ∀ k s, first + hi ≤ s.length → HeapAbove first k hi s →
      Within first (first + hi) s (heapBuild hi first k s) ∧
        HeapAbove first 0 hi (heapBuild hi first k s) := by
  intro k
  induction k with
  | zero => intro s _ h; exact ⟨Within.refl _ _ _, h⟩
  | succ k ih =>
    intro s hlen h
    unfold heapBuild siftDown
    have hw := siftDownLoop_within hi first hi s k hlen
    have hh := siftDownLoop_heap hi first k hi s k (by omega) (le_refl k) hlen
      (fun r c hr hrk hc hrc => h r c (by omega) hc hrc)
      (fun g c hg hgk _ _ => by omega)
    obtain ⟨hw2, hh2⟩ := ih _ (by rw [hw.length_eq]; exact hlen) hh
    exact ⟨hw.trans hw2, hh2⟩

/-- The root of a heap is not `Less` than any of its nodes. -/
theorem heap_root_max (first hi : Nat) (s : List Field) (h : HeapAbove first 0 hi s) :
    ∀ c, c < hi → Less (fieldAt s (first + 0)) (fieldAt s (first + c)) = false := by
  intro c
  induction c using Nat.strong_induction_on with
  | _ c ih =>
    intro hc
    by_cases h0 : c = 0
    · subst h0
      exact Less_irrefl _
    · have hpar : c = 2 * ((c - 1) / 2) + 1 ∨ c = 2 * ((c - 1) / 2) + 2 := by omega
      have h1 := h ((c - 1) / 2) c (Nat.zero_le _) hc hpar
      have h2 := ih ((c - 1) / 2) (by omega) (by omega)
      exact Less_false_trans _ _ _ h1 h2

theorem heapPop_spec (hi first : Nat) :
    ∀ k s, k ≤ hi → first + hi ≤ s.length → HeapAbove first 0 k s →
      SortedRange (first + k) (first + hi) s →
      (k < hi → ∀ c, c < k →
        Less (fieldAt s (first + k)) (fieldAt s (first + c)) = false) →
      Within first (first + hi) s (heapPop first k s) ∧
        SortedRange first (first + hi) (heapPop first k s) := by
  intro k
  induction k with
  | zero =>
    intro s _ _ _ hs _
    exact ⟨Within.refl _ _ _, hs⟩
  | succ k ih =>
    intro s hk hlen hheap hsorted hbound
    unfold heapPop siftDown
    have h0 : first < s.length := by omega
    have hki : first + k < s.length := by omega
    have hsw := Within_Swap first (first + hi) s first (first + k) (le_refl _) (by omega)
      (by omega) (by omega) hlen
    have hlen1 : first + k ≤ (Swap s first (first + k)).length := by
      rw [length_Swap]; omega
    have hw := siftDownLoop_within k first k (Swap s first (first + k)) 0 hlen1
    have hroot := heap_root_max first (k + 1) s hheap
    -- the elements of the prefix after the swap are elements of the old prefix
    have hprefix : ∀ c, c < k → ∃ d, d < k + 1 ∧
        fieldAt (Swap s first (first + k)) (first + c) = fieldAt s (first + d) := by
      intro c hc
      rw [fieldAt_Swap s _ _ _ h0 hki]
      have e1 : first + c ≠ first + k := by omega
      simp only [e1, if_false]
      by_cases hc0 : first + c = first
      · exact ⟨k, by omega, by simp [hc0]⟩
      · exact ⟨c, by omega, by simp [hc0]⟩
    have hh := siftDownLoop_heap k first 0 k (Swap s first (first + k)) 0 (by omega)
      (le_refl 0) hlen1
      (fun r c _ hr hc hrc => by
        rw [fieldAt_Swap s _ _ _ h0 hki, fieldAt_Swap s _ _ _ h0 hki]
        have e1 : first + r ≠ first + k := by omega
        have e2 : first + r ≠ first := by omega
        have e3 : first + c ≠ first + k := by omega
        have e4 : first + c ≠ first := by omega
        simp only [e1, e2, e3, e4, if_false]
        exact hheap r c (Nat.zero_le _) (by omega) hrc)
      (fun g c _ hg _ _ => by omega)
    have hlast : fieldAt (siftDownLoop k first k (Swap s first (first + k)) 0) (first + k)
        = fieldAt s first := by
      rw [hw.outside _ (Or.inr (le_refl _)), fieldAt_Swap s _ _ _ h0 hki]
      simp
    obtain ⟨hw2, hs2⟩ := ih (siftDownLoop k first k (Swap s first (first + k)) 0)
      (by omega) (by rw [hw.length_eq, length_Swap]; exact hlen) hh
      (by
        intro i hi1 hi2
        rw [hw.outside (i + 1) (Or.inr (by omega)), fieldAt_Swap s _ _ _ h0 hki]
        have e1 : i + 1 ≠ first + k := by omega
        have e2 : i + 1 ≠ first := by omega
        simp only [e1, e2, if_false]
        by_cases hik : i = first + k
        · subst hik
          rw [hlast]
          have := hbound (by omega) 0 (by omega)
          simpa using this
        · rw [hw.outside i (Or.inr (by omega)), fieldAt_Swap s _ _ _ h0 hki]
          have e3 : i ≠ first := by omega
          simp only [hik, e3, if_false]
          exact hsorted i (by omega) hi2)
      (by
        intro _ c hc
        rw [hlast]
        obtain ⟨c', hc1, hc2, hc3⟩ := hw.inside (first + c) (by omega) (by omega)
        rw [hc3]
        obtain ⟨d, hd1, hd2⟩ := hprefix (c' - first) (by omega)
        have hcc : first + (c' - first) = c' := by omega
        rw [hcc] at hd2
        rw [hd2]
        have := hroot d hd1
        simpa using this)
    exact ⟨hsw.trans ((hw.mono (le_refl _) (by omega)).trans hw2), hs2⟩

/-- The function `heapSort(data, a, b)` rearranges `[a, b)` and leaves it in order. -/
theorem heapSort_spec (s : List Field) (a b : Nat) (hab : a ≤ b) (hb : b ≤ s.length) :
    Within a b s (heapSort s a b) ∧ SortedRange a b (heapSort s a b) := by
  unfold heapSort
  simp only []
  have hab' : a + (b - a) = b := by omega
  obtain ⟨hw1, hh1⟩ := heapBuild_spec (b - a) a ((b - a - 1) / 2 + 1) s (by omega)
    (fun r c hr hc hrc => by omega)
  obtain ⟨hw2, hs2⟩ := heapPop_spec (b - a) a (b - a)
    (heapBuild (b - a) a ((b - a - 1) / 2 + 1) s) (le_refl _)
    (by rw [hw1.length_eq]; omega) hh1 (fun i h1 h2 => by omega) (fun h => by omega)
  rw [hab'] at hw1 hw2 hs2
  exact ⟨hw1.trans hw2, hs2⟩

/-! ### `partition` and `partitionEqual` -/

theorem scanUp_spec (p : Nat → Bool) (j : Nat) :
    ∀ fuel i, j + 1 - i ≤ fuel → i ≤ j + 1 →
      i ≤ scanUp p j fuel i ∧ scanUp p j fuel i ≤ j + 1 ∧
      (∀ k, i ≤ k → k < scanUp p j fuel i → p k = true) ∧
      (scanUp p j fuel i ≤ j → p (scanUp p j fuel i) = false) := by
  intro fuel
  induction fuel with
  | zero =>
    intro i hf hi
    simp only [scanUp]
    exact ⟨le_refl _, hi, fun k h1 h2 => by omega, fun h => by omega⟩
  | succ fuel ih =>
    intro i hf hi
    unfold scanUp
    split
    · rename_i hc
      obtain ⟨h1, h2, h3, h4⟩ := ih (i + 1) (by omega) (by omega)
      refine ⟨by omega, h2, ?_, h4⟩
      intro k hk1 hk2
      by_cases hki : k = i
      · subst hki; exact hc.2
      · exact h3 k (by omega) hk2
    · rename_i hc
      refine ⟨le_refl _, hi, fun k h1 h2 => by omega, ?_⟩
      intro hij
      cases hp : p i with
      | false => rfl
      | true => exact absurd ⟨hij, hp⟩ hc

theorem scanDown_spec (p : Nat → Bool) (i : Nat) (hi1 : 1 ≤ i) :
    ∀ j, i ≤ j + 1 →
      scanDown p i j ≤ j ∧ i ≤ scanDown p i j + 1 ∧
      (∀ k, scanDown p i j < k → k ≤ j → p k = true) ∧
      (i ≤ scanDown p i j → p (scanDown p i j) = false) := by
  intro j
  induction j with
  | zero =>
    intro hi
    simp only [scanDown]
    exact ⟨le_refl _, hi, fun k h1 h2 => by omega, fun h => by omega⟩
  | succ j ih =>
    intro hi
    unfold scanDown
    split
    · rename_i hc
      obtain ⟨h1, h2, h3, h4⟩ := ih (by omega)
      refine ⟨by omega, h2, ?_, h4⟩
      intro k hk1 hk2
      by_cases hkj : k = j + 1
      · subst hkj; exact hc.2
      · exact h3 k hk1 (by omega)
    · rename_i hc
      refine ⟨le_refl _, by omega, fun k h1 h2 => by omega, ?_⟩
      intro hij
      cases hp : p (j + 1) with
      | false => rfl
      | true => exact absurd ⟨hij, hp⟩ hc

/-- The loop of `partition`, entered with everything in `(a, i)` `Less` than
the pivot at `a` and nothing in `(j, b)` `Less` than it: it rearranges
`(a, b)`, and at its end `j < i`, with the same two properties. -/
theorem partitionLoop_spec (a b : Nat) :
    ∀ fuel s i j, j + 1 - i ≤ fuel → a + 1 ≤ i → i ≤ j + 1 → j < b → b ≤ s.length →
      (∀ k, a < k → k < i → Less (fieldAt s k) (fieldAt s a) = true) →
      (∀ k, j < k → k < b → Less (fieldAt s k) (fieldAt s a) = false) →
      Within (a + 1) b s (partitionLoop a fuel s i j).1 ∧
      a ≤ (partitionLoop a fuel s i j).2 ∧ (partitionLoop a fuel s i j).2 < b ∧
      (∀ k, a < k → k ≤ (partitionLoop a fuel s i j).2 →
        Less (fieldAt (partitionLoop a fuel s i j).1 k)
          (fieldAt (partitionLoop a fuel s i j).1 a) = true) ∧
      (∀ k, (partitionLoop a fuel s i j).2 < k → k < b →
        Less (fieldAt (partitionLoop a fuel s i j).1 k)
          (fieldAt (partitionLoop a fuel s i j).1 a) = false) := by
  intro fuel
  induction fuel with
  | zero =>
    intro s i j hf hai hij hjb hb h1 h2
    simp only [partitionLoop]
    exact ⟨Within.refl _ _ _, by omega, hjb, fun k hk1 hk2 => h1 k hk1 (by omega), h2⟩
  | succ fuel ih =>
    intro s i j hf hai hij hjb hb h1 h2
    unfold partitionLoop
    simp only []
    obtain ⟨hu1, hu2, hu3, hu4⟩ :=
      scanUp_spec (fun k => LessAt s k a) j (j + 1 - i) i (le_refl _) hij
    generalize scanUp (fun k => LessAt s k a) j (j + 1 - i) i = i1 at hu1 hu2 hu3 hu4
    obtain ⟨hd1, hd2, hd3, hd4⟩ :=
      scanDown_spec (fun k => !LessAt s k a) i1 (by omega) j hu2
    generalize scanDown (fun k => !LessAt s k a) i1 j = j1 at hd1 hd2 hd3 hd4
    have hlow : ∀ k, a < k → k < i1 → Less (fieldAt s k) (fieldAt s a) = true := by
      intro k hk1 hk2
      by_cases hki : k < i
      · exact h1 k hk1 hki
      · exact hu3 k (by omega) hk2
    have hhigh : ∀ k, j1 < k → k < b → Less (fieldAt s k) (fieldAt s a) = false := by
      intro k hk1 hk2
      by_cases hkj : j < k
      · exact h2 k hkj hk2
      · have := hd3 k hk1 (by omega)
        simpa [LessAt] using this
    split
    · rename_i hgt
      exact ⟨Within.refl _ _ _, by omega, by omega,
        fun k hk1 hk2 => hlow k hk1 (by omega), hhigh⟩
    · rename_i hle
      have hij1 : i1 ≤ j1 := by omega
      have hi1 : Less (fieldAt s i1) (fieldAt s a) = false := by
        have := hu4 (by omega)
        simpa [LessAt] using this
      have hj1 : Less (fieldAt s j1) (fieldAt s a) = true := by
        have := hd4 hij1
        simpa [LessAt] using this
      have hne : i1 ≠ j1 := by
        intro h
        rw [h, hj1] at hi1
        exact absurd hi1 (by decide)
      have hil : i1 < s.length := by omega
      have hjl : j1 < s.length := by omega
      have hsw := Within_Swap (a + 1) b s i1 j1 (by omega) (by omega) (by omega)
        (by omega) hb
      have hsa : fieldAt (Swap s i1 j1) a = fieldAt s a := hsw.outside a (Or.inl (by omega))
      obtain ⟨r1, r2, r3, r4, r5⟩ := ih (Swap s i1 j1) (i1 + 1) (j1 - 1) (by omega)
        (by omega) (by omega) (by omega) (by rw [length_Swap]; exact hb)
        (by
          intro k hk1 hk2
          rw [hsa, fieldAt_Swap s _ _ _ hil hjl]
          by_cases hki : k = i1
          · subst hki
            simp only [hne, if_true, if_false]
            exact hj1
          · have e1 : k ≠ j1 := by omega
            simp only [e1, hki, if_false]
            exact hlow k hk1 (by omega))
        (by
          intro k hk1 hk2
          rw [hsa, fieldAt_Swap s _ _ _ hil hjl]
          by_cases hkj : k = j1
          · simp only [hkj, if_true]
            exact hi1
          · have e1 : k ≠ i1 := by omega
            simp only [e1, hkj, if_false]
            exact hhigh k (by omega) hk2)
      exact ⟨hsw.trans r1, r2, r3, r4, r5⟩

/-- The last step of `partition`, `data.Swap(j, a)`. -/
theorem partition_finish (s : List Field) (a b j : Nat) (haj : a ≤ j) (hjb : j < b)
    (hb : b ≤ s.length)
    (h1 : ∀ k, a < k → k ≤ j → Less (fieldAt s k) (fieldAt s a) = true)
    (h2 : ∀ k, j < k → k < b → Less (fieldAt s k) (fieldAt s a) = false) :
    Within a b s (Swap s j a) ∧
    (∀ k, a ≤ k → k < j →
      Less (fieldAt (Swap s j a) k) (fieldAt (Swap s j a) j) = true) ∧
    (∀ k, j < k → k < b →
      Less (fieldAt (Swap s j a) k) (fieldAt (Swap s j a) j) = false) := by
  have hjl : j < s.length := by omega
  have hal : a < s.length := by omega
  have hmid : fieldAt (Swap s j a) j = fieldAt s a := by
    rw [fieldAt_Swap s _ _ _ hjl hal]
    by_cases hja : j = a
    · simp [hja]
    · simp [hja]
  refine ⟨Within_Swap a b s j a haj hjb (le_refl _) (by omega) hb, ?_, ?_⟩
  · intro k hk1 hk2
    rw [hmid, fieldAt_Swap s _ _ _ hjl hal]
    by_cases hka : k = a
    · simp only [hka, if_true]
      exact h1 j (by omega) (le_refl _)
    · have e1 : k ≠ j := by omega
      simp only [hka, e1, if_false]
      exact h1 k (by omega) (by omega)
  · intro k hk1 hk2
    rw [hmid, fieldAt_Swap s _ _ _ hjl hal]
    have e1 : k ≠ a := by omega
    have e2 : k ≠ j := by omega
    simp only [e1, e2, if_false]
    exact h2 k hk1 hk2

/-- The function `partition(data, a, b, pivot)` rearranges `[a, b)` around `newpivot`:
everything before it is `Less` than it, nothing after it is. -/
theorem partition_spec (s : List Field) (a b pivot : Nat) (hap : a ≤ pivot)
    (hpb : pivot < b) (hb : b ≤ s.length) :
    Within a b s (partition s a b pivot).1 ∧
    a ≤ (partition s a b pivot).2.1 ∧ (partition s a b pivot).2.1 < b ∧
    (∀ k, a ≤ k → k < (partition s a b pivot).2.1 →
      Less (fieldAt (partition s a b pivot).1 k)
        (fieldAt (partition s a b pivot).1 (partition s a b pivot).2.1) = true) ∧
    (∀ k, (partition s a b pivot).2.1 < k → k < b →
      Less (fieldAt (partition s a b pivot).1 k)
        (fieldAt (partition s a b pivot).1 (partition s a b pivot).2.1) = false) := by
  unfold partition
  simp only []
  have hsw0 := Within_Swap a b s a pivot (le_refl _) (by omega) hap hpb hb
  have hb1 : b ≤ (Swap s a pivot).length := by rw [length_Swap]; exact hb
  generalize Swap s a pivot = s1 at hsw0 hb1
  obtain ⟨hu1, hu2, hu3, hu4⟩ :=
    scanUp_spec (fun k => LessAt s1 k a) (b - 1) (b - 1 + 1 - (a + 1)) (a + 1)
      (le_refl _) (by omega)
  generalize scanUp (fun k => LessAt s1 k a) (b - 1) (b - 1 + 1 - (a + 1)) (a + 1) = i
    at hu1 hu2 hu3 hu4
  obtain ⟨hd1, hd2, hd3, hd4⟩ :=
    scanDown_spec (fun k => !LessAt s1 k a) i (by omega) (b - 1) hu2
  generalize scanDown (fun k => !LessAt s1 k a) i (b - 1) = j at hd1 hd2 hd3 hd4
  have hlow : ∀ k, a < k → k < i → Less (fieldAt s1 k) (fieldAt s1 a) = true :=
    fun k hk1 hk2 => hu3 k (by omega) hk2
  have hhigh : ∀ k, j < k → k < b → Less (fieldAt s1 k) (fieldAt s1 a) = false := by
    intro k hk1 hk2
    have := hd3 k hk1 (by omega)
    simpa [LessAt] using this
  split
  · rename_i hgt
    obtain ⟨f1, f2, f3⟩ := partition_finish s1 a b j (by omega) (by omega) hb1
      (fun k hk1 hk2 => hlow k hk1 (by omega)) hhigh
    exact ⟨hsw0.trans f1, show a ≤ j by omega, show j < b by omega, f2, f3⟩
  · rename_i hle
    have hij : i ≤ j := by omega
    have hi1 : Less (fieldAt s1 i) (fieldAt s1 a) = false := by
      have := hu4 (by omega)
      simpa [LessAt] using this
    have hj1 : Less (fieldAt s1 j) (fieldAt s1 a) = true := by
      have := hd4 hij
      simpa [LessAt] using this
    have hne : i ≠ j := by
      intro h
      rw [h, hj1] at hi1
      exact absurd hi1 (by decide)
    have hil : i < s1.length := by omega
    have hjl : j < s1.length := by omega
    have hsw := Within_Swap (a + 1) b s1 i j (by omega) (by omega) (by omega)
      (by omega) hb1
    have hsa : fieldAt (Swap s1 i j) a = fieldAt s1 a := hsw.outside a (Or.inl (by omega))
    obtain ⟨r1, r2, r3, r4, r5⟩ := partitionLoop_spec a b (j - i) (Swap s1 i j) (i + 1)
      (j - 1) (by omega) (by omega) (by omega) (by omega) (by rw [length_Swap]; exact hb1)
      (by
        intro k hk1 hk2
        rw [hsa, fieldAt_Swap s1 _ _ _ hil hjl]
        by_cases hki : k = i
        · subst hki
          simp only [hne, if_true, if_false]
          exact hj1
        · have e1 : k ≠ j := by omega
          simp only [e1, hki, if_false]
          exact hlow k hk1 (by omega))
      (by
        intro k hk1 hk2
        rw [hsa, fieldAt_Swap s1 _ _ _ hil hjl]
        by_cases hkj : k = j
        · simp only [hkj, if_true]
          exact hi1
        · have e1 : k ≠ i := by omega
          simp only [e1, hkj, if_false]
          exact hhigh k (by omega) hk2)
    have hw2 := hsw.trans r1
    generalize partitionLoop a (j - i) (Swap s1 i j) (i + 1) (j - 1) = r at r1 r2 r3 r4 r5 hw2
    obtain ⟨f1, f2, f3⟩ := partition_finish r.1 a b r.2 r2 r3
      (by rw [hw2.length_eq]; exact hb1) r4 r5
    exact ⟨hsw0.trans ((hw2.mono (by omega) (le_refl _)).trans f1), r2, r3, f2, f3⟩

/-- The loop of `partitionEqual`, entered with the pivot at `a` `Less` than
nothing in `(a, i)` and `Less` than everything in `(j, b)`: it rearranges
`(a, b)`, and the same holds of `(a, newpivot)` and `[newpivot, b)`. -/
theorem partitionEqualLoop_spec (a b : Nat) :
    ∀ fuel s i j, j + 1 - i ≤ fuel → a + 1 ≤ i → i ≤ j + 1 → j < b → b ≤ s.length →
      (∀ k, a < k → k < i → Less (fieldAt s a) (fieldAt s k) = false) →
      (∀ k, j < k → k < b → Less (fieldAt s a) (fieldAt s k) = true) →
      Within (a + 1) b s (partitionEqualLoop a fuel s i j).1 ∧
      a + 1 ≤ (partitionEqualLoop a fuel s i j).2 ∧
      (partitionEqualLoop a fuel s i j).2 ≤ b ∧
      (∀ k, a < k → k < (partitionEqualLoop a fuel s i j).2 →
        Less (fieldAt (partitionEqualLoop a fuel s i j).1 a)
          (fieldAt (partitionEqualLoop a fuel s i j).1 k) = false) ∧
      (∀ k, (partitionEqualLoop a fuel s i j).2 ≤ k → k < b →
        Less (fieldAt (partitionEqualLoop a fuel s i j).1 a)
          (fieldAt (partitionEqualLoop a fuel s i j).1 k) = true) := by
  intro fuel
  induction fuel with
  | zero =>
    intro s i j hf hai hij hjb hb h1 h2
    simp only [partitionEqualLoop]
    exact ⟨Within.refl _ _ _, hai, by omega, h1, fun k hk1 hk2 => h2 k (by omega) hk2⟩
  | succ fuel ih =>
    intro s i j hf hai hij hjb hb h1 h2
    unfold partitionEqualLoop
    simp only []
    obtain ⟨hu1, hu2, hu3, hu4⟩ :=
      scanUp_spec (fun k => !LessAt s a k) j (j + 1 - i) i (le_refl _) hij
    generalize scanUp (fun k => !LessAt s a k) j (j + 1 - i) i = i1 at hu1 hu2 hu3 hu4
    obtain ⟨hd1, hd2, hd3, hd4⟩ :=
      scanDown_spec (fun k => LessAt s a k) i1 (by omega) j hu2
    generalize scanDown (fun k => LessAt s a k) i1 j = j1 at hd1 hd2 hd3 hd4
    have hlow : ∀ k, a < k → k < i1 → Less (fieldAt s a) (fieldAt s k) = false := by
      intro k hk1 hk2
      by_cases hki : k < i
      · exact h1 k hk1 hki
      · have := hu3 k (by omega) hk2
        simpa [LessAt] using this
    have hhigh : ∀ k, j1 < k → k < b → Less (fieldAt s a) (fieldAt s k) = true := by
      intro k hk1 hk2
      by_cases hkj : j < k
      · exact h2 k hkj hk2
      · exact hd3 k hk1 (by omega)
    split
    · rename_i hgt
      exact ⟨Within.refl _ _ _, by omega, by omega, hlow,
        fun k hk1 hk2 => hhigh k (by omega) hk2⟩
    · rename_i hle
      have hij1 : i1 ≤ j1 := by omega
      have hi1 : Less (fieldAt s a) (fieldAt s i1) = true := by
        have := hu4 (by omega)
        simpa [LessAt] using this
      have hj1 : Less (fieldAt s a) (fieldAt s j1) = false := hd4 hij1
      have hne : i1 ≠ j1 := by
        intro h
        rw [h, hj1] at hi1
        exact absurd hi1 (by decide)
      have hil : i1 < s.length := by omega
      have hjl : j1 < s.length := by omega
      have hsw := Within_Swap (a + 1) b s i1 j1 (by omega) (by omega) (by omega)
        (by omega) hb
      have hsa : fieldAt (Swap s i1 j1) a = fieldAt s a := hsw.outside a (Or.inl (by omega))
      obtain ⟨r1, r2, r3, r4, r5⟩ := ih (Swap s i1 j1) (i1 + 1) (j1 - 1) (by omega)
        (by omega) (by omega) (by omega) (by rw [length_Swap]; exact hb)
        (by
          intro k hk1 hk2
          rw [hsa, fieldAt_Swap s _ _ _ hil hjl]
          by_cases hki : k = i1
          · subst hki
            simp only [hne, if_true, if_false]
            exact hj1
          · have e1 : k ≠ j1 := by omega
            simp only [e1, hki, if_false]
            exact hlow k hk1 (by omega))
        (by
          intro k hk1 hk2
          rw [hsa, fieldAt_Swap s _ _ _ hil hjl]
          by_cases hkj : k = j1
          · simp only [hkj, if_true]
            exact hi1
          · have e1 : k ≠ i1 := by omega
            simp only [e1, hkj, if_false]
            exact hhigh k (by omega) hk2)
      exact ⟨hsw.trans r1, r2, r3, r4, r5⟩

/-- The function `partitionEqual(data, a, b, pivot)` rearranges `[a, b)`: the pivot is
`Less` than nothing in `[a, newpivot)` and `Less` than everything in
`[newpivot, b)`. -/
theorem partitionEqual_spec (s : List Field) (a b pivot : Nat) (hap : a ≤ pivot)
    (hpb : pivot < b) (hb : b ≤ s.length) :
    Within a b s (partitionEqual s a b pivot).1 ∧
    a + 1 ≤ (partitionEqual s a b pivot).2 ∧ (partitionEqual s a b pivot).2 ≤ b ∧
    (∀ k, a ≤ k → k < (partitionEqual s a b pivot).2 →
      Less (fieldAt s pivot) (fieldAt (partitionEqual s a b pivot).1 k) = false) ∧
    (∀ k, (partitionEqual s a b pivot).2 ≤ k → k < b →
      Less (fieldAt s pivot) (fieldAt (partitionEqual s a b pivot).1 k) = true) := by
  unfold partitionEqual
  have hsw0 := Within_Swap a b s a pivot (le_refl _) (by omega) hap hpb hb
  have hb1 : b ≤ (Swap s a pivot).length := by rw [length_Swap]; exact hb
  have hpv : fieldAt (Swap s a pivot) a = fieldAt s pivot := by
    rw [fieldAt_Swap s _ _ _ (by omega) (by omega)]
    by_cases h : a = pivot
    · simp [h]
    · simp [h]
  generalize Swap s a pivot = s1 at hsw0 hb1 hpv
  obtain ⟨r1, r2, r3, r4, r5⟩ := partitionEqualLoop_spec a b (b - a) s1 (a + 1) (b - 1)
    (by omega) (le_refl _) (by omega) (by omega) hb1 (fun k h1 h2 => by omega)
    (fun k h1 h2 => by omega)
  have hra : fieldAt (partitionEqualLoop a (b - a) s1 (a + 1) (b - 1)).1 a = fieldAt s pivot := by
    rw [r1.outside a (Or.inl (by omega)), hpv]
  rw [hra] at r4 r5
  refine ⟨hsw0.trans (r1.mono (by omega) (le_refl _)), r2, r3, ?_, r5⟩
  intro k hk1 hk2
  by_cases hka : k = a
  · rw [hka, hra]
    exact Less_irrefl _
  · exact r4 k (by omega) hk2

/-! ### `partialInsertionSort`, `reverseRange`, `breakPatterns`, `choosePivot` -/

theorem scanSorted_spec (s : List Field) (b : Nat) :
    ∀ fuel i, b - i ≤ fuel → i ≤ b →
      i ≤ scanSorted s b fuel i ∧ scanSorted s b fuel i ≤ b ∧
      (∀ k, i ≤ k → k < scanSorted s b fuel i →
        Less (fieldAt s k) (fieldAt s (k - 1)) = false) ∧
      (scanSorted s b fuel i < b →
        Less (fieldAt s (scanSorted s b fuel i))
          (fieldAt s (scanSorted s b fuel i - 1)) = true) := by
  intro fuel
  induction fuel with
  | zero =>
    intro i hf hi
    simp only [scanSorted]
    exact ⟨le_refl _, hi, fun k h1 h2 => by omega, fun h => by omega⟩
  | succ fuel ih =>
    intro i hf hi
    unfold scanSorted
    split
    · rename_i hc
      obtain ⟨h1, h2, h3, h4⟩ := ih (i + 1) (by omega) (by omega)
      refine ⟨by omega, h2, ?_, h4⟩
      intro k hk1 hk2
      by_cases hki : k = i
      · subst hki; exact hc.2
      · exact h3 k (by omega) hk2
    · rename_i hc
      refine ⟨le_refl _, hi, fun k h1 h2 => by omega, ?_⟩
      intro hib
      cases hp : Less (fieldAt s i) (fieldAt s (i - 1)) with
      | true => rfl
      | false => exact absurd ⟨hib, hp⟩ hc

theorem shiftSmaller_eq : ∀ j s, shiftSmaller j s = insertionInner 0 j s := by
  intro j
  induction j with
  | zero => intro s; rfl
  | succ j ih =>
    intro s
    unfold shiftSmaller insertionInner
    cases h : LessAt s (j + 1) j with
    | false => simp
    | true => simp [ih]

/-- When the element at `j` is not `Less` than the element before `a`, the
inner loop of `insertionSort` stops at `a` also when it is allowed to go down
to 0. -/
theorem insertionInner_zero_eq (a : Nat) :
    ∀ j s, a ≤ j → j < s.length →
      (0 < a → Less (fieldAt s j) (fieldAt s (a - 1)) = false) →
      insertionInner 0 j s = insertionInner a j s := by
  intro j
  induction j with
  | zero => intro s _ _ _; rfl
  | succ j ih =>
    intro s ha hj hlow
    unfold insertionInner
    by_cases haj : a = j + 1
    · subst haj
      have := hlow (by omega)
      simp only [Nat.add_sub_cancel] at this
      have hl : LessAt s (j + 1) j = false := this
      simp [hl]
    · by_cases hl : LessAt s (j + 1) j = true
      · have h1 : j + 1 > 0 ∧ LessAt s (j + 1) j = true := ⟨by omega, hl⟩
        have h2 : j + 1 > a ∧ LessAt s (j + 1) j = true := ⟨by omega, hl⟩
        rw [if_pos h1, if_pos h2]
        apply ih _ (by omega) (by rw [length_Swap]; omega)
        intro ha0
        rw [fieldAt_Swap s _ _ _ hj (by omega), fieldAt_Swap s _ _ _ hj (by omega)]
        have e1 : a - 1 ≠ j := by omega
        have e2 : a - 1 ≠ j + 1 := by omega
        simp only [e1, e2, if_true, if_false]
        exact hlow ha0
      · have h1 : ¬ (j + 1 > 0 ∧ LessAt s (j + 1) j = true) := fun h => hl h.2
        have h2 : ¬ (j + 1 > a ∧ LessAt s (j + 1) j = true) := fun h => hl h.2
        rw [if_neg h1, if_neg h2]

theorem shiftGreater_within (lo b : Nat) :
    ∀ fuel j s, lo < j → b ≤ s.length → Within lo b s (shiftGreater b fuel j s) := by
  intro fuel
  induction fuel with
  | zero => intro j s _ _; exact Within.refl _ _ _
  | succ fuel ih =>
    intro j s hj hb
    unfold shiftGreater
    split
    · rename_i hjb
      split
      · exact Within.refl _ _ _
      · have hsw := Within_Swap lo b s j (j - 1) (by omega) hjb (by omega) (by omega) hb
        exact hsw.trans (ih (j + 1) _ (by omega) (by rw [length_Swap]; exact hb))
    · exact Within.refl _ _ _

/-- The loop that shifts the greater element has ended within `b - j` rounds:
more rounds give the same slice. -/
theorem shiftGreater_ended (b : Nat) :
    ∀ fuel more j s, b - j ≤ fuel → b - j ≤ more →
      shiftGreater b more j s = shiftGreater b fuel j s := by
  intro fuel
  induction fuel with
  | zero =>
    intro more j s hf _
    cases more with
    | zero => rfl
    | succ m =>
      have hj : ¬ j < b := by omega
      simp only [shiftGreater, hj, if_false]
  | succ fuel ih =>
    intro more j s hf hm
    cases more with
    | zero =>
      have hj : ¬ j < b := by omega
      simp only [shiftGreater, hj, if_false]
    | succ m =>
      unfold shiftGreater
      by_cases hj : j < b
      · rw [if_pos hj, if_pos hj]
        split
        · rfl
        · exact ih m (j + 1) _ (by omega) (by omega)
      · rw [if_neg hj, if_neg hj]

/-- The loop of `partialInsertionSort`, entered at `i` with `[a, i)` in order:
it rearranges `[a, b)`, and when it reports the slice sorted, `[a, b)` is in
order. -/
theorem partialInsertionLoop_spec (a b : Nat) :
    ∀ steps s i, a + 1 ≤ i → i ≤ b → b ≤ s.length → LowerBounded a b s →
      SortedRange a i s →
      Within a b s (partialInsertionLoop a b steps s i).1 ∧
        ((partialInsertionLoop a b steps s i).2 = true →
          SortedRange a b (partialInsertionLoop a b steps s i).1) := by
  intro steps
  induction steps with
  | zero =>
    intro s i _ _ _ _ _
    simp only [partialInsertionLoop]
    exact ⟨Within.refl _ _ _, fun h => by simp at h⟩
  | succ steps ih =>
    intro s i hai hib hb hlow hsorted
    unfold partialInsertionLoop
    simp only []
    obtain ⟨hs1, hs2, hs3, hs4⟩ := scanSorted_spec s b (b - i) i (le_refl _) hib
    generalize scanSorted s b (b - i) i = i1 at hs1 hs2 hs3 hs4
    have hsorted1 : SortedRange a i1 s := by
      intro k hk1 hk2
      by_cases hki : k + 1 < i
      · exact hsorted k hk1 hki
      · have := hs3 (k + 1) (by omega) hk2
        simpa using this
    split
    · rename_i hi1b
      subst hi1b
      exact ⟨Within.refl _ _ _, fun _ => hsorted1⟩
    · rename_i hi1b
      split
      · exact ⟨Within.refl _ _ _, fun h => by simp at h⟩
      · have hi1 : i1 < b := by omega
        have hil : i1 < s.length := by omega
        have hsw := Within_Swap a b s i1 (i1 - 1) (by omega) hi1 (by omega) (by omega) hb
        have hlow1 := hsw.lowerBounded hlow
        have hlen1 : (Swap s i1 (i1 - 1)).length = s.length := length_Swap _ _ _
        -- the prefix before the swapped pair is untouched
        have hpre : SortedRange a (i1 - 1) (Swap s i1 (i1 - 1)) := by
          intro k hk1 hk2
          rw [fieldAt_Swap s _ _ _ hil (by omega), fieldAt_Swap s _ _ _ hil (by omega)]
          have e1 : k + 1 ≠ i1 - 1 := by omega
          have e2 : k + 1 ≠ i1 := by omega
          have e3 : k ≠ i1 - 1 := by omega
          have e4 : k ≠ i1 := by omega
          simp only [e1, e2, e3, e4, if_false]
          exact hsorted1 k hk1 (by omega)
        -- after the shift to the left, [a, i1) is in order
        have h2 : Within a b (Swap s i1 (i1 - 1))
            (if i1 - a ≥ 2 then shiftSmaller (i1 - 1) (Swap s i1 (i1 - 1))
              else Swap s i1 (i1 - 1)) ∧
            SortedRange a i1
              (if i1 - a ≥ 2 then shiftSmaller (i1 - 1) (Swap s i1 (i1 - 1))
                else Swap s i1 (i1 - 1)) := by
          split
          · rw [shiftSmaller_eq, insertionInner_zero_eq a (i1 - 1) _ (by omega)
              (by rw [hlen1]; omega) (fun ha0 => hlow1 ha0 (i1 - 1) (by omega) (by omega))]
            refine ⟨insertionInner_within a b (i1 - 1) _ (by omega) (by rw [hlen1]; exact hb)
              (by omega), ?_⟩
            have := insertionInner_sorted a (i1 - 1) (i1 - 1) (Swap s i1 (i1 - 1)) (by omega)
              (le_refl _) (by rw [hlen1]; omega) hpre (fun k hk1 hk2 => by omega)
              (fun h1 h2 => by omega)
            have hi11 : i1 - 1 + 1 = i1 := by omega
            rw [hi11] at this
            exact this
          · exact ⟨Within.refl _ _ _, fun k hk1 hk2 => by omega⟩
        generalize (if i1 - a ≥ 2 then shiftSmaller (i1 - 1) (Swap s i1 (i1 - 1))
              else Swap s i1 (i1 - 1)) = s2 at h2
        obtain ⟨hw2, hsorted2⟩ := h2
        have hlen2 : s2.length = s.length := by rw [hw2.length_eq, hlen1]
        have h3 : Within i1 b s2
            (if b - i1 ≥ 2 then shiftGreater b (b - (i1 + 1)) (i1 + 1) s2 else s2) := by
          split
          · exact shiftGreater_within i1 b _ _ _ (by omega) (by rw [hlen2]; exact hb)
          · exact Within.refl _ _ _
        generalize (if b - i1 ≥ 2 then shiftGreater b (b - (i1 + 1)) (i1 + 1) s2 else s2)
          = s3 at h3
        have hw3 : Within a b s s3 := (hsw.trans hw2).trans (h3.mono (by omega) (le_refl _))
        have hsorted3 : SortedRange a i1 s3 := by
          intro k hk1 hk2
          rw [h3.outside (k + 1) (Or.inl hk2), h3.outside k (Or.inl (by omega))]
          exact hsorted2 k hk1 hk2
        obtain ⟨r1, r2⟩ := ih s3 i1 (by omega) hs2 (by rw [hw3.length_eq]; exact hb)
          (hw3.lowerBounded hlow) hsorted3
        exact ⟨hw3.trans r1, r2⟩

/-- The function `partialInsertionSort(data, a, b)` rearranges `[a, b)`; when it returns
true, `[a, b)` is in order. -/
theorem partialInsertionSort_spec (s : List Field) (a b : Nat) (hab : a < b)
    (hb : b ≤ s.length) (hlow : LowerBounded a b s) :
    Within a b s (partialInsertionSort s a b).1 ∧
      ((partialInsertionSort s a b).2 = true →
        SortedRange a b (partialInsertionSort s a b).1) :=
  partialInsertionLoop_spec a b 5 s (a + 1) (le_refl _) hab hb hlow
    (fun k hk1 hk2 => by omega)

theorem reverseLoop_within (a b : Nat) :
    ∀ fuel i j s, a ≤ i → j < b → b ≤ s.length →
      Within a b s (reverseLoop fuel i j s) := by
  intro fuel
  induction fuel with
  | zero => intro i j s _ _ _; exact Within.refl _ _ _
  | succ fuel ih =>
    intro i j s hi hj hb
    unfold reverseLoop
    split
    · have hsw := Within_Swap a b s i j hi (by omega) (by omega) hj hb
      exact hsw.trans (ih _ _ _ (by omega) (by omega) (by rw [length_Swap]; exact hb))
    · exact Within.refl _ _ _

/-- The loop of `reverseRange` has ended within `j - i` rounds: more rounds
give the same slice. -/
theorem reverseLoop_ended :
    ∀ fuel more i j s, j - i ≤ fuel → j - i ≤ more →
      reverseLoop more i j s = reverseLoop fuel i j s := by
  intro fuel
  induction fuel with
  | zero =>
    intro more i j s hf _
    cases more with
    | zero => rfl
    | succ m =>
      have hj : ¬ i < j := by omega
      simp only [reverseLoop, hj, if_false]
  | succ fuel ih =>
    intro more i j s hf hm
    cases more with
    | zero =>
      have hj : ¬ i < j := by omega
      simp only [reverseLoop, hj, if_false]
    | succ m =>
      unfold reverseLoop
      by_cases hj : i < j
      · rw [if_pos hj, if_pos hj]
        exact ih m (i + 1) (j - 1) _ (by omega) (by omega)
      · rw [if_neg hj, if_neg hj]

theorem reverseRange_within (s : List Field) (a b : Nat) (hab : a < b)
    (hb : b ≤ s.length) : Within a b s (reverseRange s a b) :=
  reverseLoop_within a b (b - a) a (b - 1) s (le_refl _) (by omega) hb

theorem nextPowerOfTwo_le (length : Nat) (h : 0 < length) :
    0 < nextPowerOfTwo length ∧ nextPowerOfTwo length ≤ 2 * length := by
  unfold nextPowerOfTwo bitsLen
  have hne : length ≠ 0 := by omega
  rw [if_neg hne, Nat.one_shiftLeft, Nat.pow_succ]
  have := Nat.log2_self_le hne
  have hpos : 0 < 2 ^ length.log2 := Nat.two_pow_pos _
  omega

theorem breakPatternsLoop_within (a b length modulus idx : Nat) (hlen : a + length = b)
    (hm1 : 0 < modulus) (hm2 : modulus ≤ 2 * length) (hidx1 : a + 1 ≤ idx)
    (hidx2 : idx + 2 ≤ b) :
    ∀ n i random s, i + n ≤ 3 → b ≤ s.length →
      Within a b s (breakPatternsLoop a length modulus idx n i random s) := by
  intro n
  induction n with
  | zero => intro i random s _ _; exact Within.refl _ _ _
  | succ n ih =>
    intro i random s hi hb
    unfold breakPatternsLoop
    simp only []
    have hand : xorshiftNext random &&& (modulus - 1) ≤ modulus - 1 := Nat.and_le_right
    have hother : (if xorshiftNext random &&& (modulus - 1) ≥ length then
        (xorshiftNext random &&& (modulus - 1)) - length
        else xorshiftNext random &&& (modulus - 1)) < length := by
      split <;> omega
    generalize (if xorshiftNext random &&& (modulus - 1) ≥ length then
        (xorshiftNext random &&& (modulus - 1)) - length
        else xorshiftNext random &&& (modulus - 1)) = other at hother
    have hsw := Within_Swap a b s (idx - 1 + i) (a + other) (by omega) (by omega) (by omega)
      (by omega) hb
    exact hsw.trans (ih _ _ _ (by omega) (by rw [length_Swap]; exact hb))

/-- The function `breakPatterns(data, a, b)` swaps inside `[a, b)` only, whatever
numbers the generator gives. -/
theorem breakPatterns_within (s : List Field) (a b : Nat) (hab : a ≤ b)
    (hb : b ≤ s.length) : Within a b s (breakPatterns s a b) := by
  unfold breakPatterns
  simp only []
  split
  · rename_i h8
    obtain ⟨hm1, hm2⟩ := nextPowerOfTwo_le (b - a) (by omega)
    exact breakPatternsLoop_within a b (b - a) _ _ (by omega) hm1 hm2 (by omega) (by omega)
      3 0 (b - a) s (by omega) hb
  · exact Within.refl _ _ _

theorem order2_range (s : List Field) (lo hi x y swaps : Nat)
    (hx : lo ≤ x ∧ x < hi) (hy : lo ≤ y ∧ y < hi) :
    (lo ≤ (order2 s x y swaps).1 ∧ (order2 s x y swaps).1 < hi) ∧
      (lo ≤ (order2 s x y swaps).2.1 ∧ (order2 s x y swaps).2.1 < hi) := by
  unfold order2
  split
  · exact ⟨hy, hx⟩
  · exact ⟨hx, hy⟩

theorem median_range (s : List Field) (lo hi x y z swaps : Nat)
    (hx : lo ≤ x ∧ x < hi) (hy : lo ≤ y ∧ y < hi) (hz : lo ≤ z ∧ z < hi) :
    lo ≤ (median s x y z swaps).1 ∧ (median s x y z swaps).1 < hi := by
  unfold median
  simp only []
  have h1 := order2_range s lo hi x y swaps hx hy
  have h2 := order2_range s lo hi _ z (order2 s x y swaps).2.2 h1.2 hz
  have h3 := order2_range s lo hi _ _ (order2 s (order2 s x y swaps).2.1 z
    (order2 s x y swaps).2.2).2.2 h1.1 h2.1
  exact h3.2

theorem choosePivot_range (s : List Field) (a b : Nat) (hab : 12 < b - a) :
    a ≤ (choosePivot s a b).1 ∧ (choosePivot s a b).1 < b := by
  unfold choosePivot
  simp only []
  have h8 : b - a ≥ 8 := by omega
  rw [if_pos h8]
  simp only []
  split
  · rename_i h50
    apply median_range
    · exact median_range s a b _ _ _ _ ⟨by omega, by omega⟩ ⟨by omega, by omega⟩
        ⟨by omega, by omega⟩
    · exact median_range s a b _ _ _ _ ⟨by omega, by omega⟩ ⟨by omega, by omega⟩
        ⟨by omega, by omega⟩
    · exact median_range s a b _ _ _ _ ⟨by omega, by omega⟩ ⟨by omega, by omega⟩
        ⟨by omega, by omega⟩
  · exact median_range s a b (a + (b - a) / 4 * 1) (a + (b - a) / 4 * 2)
      (a + (b - a) / 4 * 3) 0 ⟨by omega, by omega⟩ ⟨by omega, by omega⟩ ⟨by omega, by omega⟩

/-! ### `pdqsort` -/

theorem SortedRange.glue {a m b : Nat} {s : List Field} (h1 : SortedRange a m s)
    (h2 : SortedRange m b s)
    (h3 : a < m → m < b → Less (fieldAt s m) (fieldAt s (m - 1)) = false) :
    SortedRange a b s := by
  intro i hi hib
  by_cases h : i + 1 < m
  · exact h1 i hi h
  · by_cases h' : m ≤ i
    · exact h2 i h' hib
    · have hm : i + 1 = m := by omega
      subst hm
      simpa using h3 (by omega) hib

theorem SortedRange.of_outside {a b lo hi : Nat} {s s' : List Field}
    (h : SortedRange a b s) (hw : Within lo hi s s') (hd : b ≤ lo ∨ hi ≤ a) :
    SortedRange a b s' := by
  intro i hi1 hi2
  rw [hw.outside (i + 1) (by omega), hw.outside i (by omega)]
  exact h i hi1 hi2

/-- A range in order before `m`, followed by a range whose elements are not
`Less` than the element at `m - 1` and which is then sorted. -/
theorem SortedRange.extend_right {a m b : Nat} {s s' : List Field}
    (h1 : SortedRange a m s) (hl : LowerBounded m b s) (hw : Within m b s s')
    (h2 : SortedRange m b s') : SortedRange a b s' := by
  refine SortedRange.glue (h1.of_outside hw (Or.inl (le_refl _))) h2 ?_
  intro h3 h4
  exact hw.lowerBounded hl (by omega) m (le_refl _) h4

theorem PivotAt.left {a mid b : Nat} {s s' : List Field} (h : PivotAt a mid b s)
    (hw : Within a mid s s') : PivotAt a mid b s' := by
  refine ⟨?_, ?_⟩
  · intro k hk1 hk2
    rw [hw.outside mid (Or.inr (le_refl _))]
    exact hw.forall_inside (fun x => Less x (fieldAt s mid) = true) h.1 k hk1 hk2
  · intro k hk1 hk2
    rw [hw.outside mid (Or.inr (le_refl _)), hw.outside k (Or.inr (by omega))]
    exact h.2 k hk1 hk2

theorem PivotAt.right {a mid b : Nat} {s s' : List Field} (h : PivotAt a mid b s)
    (hw : Within (mid + 1) b s s') : PivotAt a mid b s' := by
  refine ⟨?_, ?_⟩
  · intro k hk1 hk2
    rw [hw.outside mid (Or.inl (by omega)), hw.outside k (Or.inl (by omega))]
    exact h.1 k hk1 hk2
  · intro k hk1 hk2
    rw [hw.outside mid (Or.inl (by omega))]
    exact hw.forall_inside (fun x => Less x (fieldAt s mid) = false)
      (fun k h1 h2 => h.2 k (by omega) h2) k (by omega) hk2

theorem PivotAt.sorted {a mid b : Nat} {s : List Field} (h : PivotAt a mid b s)
    (h1 : SortedRange a mid s) (h2 : SortedRange (mid + 1) b s) : SortedRange a b s := by
  intro i hi hib
  by_cases c1 : i + 1 < mid
  · exact h1 i hi c1
  · by_cases c2 : i + 1 = mid
    · subst c2
      cases hc : Less (fieldAt s (i + 1)) (fieldAt s i) with
      | false => rfl
      | true => exact absurd (h.1 i hi (by omega)) (by
          have := Less_asymm _ _ hc
          simp [this])
    · by_cases c3 : i = mid
      · subst c3
        exact h.2 (i + 1) (by omega) hib
      · exact h2 i (by omega) hib

theorem LowerBounded.shrink {a b b' : Nat} {s : List Field} (h : LowerBounded a b s)
    (hb : b' ≤ b) : LowerBounded a b' s :=
  fun ha k hk1 hk2 => h ha k hk1 (by omega)

theorem partitionEqual_sorted (s : List Field) (a b pivot : Nat) (ha0 : 0 < a)
    (hap : a ≤ pivot) (hpb : pivot < b) (hb : b ≤ s.length) (hlow : LowerBounded a b s)
    (hle : Less (fieldAt s (a - 1)) (fieldAt s pivot) = false) :
    SortedRange a (partitionEqual s a b pivot).2 (partitionEqual s a b pivot).1 ∧
      LowerBounded (partitionEqual s a b pivot).2 b (partitionEqual s a b pivot).1 := by
  obtain ⟨hw, hm1, hm2, hE, hG⟩ := partitionEqual_spec s a b pivot hap hpb hb
  generalize partitionEqual s a b pivot = pe at *
  have hlow1 := hw.lowerBounded hlow ha0
  have hge : ∀ k, a ≤ k → k < b → Less (fieldAt pe.1 k) (fieldAt s pivot) = false := by
    intro k hk1 hk2
    have h1 := hlow1 k hk1 hk2
    rw [hw.outside (a - 1) (Or.inl (by omega))] at h1
    cases hc : Less (fieldAt pe.1 k) (fieldAt s pivot) with
    | false => rfl
    | true =>
      have h2 := Less_of_Less_of_not_Less _ _ _ hc hle
      rw [h1] at h2
      cases h2
  refine ⟨?_, ?_⟩
  · intro i hi1 hi2
    cases hc : Less (fieldAt pe.1 (i + 1)) (fieldAt pe.1 i) with
    | false => rfl
    | true =>
      have h2 := Less_of_Less_of_not_Less _ _ _ hc (hE i hi1 (by omega))
      rw [hge (i + 1) (by omega) (by omega)] at h2
      cases h2
  · intro hm k hk1 hk2
    cases hc : Less (fieldAt pe.1 k) (fieldAt pe.1 (pe.2 - 1)) with
    | false => rfl
    | true =>
      have h2 := Less_of_Less_of_not_Less _ _ _ hc (hE (pe.2 - 1) (by omega) (by omega))
      rw [Less_asymm _ _ (hG k hk1 hk2)] at h2
      cases h2

/-- One round of the loop of `pdqsort` on more than 12 elements with
`limit` not 0, with the intermediate values named. -/
theorem pdqsortLoop_round (fuel : Nat) (data : List Field) (a b limit : Nat)
    (wasBalanced wasPartitioned : Bool) (h12 : ¬ b - a ≤ 12) (hlimit : ¬ limit = 0)
    (data1 : List Field)
    (hdata1 : data1 = if (!wasBalanced) = true then breakPatterns data a b else data)
    (limit1 : Nat) (hlimit1 : limit1 = if (!wasBalanced) = true then limit - 1 else limit)
    (ph : Nat × sortedHint) (hph : ph = choosePivot data1 a b)
    (data2 : List Field)
    (hdata2 : data2 =
      if ph.2 = sortedHint.decreasingHint then reverseRange data1 a b else data1)
    (pivot : Nat)
    (hpivot : pivot = if ph.2 = sortedHint.decreasingHint then (b - 1) - (ph.1 - a) else ph.1)
    (hint : sortedHint)
    (hhint : hint =
      if ph.2 = sortedHint.decreasingHint then sortedHint.increasingHint else ph.2)
    (pis : List Field × Bool)
    (hpis : pis =
      if (wasBalanced && wasPartitioned && decide (hint = sortedHint.increasingHint)) = true
      then partialInsertionSort data2 a b else (data2, false))
    (pe : List Field × Nat) (hpe : pe = partitionEqual pis.1 a b pivot)
    (pt : List Field × Nat × Bool) (hpt : pt = partition pis.1 a b pivot) :
    pdqsortLoop (fuel + 1) data a b limit wasBalanced wasPartitioned =
      if pis.2 = true then pis.1
      else if a > 0 ∧ LessAt pis.1 (a - 1) pivot = false then
        pdqsortLoop fuel pe.1 pe.2 b limit1 wasBalanced wasPartitioned
      else if pt.2.1 - a < b - pt.2.1 then
        pdqsortLoop fuel (pdqsortLoop fuel pt.1 a pt.2.1 limit1 true true)
          (pt.2.1 + 1) b limit1 (decide (pt.2.1 - a ≥ (b - a) / 8)) pt.2.2
      else
        pdqsortLoop fuel (pdqsortLoop fuel pt.1 (pt.2.1 + 1) b limit1 true true)
          a pt.2.1 limit1 (decide (b - pt.2.1 ≥ (b - a) / 8)) pt.2.2 := by
  subst hdata1 hlimit1 hph hdata2 hpivot hhint hpis hpe hpt
  conv_lhs => unfold pdqsortLoop
  show (if b - a ≤ 12 then _ else if limit = 0 then _ else _) = _
  rw [if_neg h12, if_neg hlimit]

theorem insertionSort_empty (s : List Field) (a b : Nat) (h : b - a = 0) :
    insertionSort s a b = s := by
  unfold insertionSort
  rw [h]
  rfl

theorem pdqsortLoop_small (fuel : Nat) (s : List Field) (a b limit : Nat)
    (wasBalanced wasPartitioned : Bool) (h12 : b - a ≤ 12) (hf : b - a ≤ fuel) :
    pdqsortLoop fuel s a b limit wasBalanced wasPartitioned = insertionSort s a b := by
  cases fuel with
  | zero =>
    rw [insertionSort_empty s a b (by omega)]
    rfl
  | succ fuel =>
    conv_lhs => unfold pdqsortLoop
    show (if b - a ≤ 12 then _ else _) = _
    rw [if_pos h12]

/-- The loop of `pdqsort` on `[a, b)`, given at least `b - a` rounds and a slice
in which no element of `[a, b)` is `Less` than the one before `a`: it
rearranges `[a, b)` only, it leaves it in order, and it has ended by itself,
more rounds give the same slice. -/
theorem pdqsortLoop_spec :
    ∀ fuel s a b limit wasBalanced wasPartitioned, b - a ≤ fuel → a ≤ b → b ≤ s.length →
      LowerBounded a b s →
      Within a b s (pdqsortLoop fuel s a b limit wasBalanced wasPartitioned) ∧
        SortedRange a b (pdqsortLoop fuel s a b limit wasBalanced wasPartitioned) ∧
        ∀ more, b - a ≤ more →
          pdqsortLoop more s a b limit wasBalanced wasPartitioned =
            pdqsortLoop fuel s a b limit wasBalanced wasPartitioned := by
  intro fuel
  induction fuel with
  | zero =>
    intro s a b limit wb wp hf hab hb hlow
    refine ⟨?_, ?_, ?_⟩
    · rw [pdqsortLoop]
      exact Within.refl _ _ _
    · intro i h1 h2
      omega
    · intro more hm
      rw [pdqsortLoop_small more s a b limit wb wp (by omega) hm,
        pdqsortLoop_small 0 s a b limit wb wp (by omega) hf]
  | succ fuel ih =>
    intro s a b limit wb wp hf hab hb hlow
    by_cases h12 : b - a ≤ 12
    · refine ⟨?_, ?_, ?_⟩
      · rw [pdqsortLoop_small _ s a b limit wb wp h12 hf]
        exact (insertionSort_spec s a b hab hb).1
      · rw [pdqsortLoop_small _ s a b limit wb wp h12 hf]
        exact (insertionSort_spec s a b hab hb).2
      · intro more hm
        rw [pdqsortLoop_small more s a b limit wb wp h12 hm,
          pdqsortLoop_small _ s a b limit wb wp h12 hf]
    have hmore : ∀ more, b - a ≤ more → ∃ m, more = m + 1 :=
      fun more h => ⟨more - 1, by omega⟩
    by_cases hlimit : limit = 0
    · have e : ∀ f, pdqsortLoop (f + 1) s a b limit wb wp = heapSort s a b := by
        intro f
        conv_lhs => unfold pdqsortLoop
        show (if b - a ≤ 12 then _ else if limit = 0 then _ else _) = _
        rw [if_neg h12, if_pos hlimit]
      refine ⟨?_, ?_, ?_⟩
      · rw [e]
        exact (heapSort_spec s a b hab hb).1
      · rw [e]
        exact (heapSort_spec s a b hab hb).2
      · intro more hm
        obtain ⟨m, rfl⟩ := hmore more hm
        rw [e, e]
    have hw1 : Within a b s (if (!wb) = true then breakPatterns s a b else s) := by
      split
      · exact breakPatterns_within s a b hab hb
      · exact Within.refl _ _ _
    generalize hdata1 : (if (!wb) = true then breakPatterns s a b else s) = data1 at hw1
    generalize hlimit1 : (if (!wb) = true then limit - 1 else limit) = limit1
    have hb1 : b ≤ data1.length := by rw [hw1.length_eq]; exact hb
    have hp := choosePivot_range data1 a b (by omega)
    generalize hph : choosePivot data1 a b = ph at hp
    have hw2 : Within a b data1
        (if ph.2 = sortedHint.decreasingHint then reverseRange data1 a b else data1) := by
      split
      · exact reverseRange_within data1 a b (by omega) hb1
      · exact Within.refl _ _ _
    generalize hdata2 :
      (if ph.2 = sortedHint.decreasingHint then reverseRange data1 a b else data1) = data2
      at hw2
    have hpiv : a ≤ (if ph.2 = sortedHint.decreasingHint then (b - 1) - (ph.1 - a) else ph.1) ∧
        (if ph.2 = sortedHint.decreasingHint then (b - 1) - (ph.1 - a) else ph.1) < b := by
      split <;> omega
    generalize hpivot :
      (if ph.2 = sortedHint.decreasingHint then (b - 1) - (ph.1 - a) else ph.1) = pivot at hpiv
    generalize hhint :
      (if ph.2 = sortedHint.decreasingHint then sortedHint.increasingHint else ph.2) = hint
    have hw12 : Within a b s data2 := hw1.trans hw2
    have hb2 : b ≤ data2.length := by rw [hw12.length_eq]; exact hb
    have hpi : Within a b data2
        (if (wb && wp && decide (hint = sortedHint.increasingHint)) = true
          then partialInsertionSort data2 a b else (data2, false)).1 ∧
        ((if (wb && wp && decide (hint = sortedHint.increasingHint)) = true
          then partialInsertionSort data2 a b else (data2, false)).2 = true →
          SortedRange a b (if (wb && wp && decide (hint = sortedHint.increasingHint)) = true
            then partialInsertionSort data2 a b else (data2, false)).1) := by
      split
      · exact partialInsertionSort_spec data2 a b (by omega) hb2 (hw12.lowerBounded hlow)
      · exact ⟨Within.refl _ _ _, fun h => by simp at h⟩
    generalize hpis : (if (wb && wp && decide (hint = sortedHint.increasingHint)) = true
          then partialInsertionSort data2 a b else (data2, false)) = pis at hpi
    obtain ⟨hw3, hdone⟩ := hpi
    have hw : Within a b s pis.1 := hw12.trans hw3
    have hb3 : b ≤ pis.1.length := by rw [hw.length_eq]; exact hb
    have hlow3 : LowerBounded a b pis.1 := hw.lowerBounded hlow
    have hround := fun f => pdqsortLoop_round f s a b limit wb wp h12 hlimit data1
      hdata1.symm limit1 hlimit1.symm ph hph.symm data2 hdata2.symm pivot hpivot.symm hint
      hhint.symm pis hpis.symm _ rfl _ rfl
    by_cases hd : pis.2 = true
    · have e : ∀ f, pdqsortLoop (f + 1) s a b limit wb wp = pis.1 :=
        fun f => by rw [hround f, if_pos hd]
      refine ⟨?_, ?_, ?_⟩
      · rw [e]
        exact hw
      · rw [e]
        exact hdone hd
      · intro more hm
        obtain ⟨m, rfl⟩ := hmore more hm
        rw [e, e]
    by_cases hcond : a > 0 ∧ LessAt pis.1 (a - 1) pivot = false
    · obtain ⟨hpw, hm1, hm2, -, -⟩ := partitionEqual_spec pis.1 a b pivot hpiv.1 hpiv.2 hb3
      obtain ⟨hps, hpl⟩ := partitionEqual_sorted pis.1 a b pivot hcond.1 hpiv.1 hpiv.2 hb3
        hlow3 hcond.2
      have e : ∀ f, pdqsortLoop (f + 1) s a b limit wb wp =
          pdqsortLoop f (partitionEqual pis.1 a b pivot).1 (partitionEqual pis.1 a b pivot).2
            b limit1 wb wp :=
        fun f => by rw [hround f, if_neg hd, if_pos hcond]
      generalize partitionEqual pis.1 a b pivot = pe at hpw hm1 hm2 hps hpl e
      obtain ⟨r1, r2, r3⟩ := ih pe.1 pe.2 b limit1 wb wp (by omega) hm2
        (by rw [hpw.length_eq]; exact hb3) hpl
      refine ⟨?_, ?_, ?_⟩
      · rw [e]
        exact (hw.trans hpw).trans (r1.mono (by omega) (le_refl _))
      · rw [e]
        exact SortedRange.extend_right hps hpl r1 r2
      · intro more hm
        obtain ⟨m, rfl⟩ := hmore more hm
        rw [e, e]
        exact r3 m (by omega)
    obtain ⟨hpw, hm1, hm2, hL, hR⟩ := partition_spec pis.1 a b pivot hpiv.1 hpiv.2 hb3
    have hpa : PivotAt a (partition pis.1 a b pivot).2.1 b (partition pis.1 a b pivot).1 :=
      ⟨hL, hR⟩
    clear hL hR
    by_cases hlr : (partition pis.1 a b pivot).2.1 - a < b - (partition pis.1 a b pivot).2.1
    · -- the left part first
      have e : ∀ f, pdqsortLoop (f + 1) s a b limit wb wp =
          pdqsortLoop f
            (pdqsortLoop f (partition pis.1 a b pivot).1 a (partition pis.1 a b pivot).2.1
              limit1 true true)
            ((partition pis.1 a b pivot).2.1 + 1) b limit1
            (decide ((partition pis.1 a b pivot).2.1 - a ≥ (b - a) / 8))
            (partition pis.1 a b pivot).2.2 :=
        fun f => by rw [hround f, if_neg hd, if_neg hcond, if_pos hlr]
      generalize partition pis.1 a b pivot = pt at hpw hm1 hm2 hpa e
      have hbt : b ≤ pt.1.length := by rw [hpw.length_eq]; exact hb3
      have hlowt : LowerBounded a b pt.1 := hpw.lowerBounded hlow3
      have hlowR : LowerBounded (pt.2.1 + 1) b pt.1 := by
        intro _ k hk1 hk2
        exact hpa.2 k (by omega) hk2
      obtain ⟨l1, l2, l3⟩ := ih pt.1 a pt.2.1 limit1 true true (by omega) hm1 (by omega)
        (hlowt.shrink (by omega))
      have hlowR1 : LowerBounded (pt.2.1 + 1) b
          (pdqsortLoop fuel pt.1 a pt.2.1 limit1 true true) := by
        intro h0 k hk1 hk2
        rw [l1.outside k (Or.inr (by omega)), l1.outside _ (Or.inr (by omega))]
        exact hlowR h0 k hk1 hk2
      obtain ⟨r1, r2, r3⟩ := ih (pdqsortLoop fuel pt.1 a pt.2.1 limit1 true true)
        (pt.2.1 + 1) b limit1 (decide (pt.2.1 - a ≥ (b - a) / 8)) pt.2.2 (by omega)
        (by omega) (by rw [l1.length_eq]; exact hbt) hlowR1
      refine ⟨?_, ?_, ?_⟩
      · rw [e]
        exact (hw.trans hpw).trans ((l1.mono (le_refl _) (by omega)).trans
          (r1.mono (by omega) (le_refl _)))
      · rw [e]
        exact ((hpa.left l1).right r1).sorted (l2.of_outside r1 (Or.inl (by omega))) r2
      · intro more hm
        obtain ⟨m, rfl⟩ := hmore more hm
        rw [e, e, l3 m (by omega)]
        exact r3 m (by omega)
    · -- the right part first
      have e : ∀ f, pdqsortLoop (f + 1) s a b limit wb wp =
          pdqsortLoop f
            (pdqsortLoop f (partition pis.1 a b pivot).1 ((partition pis.1 a b pivot).2.1 + 1)
              b limit1 true true)
            a (partition pis.1 a b pivot).2.1 limit1
            (decide (b - (partition pis.1 a b pivot).2.1 ≥ (b - a) / 8))
            (partition pis.1 a b pivot).2.2 :=
        fun f => by rw [hround f, if_neg hd, if_neg hcond, if_neg hlr]
      generalize partition pis.1 a b pivot = pt at hpw hm1 hm2 hpa e
      have hbt : b ≤ pt.1.length := by rw [hpw.length_eq]; exact hb3
      have hlowt : LowerBounded a b pt.1 := hpw.lowerBounded hlow3
      have hlowR : LowerBounded (pt.2.1 + 1) b pt.1 := by
        intro _ k hk1 hk2
        exact hpa.2 k (by omega) hk2
      obtain ⟨r1, r2, r3⟩ := ih pt.1 (pt.2.1 + 1) b limit1 true true (by omega) (by omega)
        hbt hlowR
      have hlowL1 : LowerBounded a pt.2.1
          (pdqsortLoop fuel pt.1 (pt.2.1 + 1) b limit1 true true) := by
        intro h0 k hk1 hk2
        rw [r1.outside k (Or.inl (by omega)), r1.outside _ (Or.inl (by omega))]
        exact hlowt h0 k hk1 (by omega)
      obtain ⟨l1, l2, l3⟩ := ih (pdqsortLoop fuel pt.1 (pt.2.1 + 1) b limit1 true true)
        a pt.2.1 limit1 (decide (b - pt.2.1 ≥ (b - a) / 8)) pt.2.2 (by omega) hm1
        (by rw [r1.length_eq]; omega) hlowL1
      refine ⟨?_, ?_, ?_⟩
      · rw [e]
        exact (hw.trans hpw).trans ((r1.mono (by omega) (le_refl _)).trans
          (l1.mono (le_refl _) (by omega)))
      · rw [e]
        exact ((hpa.right r1).left l1).sorted l2 (r2.of_outside l1 (Or.inr (by omega)))
      · intro more hm
        obtain ⟨m, rfl⟩ := hmore more hm
        rw [e, e, r3 m (by omega)]
        exact l3 m (by omega)

theorem pdqsort_spec (s : List Field) (a b limit : Nat) (hab : a ≤ b) (hb : b ≤ s.length)
    (hlow : LowerBounded a b s) :
    Within a b s (pdqsort s a b limit) ∧ SortedRange a b (pdqsort s a b limit) :=
  ⟨(pdqsortLoop_spec (b - a) s a b limit true true (le_refl _) hab hb hlow).1,
    (pdqsortLoop_spec (b - a) s a b limit true true (le_refl _) hab hb hlow).2.1⟩

/-- The function `sort.Sort` returns a permutation of the slice in which no element is
`Less` than the one before it. -/
theorem sortSort_spec (s : List Field) :
    (sortSort s).Perm s ∧ SortedRange 0 s.length (sortSort s) := by
  unfold sortSort
  simp only [Len]
  split
  · exact ⟨List.Perm.refl _, fun i _ h => by omega⟩
  · have := pdqsort_spec s 0 s.length (bitsLen s.length) (Nat.zero_le _) (le_refl _)
      (fun h => absurd h (by decide))
    exact ⟨this.1.perm, this.2⟩

/-- After `optimize` no field is `Less` than the field immediately before
it. -/
theorem optimize_chain (fields : List Field) :
    List.Chain' (fun a b : Field => Less b a = false) (optimize fields) := by
  obtain ⟨hperm, hsorted⟩ := sortSort_spec fields
  unfold optimize
  rw [List.chain'_iff_get]
  intro i hi
  have hlen : (sortSort fields).length = fields.length := hperm.length_eq
  have h := hsorted i (Nat.zero_le _) (by omega)
  rw [fieldAt_eq_getElem _ (i + 1) (by omega), fieldAt_eq_getElem _ i (by omega)] at h
  exact h

/-- C5. What `optimize` leaves is a permutation of its input: the same
multiset of `Field` records, nothing inserted, deleted or modified. -/
theorem optimize_perm (fields : List Field) :
    (optimize fields).Perm fields ∧
      (optimize fields : Multiset Field) = (fields : Multiset Field) := by
  have h : (optimize fields).Perm fields := (sortSort_spec fields).1
  exact ⟨h, Multiset.coe_eq_coe.mpr h⟩

/-- C6. After `optimize`, every adjacent pair `A` immediately before `B` is in
order: `Less B A` is false, that is, `B` is not zero-sized while `A` is
non-zero-sized; if both are zero-sized or both are not, `A.Align ≥ B.Align`;
and if moreover `A.Align = B.Align`, `A.Size ≥ B.Size`. -/
theorem optimize_adjacent_ordered (fields : List Field) :
    List.Chain' (fun A B : Field =>
        Less B A = false ∧
        ¬ (B.Size = 0 ∧ A.Size ≠ 0) ∧
        ((A.Size = 0 ↔ B.Size = 0) → A.Align ≥ B.Align) ∧
        ((A.Size = 0 ↔ B.Size = 0) → A.Align = B.Align → A.Size ≥ B.Size))
      (optimize fields) := by
  have h := optimize_chain fields
  refine List.Chain'.imp ?_ h
  intro A B hBA
  refine ⟨hBA, ?_⟩
  rw [Less_eq_false_iff] at hBA
  omega

/-! ### Runs and distinct values -/

theorem mem_distinctInOrder (l : List String) :
    ∀ z, z ∈ distinctInOrder l ↔ z ∈ l := by
  induction l with
  | nil => intro z; simp [distinctInOrder]
  | cons x xs ih =>
    intro z
    by_cases hz : z = x
    · simp [distinctInOrder, hz]
    · simp [distinctInOrder, hz, ih z]

theorem distinctInOrder_nodup (l : List String) : (distinctInOrder l).Nodup := by
  induction l with
  | nil => simp [distinctInOrder]
  | cons x xs ih =>
    simp only [distinctInOrder]
    refine List.nodup_cons.mpr ⟨?_, ih.filter _⟩
    simp

theorem collapseRuns_eq_distinctInOrder (l : List String) :
    runsConsecutive l → collapseRuns l = distinctInOrder l := by
  induction l with
  | nil => intro _; rfl
  | cons x xs ih =>
    cases xs with
    | nil => intro _; rfl
    | cons y rest =>
      intro h
      obtain ⟨hback, htail⟩ := h
      have ih1 := ih htail
      by_cases hxy : x = y
      · subst hxy
        simp only [collapseRuns, if_true, ih1]
        simp [distinctInOrder, List.filter_filter]
      · have hnot : x ∉ y :: rest := by
          simp [hxy, hback hxy]
        have hself : (distinctInOrder (y :: rest)).filter (fun z => z != x)
            = distinctInOrder (y :: rest) := by
          apply List.filter_eq_self.mpr
          intro z hz
          have hzmem := (mem_distinctInOrder (y :: rest) z).mp hz
          have : z ≠ x := fun hzx => hnot (hzx ▸ hzmem)
          simpa using this
        simp only [collapseRuns, hxy, if_false, ih1]
        conv_rhs => rw [distinctInOrder, hself]

/-! ### The loop of `combine` -/

theorem twoComponents_ne_empty (name p : String)
    (h : twoComponents name = some p) : p ≠ "" := by
  unfold twoComponents at h
  split at h
  · simp only [Option.some.injEq] at h
    intro hp
    have hlen := congrArg String.length (h.trans hp)
    simp [String.length_append] at hlen
    exact absurd hlen.1.2 (by decide)
  · simp at h

theorem prefixesOf_cons_padding (f : Field) (rest : List Field)
    (hf : f.IsPadding = true) : prefixesOf (f :: rest) = prefixesOf rest := by
  simp [prefixesOf, hf]

theorem prefixesOf_cons_real (f : Field) (rest : List Field) (p : String)
    (hf : f.IsPadding = false) (hp : twoComponents f.Name = some p) :
    prefixesOf (f :: rest) = p :: prefixesOf rest := by
  simp [prefixesOf, hf, hp]

/-- One iteration of the loop of `combine` on a field that is no padding
marker and whose name has the two-component prefix `p`: what it does to
the current prefix and to the names written so far. -/
theorem combineStep_real (st : CombineState) (f : Field) (p : String)
    (hf : f.IsPadding = false) (hp : twoComponents f.Name = some p) :
    ∃ st1, combineStep st f = some st1 ∧ st1.cur = p ∧
      st1.new.Name = (if p = st.cur then st.new.Name else p) ∧
      st1.out.map (fun e => e.Name) =
        (if p ≠ st.cur ∧ st.cur ≠ "" then
          st.out.map (fun e => e.Name) ++ [st.new.Name]
         else st.out.map (fun e => e.Name)) := by
  by_cases hcur : p = st.cur
  · have hb : (p != st.cur) = false := by simp [hcur]
    simp only [combineStep, hf, hp, hb, Bool.false_eq_true, if_false,
      Option.bind_eq_bind, Option.some_bind, Option.pure_def]
    refine ⟨_, rfl, hcur.symm, ?_, ?_⟩
    · by_cases h1 : f.Align > st.new.Align <;> by_cases h2 : st.wasPad = true <;>
        simp [hcur, h1, h2]
    · simp [hcur]
  · have hb : (p != st.cur) = true := by simp [hcur]
    simp only [combineStep, hf, hp, hb, Bool.false_eq_true, if_false, if_true,
      Option.bind_eq_bind, Option.some_bind, Option.pure_def]
    refine ⟨_, rfl, rfl, by simp [hcur], ?_⟩
    by_cases hemp : st.cur = ""
    · simp [hemp]
    · by_cases h1 : f.Align > st.new.Align <;> by_cases h2 : st.wasPad = true <;>
        simp [hcur, hemp, h1, h2]

/-- The loop of `combine`, entered with a group under construction: it
returns, and the names written, followed by the name of the last group, are
the names written before followed by the runs of the current prefix and the
prefixes still to come. -/
theorem combineLoop_names (fields : List Field) :
    ∀ st : CombineState,
      (∀ f ∈ fields, f.IsPadding = false → (twoComponents f.Name).isSome) →
      st.new.Name = st.cur → st.cur ≠ "" →
      ∃ st', combineLoop st fields = some st' ∧ st'.new.Name = st'.cur ∧
        st'.out.map (fun e => e.Name) ++ [st'.cur] =
          st.out.map (fun e => e.Name) ++
            collapseRuns (st.cur :: prefixesOf fields) := by
  induction fields with
  | nil =>
    intro st _ hname _
    exact ⟨st, rfl, hname, by simp [prefixesOf, collapseRuns]⟩
  | cons f rest ih =>
    intro st hnames hname hcur
    have hrest : ∀ g ∈ rest, g.IsPadding = false → (twoComponents g.Name).isSome :=
      fun g hg => hnames g (List.mem_cons_of_mem _ hg)
    by_cases hf : f.IsPadding = true
    · obtain ⟨st', hloop, hn, hout⟩ := ih { st with wasPad := true } hrest hname hcur
      refine ⟨st', by simp [combineLoop, combineStep, hf, hloop], hn, ?_⟩
      rw [prefixesOf_cons_padding f rest hf]
      exact hout
    · have hf0 : f.IsPadding = false := by simpa using hf
      obtain ⟨p, hp⟩ := Option.isSome_iff_exists.mp (hnames f (List.mem_cons_self _ _) hf0)
      obtain ⟨st1, hstep, hc1, hn1, ho1⟩ := combineStep_real st f p hf0 hp
      have hname1 : st1.new.Name = st1.cur := by
        rw [hn1, hc1]
        by_cases hpc : p = st.cur
        · simp [hpc, hname]
        · simp [hpc]
      have hcur1 : st1.cur ≠ "" := by
        rw [hc1]
        exact twoComponents_ne_empty f.Name p hp
      obtain ⟨st', hloop, hn, hout⟩ := ih st1 hrest hname1 hcur1
      refine ⟨st', by simp [combineLoop, hstep, hloop], hn, ?_⟩
      rw [hout, ho1, hc1, prefixesOf_cons_real f rest p hf0 hp]
      by_cases hpc : p = st.cur
      · simp [hpc, collapseRuns]
      · have hcp : ¬ st.cur = p := fun h => hpc h.symm
        simp [hpc, hcur, hcp, hname, collapseRuns]

/-- The loop of `combine`, entered before the first group: with a field that
is no padding marker it returns, and the names written, followed by the name
of the last group, are the runs of the prefixes. -/
theorem combineLoop_names_init (fields : List Field) :
    ∀ st : CombineState,
      (∀ f ∈ fields, f.IsPadding = false → (twoComponents f.Name).isSome) →
      st.cur = "" → st.out = [] → (∃ f ∈ fields, f.IsPadding = false) →
      ∃ st', combineLoop st fields = some st' ∧ st'.new.Name = st'.cur ∧
        st'.out.map (fun e => e.Name) ++ [st'.cur] =
          collapseRuns (prefixesOf fields) := by
  induction fields with
  | nil =>
    intro st _ _ _ hex
    obtain ⟨f, hf, _⟩ := hex
    simp at hf
  | cons f rest ih =>
    intro st hnames hcur hout hex
    have hrest : ∀ g ∈ rest, g.IsPadding = false → (twoComponents g.Name).isSome :=
      fun g hg => hnames g (List.mem_cons_of_mem _ hg)
    by_cases hf : f.IsPadding = true
    · have hex1 : ∃ g ∈ rest, g.IsPadding = false := by
        obtain ⟨g, hg, hgp⟩ := hex
        rcases List.mem_cons.mp hg with rfl | hg
        · simp [hf] at hgp
        · exact ⟨g, hg, hgp⟩
      obtain ⟨st', hloop, hn, ho⟩ := ih { st with wasPad := true } hrest hcur hout hex1
      refine ⟨st', by simp [combineLoop, combineStep, hf, hloop], hn, ?_⟩
      rw [prefixesOf_cons_padding f rest hf]
      exact ho
    · have hf0 : f.IsPadding = false := by simpa using hf
      obtain ⟨p, hp⟩ := Option.isSome_iff_exists.mp (hnames f (List.mem_cons_self _ _) hf0)
      obtain ⟨st1, hstep, hc1, hn1, ho1⟩ := combineStep_real st f p hf0 hp
      have hpne : p ≠ "" := twoComponents_ne_empty f.Name p hp
      have hname1 : st1.new.Name = st1.cur := by
        rw [hn1, hc1, hcur]
        simp [hpne]
      obtain ⟨st', hloop, hn, ho⟩ :=
        combineLoop_names rest st1 hrest hname1 (by rw [hc1]; exact hpne)
      refine ⟨st', by simp [combineLoop, hstep, hloop], hn, ?_⟩
      rw [ho, ho1, hc1, prefixesOf_cons_real f rest p hf0 hp]
      simp [hcur, hout]

/-- The names of the output of `combine`, for an input with a field that is
no padding marker and names of at least two components. -/
theorem combine_names_runs (fields : List Field)
    (hreal : ∃ f ∈ fields, f.IsPadding = false)
    (hnames : ∀ f ∈ fields, f.IsPadding = false → (twoComponents f.Name).isSome) :
    ∃ out, combine fields = some out ∧
      out.map (fun e => e.Name) = collapseRuns (prefixesOf fields) := by
  obtain ⟨st', hloop, hn, ho⟩ :=
    combineLoop_names_init fields combineInit hnames rfl rfl hreal
  refine ⟨_, by simp [combine, hloop]; rfl, ?_⟩
  rw [← ho, ← hn]
  simp

/-- C9 (amended). For an input sequence with at least one field that is no
padding marker, whose non-padding names each have at least two dot-separated
components, the names of the output of `combine` are the two-component
prefixes of the non-padding fields with every run of consecutive equal
prefixes reduced to one; when, moreover, the fields of one prefix are
consecutive, these are exactly the distinct prefixes, each once, in order of
first appearance, and there are as many groups as distinct prefixes. -/
theorem combine_names (fields : List Field)
    (hreal : ∃ f ∈ fields, f.IsPadding = false)
    (hnames : ∀ f ∈ fields, f.IsPadding = false → (twoComponents f.Name).isSome) :
    ∃ out, combine fields = some out ∧
      out.map (fun e => e.Name) = collapseRuns (prefixesOf fields) ∧
      (runsConsecutive (prefixesOf fields) →
        out.map (fun e => e.Name) = distinctInOrder (prefixesOf fields) ∧
        (out.map (fun e => e.Name)).Nodup ∧
        (∀ p, p ∈ out.map (fun e => e.Name) ↔ p ∈ prefixesOf fields) ∧
        out.length = (distinctInOrder (prefixesOf fields)).length) := by
  obtain ⟨out, hout, hn⟩ := combine_names_runs fields hreal hnames
  refine ⟨out, hout, hn, ?_⟩
  intro hruns
  have heq : out.map (fun e => e.Name) = distinctInOrder (prefixesOf fields) := by
    rw [hn, collapseRuns_eq_distinctInOrder _ hruns]
  refine ⟨heq, ?_, ?_, ?_⟩
  · rw [heq]
    exact distinctInOrder_nodup _
  · intro p
    rw [heq]
    exact mem_distinctInOrder _ p
  · rw [← heq]
    simp

/-- An instance: the group names of `nestedThenWord`. -/
theorem combine_names_witness :
    (∃ f ∈ nestedThenWord, f.IsPadding = false) ∧
    (∀ f ∈ nestedThenWord, f.IsPadding = false → (twoComponents f.Name).isSome) ∧
    ∃ out, combine nestedThenWord = some out ∧
      out.map (fun e => e.Name) = collapseRuns (prefixesOf nestedThenWord) ∧
      (runsConsecutive (prefixesOf nestedThenWord) →
        out.map (fun e => e.Name) = distinctInOrder (prefixesOf nestedThenWord) ∧
        (out.map (fun e => e.Name)).Nodup ∧
        (∀ p, p ∈ out.map (fun e => e.Name) ↔ p ∈ prefixesOf nestedThenWord) ∧
        out.length = (distinctInOrder (prefixesOf nestedThenWord)).length) :=
  ⟨by decide, by decide, combine_names nestedThenWord (by decide) (by decide)⟩

/-- C9, as stated, fails. On `T.a, T.b, T.a.x`, all names of two components
or more, `combine` returns three groups named `T.a, T.b, T.a`, while the
distinct prefixes are the two `T.a, T.b`. On the empty sequence `combine`
returns one group with the empty name, while there is no prefix. -/
theorem combine_repeats_prefix :
    (∀ f ∈ interleaved, f.IsPadding = false → (twoComponents f.Name).isSome) ∧
    (combine interleaved).map (fun out => out.map (fun e => e.Name))
      = some ["T.a", "T.b", "T.a"] ∧
    prefixesOf interleaved = ["T.a", "T.b", "T.a"] ∧
    distinctInOrder (prefixesOf interleaved) = ["T.a", "T.b"] ∧
    (combine []).map (fun out => out.map (fun e => e.Name)) = some [""] ∧
    distinctInOrder (prefixesOf []) = [] := by
  decide

/-- C10, the code at the failing input. For the struct
`T { a int32; b int64 }` with its padding marker, `combine` returns the group
`T.a` with `Align = 8`, although the only field collapsed into it has
`Align = 4`: 8 is the alignment of `T.b`, the first field of the next
group. -/
theorem combine_align_of_next_group :
    combine wordPaddingLong =
      some [{ Name := "T.a", Typ := "int32", Start := 0, End := 4, Size := 4,
              Align := 8, IsPadding := false },
            { Name := "T.b", Typ := "int64", Start := 8, End := 16, Size := 8,
              Align := 8, IsPadding := false }] := by
  decide

/-! ### `combine` at its ends -/

/-- C11, the code at the failing input. The two members `T.a.x` at `[0, 4)`
and `T.a.y` at `[4, 8)` are padding-free, contiguous, of one prefix and have
`Size = End - Start`; `combine` returns the single group `T.a` with
`End = 4` and `Size = 4`, the start of its last member, not `End = 8` and
`Size = 8`. -/
theorem combine_last_group_short :
    (∀ f ∈ nestedOnly, f.IsPadding = false ∧ f.Size = f.End - f.Start) ∧
    List.Chain' (fun f g : Field => f.End = g.Start) nestedOnly ∧
    runsConsecutive (prefixesOf nestedOnly) ∧
    combine nestedOnly =
      some [{ Name := "T.a", Typ := "struct", Start := 0, End := 4, Size := 4,
              Align := 4, IsPadding := false }] := by
  refine ⟨by decide, ?_, by decide, by decide⟩
  exact List.chain'_cons.mpr ⟨by decide, List.chain'_singleton _⟩

/-- C12 (amended). On the empty sequence `combine` returns one entry, Go's
zero value `Field{}`; the empty input gives no output because `main`
returns before it calls `combine`. -/
theorem combine_empty :
    combine [] = some [zeroField] ∧ ∀ fRecurse, main fRecurse [] = some [] := by
  refine ⟨by decide, ?_⟩
  intro fRecurse
  simp [main]

/-- C12, as stated, fails: what `combine` returns on the empty sequence has
one entry and is not the empty sequence. -/
theorem combine_empty_not_empty :
    combine [] ≠ some [] ∧ (combine []).map List.length = some 1 := by
  decide

/-! ### End-to-end scenarios on given inputs -/

/-- C13. On the input of scenario 1, dropping the padding marker, then
`optimize`, then `pad` returns exactly two entries, no padding: `b` at
`[0, 8)` followed by `a` at `[8, 12)`; the total size is 12. This is what
`main` prints under `-r`. -/
theorem scenario1_layout :
    pad (optimize (scenario1.filter (fun field => !field.IsPadding))) =
      some [{ Name := "b", Typ := "int64", Start := 0, End := 8, Size := 8,
              Align := 8, IsPadding := false },
            { Name := "a", Typ := "int32", Start := 8, End := 12, Size := 4,
              Align := 4, IsPadding := false }] ∧
    (pad (optimize (scenario1.filter (fun field => !field.IsPadding)))).map
      totalSize = some 12 ∧
    main true scenario1 =
      pad (optimize (scenario1.filter (fun field => !field.IsPadding))) := by
  decide

/-- C18. The greedy order is not always a layout of minimum size: the fields
of (size, alignment) (5, 4), (4, 4), (3, 1) are padding-free with `Align > 0`
and `Size ≥ 0`; `pad` after `optimize` ends at 15, and `pad` on the
permutation (5, 4), (3, 1), (4, 4) ends at 12. -/
theorem greedy_order_not_minimal :
    ∃ fields q : List Field,
      (∀ f ∈ fields, f.IsPadding = false ∧ 0 < f.Align ∧ 0 ≤ f.Size) ∧
      q.Perm fields ∧
      ∃ outo outq, pad (optimize fields) = some outo ∧ pad q = some outq ∧
        totalSize outq < totalSize outo ∧
        fields.map (fun f => (f.Size, f.Align)) = [(5, 4), (4, 4), (3, 1)] ∧
        q.map (fun f => (f.Size, f.Align)) = [(5, 4), (3, 1), (4, 4)] ∧
        totalSize outo = 15 ∧ totalSize outq = 12 := by
  refine ⟨greedyFields, betterOrder, by decide, ?_, _, _, rfl, rfl,
    by decide, by decide, by decide, by decide, by decide⟩
  exact List.Perm.cons _ (List.Perm.swap _ _ _)

/-! ### One iteration of `offsetsof` and `pad` without overflow -/

/-- No multiple of `a` in `[x, ∞)` is below the value of `align_eq`. -/
theorem align_value_minimal (x a : Int) (ha : 0 < a) (m : Int) (hm : a ∣ m)
    (hxm : x ≤ m) : x + a - 1 - (x + a - 1) % a ≤ m := by
  obtain ⟨hdvd, _, hlt⟩ := align_value_bounds x a ha
  by_contra hcon
  have hpos : 0 < x + a - 1 - (x + a - 1) % a - m := by omega
  have := Int.le_of_dvd hpos (Int.dvd_sub hdvd hm)
  omega

/-- One iteration of the loops of `offsetsof` and `pad` on a field of
positive alignment and non-negative size, at a non-negative cursor `o`, when
the cursor and all sizes and alignments still to come add up to an `int64`.
The offset `o1` is the smallest multiple of the alignment from `o` on, both
loops go on from `o1 + Size`, and `pad` emits a padding entry for `[o, o1)`
when `o < o1`, then the field at `o1`. -/
theorem layout_step (o : Int) (f : Field) (rest : List Field) (ho : 0 ≤ o)
    (hfa : 0 < f.Align) (hfs : 0 ≤ f.Size)
    (hrest : ∀ g ∈ rest, 0 < g.Align ∧ 0 ≤ g.Size)
    (hsum : o + ((f :: rest).map (fun f => f.Size + f.Align)).sum ≤ maxInt64) :
    ∃ o1, align o f.Align = some o1 ∧
      (f.Align ∣ o1 ∧ o ≤ o1 ∧ o1 < o + f.Align ∧
        ∀ m, f.Align ∣ m → o ≤ m → o1 ≤ m) ∧
      (0 ≤ o1 + f.Size ∧
        o1 + f.Size + (rest.map (fun f => f.Size + f.Align)).sum ≤ maxInt64) ∧
      offsetsofLoop o (f :: rest) =
        (offsetsofLoop (o1 + f.Size) rest).map (fun offsets => o1 :: offsets) ∧
      ∀ offsets, padLoop o (f :: rest) (o1 :: offsets) =
        (if o < o1 then
          [{ Name := "", Typ := "", Start := o, End := o1, Size := o1 - o,
             Align := 0, IsPadding := true }]
         else []) ++
        ({ f with Start := o1, End := o1 + f.Size } ::
          padLoop (o1 + f.Size) rest offsets) := by
  have hsum0 : 0 ≤ (rest.map (fun f => f.Size + f.Align)).sum := by
    apply List.sum_nonneg
    intro v hv
    obtain ⟨g, hg, rfl⟩ := List.mem_map.mp hv
    have := hrest g hg
    omega
  simp only [List.map_cons, List.sum_cons] at hsum
  obtain ⟨hdvd, hle, hlt⟩ := align_value_bounds o f.Align hfa
  have hmin := align_value_minimal o f.Align hfa
  have hal := align_eq o f.Align ho hfa (by omega)
  generalize o + f.Align - 1 - (o + f.Align - 1) % f.Align = o1
    at hdvd hle hlt hal hmin
  have hnext : addInt64 o1 f.Size = o1 + f.Size :=
    addInt64_of_inRange _ _ (by unfold minInt64; omega) (by omega)
  refine ⟨o1, hal, ⟨hdvd, hle, hlt, hmin⟩, ⟨by omega, by omega⟩, ?_, ?_⟩
  · cases hoffs : offsetsofLoop (o1 + f.Size) rest <;>
      simp [offsetsofLoop, hal, hnext, hoffs]
  · intro offsets
    rw [padLoop_cons_eq o o1 f rest offsets ho hle (by omega), hnext]

/-- Dropping the padding entries drops the optional padding entry in front
of a field. -/
theorem filter_optional_padding (c : Prop) [Decidable c] (p e : Field)
    (tail : List Field) (hp : p.IsPadding = true) (he : e.IsPadding = false) :
    ((if c then [p] else []) ++ e :: tail).filter (fun e => !e.IsPadding) =
      e :: tail.filter (fun e => !e.IsPadding) := by
  by_cases hc : c <;> simp [hc, hp, he]

/-- Without overflow, the entries of `pad` that are not padding entries start
at the offsets of `offsetsof`, each at the smallest multiple of its alignment
from the end of the previous one on, and end `Size` bytes later. -/
theorem padLoop_placed (fields : List Field) :
    ∀ o, 0 ≤ o →
      (∀ f ∈ fields, f.IsPadding = false ∧ 0 < f.Align ∧ 0 ≤ f.Size) →
      o + (fields.map (fun f => f.Size + f.Align)).sum ≤ maxInt64 →
      ∃ offsets, offsetsofLoop o fields = some offsets ∧
        ((padLoop o fields offsets).filter (fun e => !e.IsPadding)).map
          (fun e => e.Start) = offsets ∧
        placedFrom o ((padLoop o fields offsets).filter (fun e => !e.IsPadding)) := by
  induction fields with
  | nil => intro o _ _ _; exact ⟨[], rfl, by simp [padLoop], by simp [padLoop, placedFrom]⟩
  | cons f rest ih =>
    intro o ho h hsum
    obtain ⟨hfp, hfa, hfs⟩ := h f (List.mem_cons_self _ _)
    have hrest : ∀ g ∈ rest, g.IsPadding = false ∧ 0 < g.Align ∧ 0 ≤ g.Size :=
      fun g hg => h g (List.mem_cons_of_mem _ hg)
    obtain ⟨o1, _, ⟨hdvd, hle, _, hmin⟩, ⟨hnn, hbound⟩, hoffs, hpad⟩ :=
      layout_step o f rest ho hfa hfs (fun g hg => (hrest g hg).2) hsum
    obtain ⟨offs, hoffs1, hstarts, hplaced⟩ := ih (o1 + f.Size) hnn hrest hbound
    refine ⟨o1 :: offs, by rw [hoffs, hoffs1]; rfl, ?_, ?_⟩
    · rw [hpad offs, filter_optional_padding _ _
        { f with Start := o1, End := o1 + f.Size } _ rfl hfp, List.map_cons, hstarts]
    · rw [hpad offs, filter_optional_padding _ _
        { f with Start := o1, End := o1 + f.Size } _ rfl hfp]
      exact ⟨⟨hdvd, hle, hmin⟩, rfl, hplaced⟩

/-- C16 (amended). For a padding-free field sequence whose fields all have
`Align > 0` and `Size ≥ 0` and whose sizes and alignments add up to an
`int64` (no overflow), the entries of the output of `pad` that are not
padding entries are the input fields in order, the `Start` of the i-th one
is `offsetsof(fields)[i]`, that value is the smallest multiple of the field's
`Align` that is not below the `End` of the previous one (0 for the first),
and its `End` is `Start + Size`. -/
theorem pad_starts_at_offsets (fields : List Field)
    (h : ∀ f ∈ fields, f.IsPadding = false ∧ 0 < f.Align ∧ 0 ≤ f.Size)
    (hfit : noOverflow fields) :
    ∃ offsets out, offsetsof fields = some offsets ∧ pad fields = some out ∧
      (out.filter (fun e => !e.IsPadding)).map content = fields.map content ∧
      (out.filter (fun e => !e.IsPadding)).map (fun e => e.Start) = offsets ∧
      placedFrom 0 (out.filter (fun e => !e.IsPadding)) := by
  obtain ⟨offsets, hoff, hlen, hpad⟩ :=
    pad_eq_some fields (fun f hf => by have := h f hf; omega)
  obtain ⟨offs, hoffs, hstarts, hplaced⟩ :=
    padLoop_placed fields 0 (le_refl 0) h (by unfold noOverflow at hfit; omega)
  rw [hoff] at hoffs
  cases hoffs
  exact ⟨offsets, _, hoff, hpad,
    padLoop_content fields (fun f hf => (h f hf).1) 0 offsets hlen, hstarts, hplaced⟩

/-- An instance: the offsets of `byteThenWord`. -/
theorem pad_starts_at_offsets_witness :
    (∀ f ∈ byteThenWord, f.IsPadding = false ∧ 0 < f.Align ∧ 0 ≤ f.Size) ∧
    noOverflow byteThenWord ∧
    ∃ offsets out, offsetsof byteThenWord = some offsets ∧
      pad byteThenWord = some out ∧
      (out.filter (fun e => !e.IsPadding)).map content
        = byteThenWord.map content ∧
      (out.filter (fun e => !e.IsPadding)).map (fun e => e.Start) = offsets ∧
      placedFrom 0 (out.filter (fun e => !e.IsPadding)) :=
  ⟨by decide, by decide, pad_starts_at_offsets byteThenWord (by decide) (by decide)⟩

/-- C16, as stated, fails: the two fields of `hugeThenEven` are padding-free
with `Align > 0` and `Size ≥ 0`; `offsetsof` gives the second one the offset
`-2^63`, where its cursor has wrapped around, and `pad` starts it at
`2^63 - 1`. -/
theorem pad_start_differs_from_offset :
    (∀ f ∈ hugeThenEven, f.IsPadding = false ∧ 0 < f.Align ∧ 0 ≤ f.Size) ∧
    offsetsof hugeThenEven = some [0, -9223372036854775808] ∧
    (pad hugeThenEven).map (fun out => out.map (fun e => (e.IsPadding, e.Start)))
      = some [(false, 0), (false, 9223372036854775807)] := by
  decide

/-! ### The padding entries -/

/-- An entry that is no padding entry, in front of a list that contains a
padding entry, is in front of that padding entry. -/
theorem cons_eq_append_padding (e p : Field) (tail l1 l2 : List Field)
    (he : e.IsPadding = false) (hp : p.IsPadding = true)
    (heq : e :: tail = l1 ++ p :: l2) :
    ∃ l1', l1 = e :: l1' ∧ tail = l1' ++ p :: l2 := by
  cases l1 with
  | nil =>
    simp only [List.nil_append, List.cons.injEq] at heq
    rw [heq.1, hp] at he
    exact absurd he (by decide)
  | cons a l1' =>
    simp only [List.cons_append, List.cons.injEq] at heq
    exact ⟨l1', by rw [heq.1], heq.2⟩

/-- Without overflow, every padding entry that `pad` emits has empty name and
type, is followed by a field, and is shorter than the alignment of that
field. -/
theorem padLoop_paddings (fields : List Field) :
    ∀ o, 0 ≤ o →
      (∀ f ∈ fields, f.IsPadding = false ∧ 0 < f.Align ∧ 0 ≤ f.Size) →
      o + (fields.map (fun f => f.Size + f.Align)).sum ≤ maxInt64 →
      ∃ offsets, offsetsofLoop o fields = some offsets ∧
        ∀ l1 p l2, padLoop o fields offsets = l1 ++ p :: l2 →
          p.IsPadding = true →
          p.Name = "" ∧ p.Typ = "" ∧ 0 < p.Size ∧ p.Size = p.End - p.Start ∧
            ∃ f tail, l2 = f :: tail ∧ f.IsPadding = false ∧ p.Size < f.Align := by
  induction fields with
  | nil =>
    intro o _ _ _
    refine ⟨[], rfl, ?_⟩
    intro l1 p l2 heq
    simp [padLoop] at heq
  | cons f rest ih =>
    intro o ho h hsum
    obtain ⟨hfp, hfa, hfs⟩ := h f (List.mem_cons_self _ _)
    have hrest : ∀ g ∈ rest, g.IsPadding = false ∧ 0 < g.Align ∧ 0 ≤ g.Size :=
      fun g hg => h g (List.mem_cons_of_mem _ hg)
    obtain ⟨o1, _, ⟨_, hle, hlt, _⟩, ⟨hnn, hbound⟩, hoffs, hpad⟩ :=
      layout_step o f rest ho hfa hfs (fun g hg => (hrest g hg).2) hsum
    obtain ⟨offs, hoffs1, hih⟩ := ih (o1 + f.Size) hnn hrest hbound
    refine ⟨o1 :: offs, by rw [hoffs, hoffs1]; rfl, ?_⟩
    intro l1 p l2 heq hp
    rw [hpad offs] at heq
    have hfield : ∀ l1, { f with Start := o1, End := o1 + f.Size } ::
          padLoop (o1 + f.Size) rest offs = l1 ++ p :: l2 →
        p.Name = "" ∧ p.Typ = "" ∧ 0 < p.Size ∧ p.Size = p.End - p.Start ∧
          ∃ f tail, l2 = f :: tail ∧ f.IsPadding = false ∧ p.Size < f.Align := by
      intro l1 heq1
      obtain ⟨l1', _, htail⟩ := cons_eq_append_padding
        { f with Start := o1, End := o1 + f.Size } p _ l1 l2 hfp hp heq1
      exact hih l1' p l2 htail hp
    by_cases hcur : o < o1
    · simp only [hcur, if_true, List.singleton_append] at heq
      cases l1 with
      | nil =>
        simp only [List.nil_append, List.cons.injEq] at heq
        obtain ⟨hpeq, hl2⟩ := heq
        subst hpeq
        refine ⟨rfl, rfl, by show 0 < o1 - o; omega, rfl, _, _, hl2.symm, hfp, ?_⟩
        show o1 - o < f.Align
        omega
      | cons a l1' =>
        simp only [List.cons_append, List.cons.injEq] at heq
        exact hfield l1' heq.2
    · simp only [hcur, if_false, List.nil_append] at heq
      exact hfield l1 heq

/-- C17 (amended). For a padding-free field sequence whose fields all have
`Align > 0` and `Size ≥ 0` and whose sizes and alignments add up to an
`int64` (no overflow), every padding entry `p` of the output of `pad`,
wherever it stands (`out = l1 ++ p :: l2`), has `IsPadding = true`, empty
`Name` and `Type`, and `0 < Size = End - Start`, and is immediately followed
by an input field `f` with `p.Size < f.Align`; so no two padding entries are
adjacent and the last entry is no padding entry. -/
theorem pad_padding_entries (fields : List Field)
    (h : ∀ f ∈ fields, f.IsPadding = false ∧ 0 < f.Align ∧ 0 ≤ f.Size)
    (hfit : noOverflow fields) :
    ∃ out, pad fields = some out ∧
      (∀ l1 p l2, out = l1 ++ p :: l2 → p.IsPadding = true →
        p.Name = "" ∧ p.Typ = "" ∧ 0 < p.Size ∧ p.Size = p.End - p.Start ∧
          ∃ f tail, l2 = f :: tail ∧ f.IsPadding = false ∧ p.Size < f.Align) ∧
      (∀ l1 p q l2, out = l1 ++ p :: q :: l2 →
        ¬ (p.IsPadding = true ∧ q.IsPadding = true)) ∧
      (∀ e ∈ out.getLast?, e.IsPadding = false) := by
  obtain ⟨offsets, hoff, _, hpad⟩ :=
    pad_eq_some fields (fun f hf => by have := h f hf; omega)
  obtain ⟨offs, hoffs, hall⟩ :=
    padLoop_paddings fields 0 (le_refl 0) h (by unfold noOverflow at hfit; omega)
  rw [hoff] at hoffs
  cases hoffs
  refine ⟨_, hpad, hall, ?_, ?_⟩
  · intro l1 p q l2 heq hpq
    obtain ⟨_, _, _, _, f, tail, hl2, hf, _⟩ := hall l1 p (q :: l2) heq hpq.1
    simp only [List.cons.injEq] at hl2
    rw [← hl2.1, hpq.2] at hf
    exact absurd hf (by decide)
  · intro e he
    cases hpd : e.IsPadding with
    | false => rfl
    | true =>
      obtain ⟨l1, hl1⟩ : ∃ l1, padLoop 0 fields offsets = l1 ++ [e] := by
        have hne : padLoop 0 fields offsets ≠ [] := by
          intro hnil
          simp [hnil] at he
        refine ⟨(padLoop 0 fields offsets).dropLast, ?_⟩
        have hlast : (padLoop 0 fields offsets).getLast hne = e := by
          rw [List.getLast?_eq_getLast _ hne] at he
          simpa using he
        rw [← hlast]
        exact (List.dropLast_append_getLast hne).symm
      obtain ⟨_, _, _, _, f, tail, hl2, _⟩ := hall l1 e [] hl1 hpd
      simp at hl2

/-- An instance: the padding entry of the layout of `byteThenWord`. -/
theorem pad_padding_entries_witness :
    (∀ f ∈ byteThenWord, f.IsPadding = false ∧ 0 < f.Align ∧ 0 ≤ f.Size) ∧
    noOverflow byteThenWord ∧
    ∃ out, pad byteThenWord = some out ∧
      (∀ l1 p l2, out = l1 ++ p :: l2 → p.IsPadding = true →
        p.Name = "" ∧ p.Typ = "" ∧ 0 < p.Size ∧ p.Size = p.End - p.Start ∧
          ∃ f tail, l2 = f :: tail ∧ f.IsPadding = false ∧ p.Size < f.Align) ∧
      (∀ l1 p q l2, out = l1 ++ p :: q :: l2 →
        ¬ (p.IsPadding = true ∧ q.IsPadding = true)) ∧
      (∀ e ∈ out.getLast?, e.IsPadding = false) :=
  ⟨by decide, by decide, pad_padding_entries byteThenWord (by decide) (by decide)⟩

/-- C17, as stated, fails: the three fields of `hugeByteEven` are padding-free
with `Align > 0` and `Size ≥ 0`; the cursor of `pad` wraps around to `-2^63`
and the padding entry in front of the field of alignment 2 has `Size = 2`,
which is not below that alignment. -/
theorem pad_padding_not_below_align :
    (∀ f ∈ hugeByteEven, f.IsPadding = false ∧ 0 < f.Align ∧ 0 ≤ f.Size) ∧
    (pad hugeByteEven).map
        (fun out => out.map (fun e => (e.IsPadding, e.Start, e.Size, e.Align)))
      = some [(false, 0, 9223372036854775807, 1),
              (false, 9223372036854775807, 1, 1),
              (true, -9223372036854775808, 2, 0),
              (false, -9223372036854775806, 0, 2)] ∧
    ¬ ((2 : Int) < 2) := by
  decide

/-! ### Layouts without padding -/

theorem totalSize_append_cons (front : List Field) (e : Field) (tail : List Field) :
    totalSize (front ++ e :: tail) = if tail = [] then e.End else totalSize tail := by
  cases tail with
  | nil => simp [totalSize, List.getLast?_concat]
  | cons t ts =>
    have hlast : (front ++ e :: t :: ts).getLast? = (t :: ts).getLast? := by
      rw [List.getLast?_append, List.getLast?_cons_cons]
      cases hts : (t :: ts).getLast? with
      | none => simp at hts
      | some v => rfl
    simp [totalSize, hlast]

theorem packFrom_not_padding (fields : List Field)
    (h : ∀ f ∈ fields, f.IsPadding = false) :
    ∀ o, ∀ e ∈ packFrom o fields, e.IsPadding = false := by
  induction fields with
  | nil => intro o e he; simp [packFrom] at he
  | cons f rest ih =>
    intro o e he
    simp only [packFrom, List.mem_cons] at he
    rcases he with rfl | he
    · exact h f (List.mem_cons_self _ _)
    · exact ih (fun g hg => h g (List.mem_cons_of_mem _ hg)) _ e he

theorem totalSize_packFrom (fields : List Field) :
    ∀ o, fields ≠ [] →
      totalSize (packFrom o fields) = o + (fields.map (fun f => f.Size)).sum := by
  induction fields with
  | nil => intro o h; exact absurd rfl h
  | cons f rest ih =>
    intro o _
    have h := totalSize_append_cons []
      { f with Start := o, End := o + f.Size } (packFrom (o + f.Size) rest)
    simp only [List.nil_append] at h
    rw [packFrom, h]
    cases rest with
    | nil => simp [packFrom]
    | cons g rest' =>
      have hne : packFrom (o + f.Size) (g :: rest') ≠ [] := by simp [packFrom]
      rw [if_neg hne, ih (o + f.Size) (by simp)]
      simp only [List.map_cons, List.sum_cons]
      omega

theorem packFrom_starts_uniform (fields : List Field) (s : Int)
    (h : ∀ f ∈ fields, f.Size = s) :
    ∀ o, (packFrom o fields).map (fun e => e.Start) =
      (List.range fields.length).map (fun i : Nat => o + (i : Int) * s) := by
  induction fields with
  | nil => intro o; simp [packFrom]
  | cons f rest ih =>
    intro o
    have hf : f.Size = s := h f (List.mem_cons_self _ _)
    rw [packFrom, List.map_cons, ih (fun g hg => h g (List.mem_cons_of_mem _ hg)),
      List.length_cons, List.range_succ_eq_map, List.map_cons, List.map_map, hf]
    refine congrArg₂ List.cons (by simp) ?_
    apply List.map_congr_left
    intro i _
    simp only [Function.comp, Nat.cast_succ]
    ring

/-- Without overflow, when the cursor is a multiple of every alignment and
the size of every field is a multiple of the alignment of every later field,
`pad` emits no padding entry: its output is the simple cumulative sum. -/
theorem padLoop_packed (fields : List Field) :
    ∀ o, 0 ≤ o →
      (∀ f ∈ fields, f.IsPadding = false ∧ 0 < f.Align ∧ 0 ≤ f.Size) →
      o + (fields.map (fun f => f.Size + f.Align)).sum ≤ maxInt64 →
      (∀ g ∈ fields, g.Align ∣ o) →
      List.Pairwise (fun f g : Field => g.Align ∣ f.Size) fields →
      ∃ offsets, offsetsofLoop o fields = some offsets ∧
        padLoop o fields offsets = packFrom o fields := by
  induction fields with
  | nil => intro o _ _ _ _ _; exact ⟨[], rfl, by simp [padLoop, packFrom]⟩
  | cons f rest ih =>
    intro o ho h hsum hdvd hpair
    obtain ⟨_, hfa, hfs⟩ := h f (List.mem_cons_self _ _)
    have hrest : ∀ g ∈ rest, g.IsPadding = false ∧ 0 < g.Align ∧ 0 ≤ g.Size :=
      fun g hg => h g (List.mem_cons_of_mem _ hg)
    obtain ⟨o1, _, ⟨_, hle, _, hmin⟩, ⟨hnn, hbound⟩, hoffs, hpad⟩ :=
      layout_step o f rest ho hfa hfs (fun g hg => (hrest g hg).2) hsum
    have ho1 : o1 = o := by
      have := hmin o (hdvd f (List.mem_cons_self _ _)) (le_refl o)
      omega
    subst ho1
    obtain ⟨hhead, htail⟩ := List.pairwise_cons.mp hpair
    obtain ⟨offs, hoffs1, hpacked⟩ := ih (o1 + f.Size) hnn hrest hbound
      (fun g hg => Int.dvd_add (hdvd g (List.mem_cons_of_mem _ hg)) (hhead g hg)) htail
    refine ⟨o1 :: offs, by rw [hoffs, hoffs1]; rfl, ?_⟩
    rw [hpad offs, hpacked]
    simp [packFrom]

/-- Without overflow, whatever the order of the fields, the layout of `pad`
does not end before the cursor plus the sum of the sizes. -/
theorem padLoop_total_ge (fields : List Field) :
    ∀ o, 0 ≤ o →
      (∀ f ∈ fields, f.IsPadding = false ∧ 0 < f.Align ∧ 0 ≤ f.Size) →
      o + (fields.map (fun f => f.Size + f.Align)).sum ≤ maxInt64 →
      ∃ offsets, offsetsofLoop o fields = some offsets ∧
        (fields ≠ [] →
          o + (fields.map (fun f => f.Size)).sum
            ≤ totalSize (padLoop o fields offsets)) := by
  induction fields with
  | nil => intro o _ _ _; exact ⟨[], rfl, fun h => absurd rfl h⟩
  | cons f rest ih =>
    intro o ho h hsum
    obtain ⟨_, hfa, hfs⟩ := h f (List.mem_cons_self _ _)
    have hrest : ∀ g ∈ rest, g.IsPadding = false ∧ 0 < g.Align ∧ 0 ≤ g.Size :=
      fun g hg => h g (List.mem_cons_of_mem _ hg)
    obtain ⟨o1, _, ⟨_, hle, _, _⟩, ⟨hnn, hbound⟩, hoffs, hpad⟩ :=
      layout_step o f rest ho hfa hfs (fun g hg => (hrest g hg).2) hsum
    obtain ⟨offs, hoffs1, hge⟩ := ih (o1 + f.Size) hnn hrest hbound
    refine ⟨o1 :: offs, by rw [hoffs, hoffs1]; rfl, fun _ => ?_⟩
    rw [hpad offs, totalSize_append_cons]
    simp only [List.map_cons, List.sum_cons]
    by_cases hr : rest = []
    · subst hr
      simp [padLoop]
      omega
    · have hge1 := hge hr
      by_cases ht : padLoop (o1 + f.Size) rest offs = []
      · rw [ht] at hge1
        simp only [ht, if_true]
        have : totalSize [] = 0 := rfl
        omega
      · simp only [ht, if_false]
        omega

/-! ### The sorted order as a whole -/

theorem optimize_perm_fields (fields : List Field) :
    (optimize fields).Perm fields :=
  (sortSort_spec fields).1

/-- After `optimize` no field is `Less` than a field anywhere before it. -/
theorem optimize_pairwise (fields : List Field) :
    List.Pairwise (fun a b : Field => Less b a = false) (optimize fields) := by
  haveI : IsTrans Field (fun a b : Field => Less b a = false) :=
    ⟨fun a b c hab hbc => Less_false_trans a b c hab hbc⟩
  exact List.chain'_iff_pairwise.mp (optimize_chain fields)

theorem optimize_noOverflow (fields : List Field) (hfit : noOverflow fields) :
    0 + ((optimize fields).map (fun f => f.Size + f.Align)).sum ≤ maxInt64 := by
  unfold noOverflow at hfit
  rw [((optimize_perm_fields fields).map _).sum_eq]
  omega

/-- C14 (amended). For a padding-free field sequence whose fields all have
the same `Align = a > 0` and the same `Size = s ≥ 0`, where `s` is a multiple
of `a` and the sizes and alignments add up to an `int64` (no overflow),
`pad(optimize(fields))` has no padding entry, has one entry per field, and
its i-th entry starts at `i * s`. -/
theorem uniform_fields_cumulative (fields : List Field) (a s : Int)
    (ha : 0 < a) (hs : 0 ≤ s) (hdvd : a ∣ s)
    (h : ∀ f ∈ fields, f.IsPadding = false ∧ f.Align = a ∧ f.Size = s)
    (hfit : noOverflow fields) :
    ∃ out, pad (optimize fields) = some out ∧
      (∀ e ∈ out, e.IsPadding = false) ∧ out.length = fields.length ∧
      out.map (fun e => e.Start) =
        (List.range fields.length).map (fun i : Nat => (i : Int) * s) := by
  have hperm := optimize_perm_fields fields
  have hopt : ∀ f ∈ optimize fields, f.IsPadding = false ∧ f.Align = a ∧ f.Size = s :=
    fun f hf => h f (hperm.mem_iff.mp hf)
  have hpos : ∀ f ∈ optimize fields, f.IsPadding = false ∧ 0 < f.Align ∧ 0 ≤ f.Size :=
    fun f hf => by obtain ⟨h1, h2, h3⟩ := hopt f hf; exact ⟨h1, by omega, by omega⟩
  have hpair : List.Pairwise (fun f g : Field => g.Align ∣ f.Size) (optimize fields) :=
    (optimize_pairwise fields).imp_of_mem (fun {f g} hf hg _ => by
      rw [(hopt f hf).2.2, (hopt g hg).2.1]
      exact hdvd)
  obtain ⟨offs, hoffs, hpacked⟩ := padLoop_packed (optimize fields) 0 (le_refl 0)
    hpos (optimize_noOverflow fields hfit) (fun g _ => Int.dvd_zero _) hpair
  obtain ⟨offsets, hoff, _, hpad⟩ :=
    pad_eq_some (optimize fields) (fun f hf => by have := hpos f hf; omega)
  rw [hoffs] at hoff
  cases hoff
  rw [hpacked] at hpad
  have hstarts := packFrom_starts_uniform (optimize fields) s
    (fun f hf => (hopt f hf).2.2) 0
  have hlen : (packFrom 0 (optimize fields)).length = fields.length := by
    have := congrArg List.length hstarts
    simpa [hperm.length_eq] using this
  refine ⟨_, hpad, packFrom_not_padding _ (fun f hf => (hopt f hf).1) 0, hlen, ?_⟩
  rw [hstarts, hperm.length_eq]
  simp

/-- An instance: the two fields of `twoWords`, of size 4 and alignment 4. -/
theorem uniform_fields_cumulative_witness :
    (0 : Int) < 4 ∧ (0 : Int) ≤ 4 ∧ (4 : Int) ∣ 4 ∧
    (∀ f ∈ twoWords, f.IsPadding = false ∧ f.Align = 4 ∧ f.Size = 4) ∧
    noOverflow twoWords ∧
    ∃ out, pad (optimize twoWords) = some out ∧
      (∀ e ∈ out, e.IsPadding = false) ∧ out.length = twoWords.length ∧
      out.map (fun e => e.Start) =
        (List.range twoWords.length).map (fun i : Nat => (i : Int) * 4) :=
  ⟨by decide, by decide, by decide, by decide, by decide,
    uniform_fields_cumulative twoWords 4 4 (by decide) (by decide) (by decide)
      (by decide) (by decide)⟩

/-- C14, as stated, fails twice. The two fields of `twoBytesAligned4` share
`Align = 4 > 0` and `Size = 1 ≥ 0`: `pad(optimize(fields))` has a padding
entry, and its entry 1 starts at 1 but the second field at 4. The three
fields of `threeHugeEven` share `Align = 2` and `Size = 2^63 - 2`: the cursor
wraps around and `pad(optimize(fields))` has a padding entry at `-4`. -/
theorem uniform_fields_padded :
    (∀ f ∈ twoBytesAligned4, f.IsPadding = false ∧ f.Align = 4 ∧ f.Size = 1) ∧
    (pad (optimize twoBytesAligned4)).map
        (fun out => out.map (fun e => (e.IsPadding, e.Start)))
      = some [(false, 0), (true, 1), (false, 4)] ∧
    (∀ f ∈ threeHugeEven, f.IsPadding = false ∧ f.Align = 2 ∧
      f.Size = 9223372036854775806) ∧
    (2 : Int) ∣ 9223372036854775806 ∧
    (pad (optimize threeHugeEven)).map
        (fun out => out.map (fun e => (e.IsPadding, e.Start)))
      = some [(false, 0), (false, 9223372036854775806), (true, -4), (false, -2)] := by
  decide

/-- C19 (amended). For a padding-free field sequence in which every field has
`Align > 0`, `Size ≥ 0` and `Size` a multiple of its `Align`, in which of any
two alignments the smaller divides the larger, and whose sizes and alignments
add up to an `int64` (no overflow), `pad(optimize(fields))` has no padding
entry, its total size is the sum of the sizes, and no ordering of the fields
gives `pad` a smaller total size. -/
theorem optimize_layout_without_padding (fields : List Field)
    (h : ∀ f ∈ fields,
      f.IsPadding = false ∧ 0 < f.Align ∧ 0 ≤ f.Size ∧ f.Align ∣ f.Size)
    (hdiv : ∀ f ∈ fields, ∀ g ∈ fields, f.Align ≤ g.Align → f.Align ∣ g.Align)
    (hfit : noOverflow fields) :
    ∃ out, pad (optimize fields) = some out ∧
      (∀ e ∈ out, e.IsPadding = false) ∧
      totalSize out = (fields.map (fun f => f.Size)).sum ∧
      ∀ q : List Field, q.Perm fields →
        ∃ outq, pad q = some outq ∧ totalSize out ≤ totalSize outq := by
  have hperm := optimize_perm_fields fields
  have hopt : ∀ f ∈ optimize fields,
      f.IsPadding = false ∧ 0 < f.Align ∧ 0 ≤ f.Size ∧ f.Align ∣ f.Size :=
    fun f hf => h f (hperm.mem_iff.mp hf)
  have hpos : ∀ f ∈ optimize fields, f.IsPadding = false ∧ 0 < f.Align ∧ 0 ≤ f.Size :=
    fun f hf => by obtain ⟨h1, h2, h3, _⟩ := hopt f hf; exact ⟨h1, h2, h3⟩
  have hpair : List.Pairwise (fun f g : Field => g.Align ∣ f.Size) (optimize fields) :=
    (optimize_pairwise fields).imp_of_mem (fun {f g} hf hg hgf => by
      by_cases hz : f.Size = 0
      · rw [hz]
        exact Int.dvd_zero _
      · rw [Less_eq_false_iff] at hgf
        have hle : g.Align ≤ f.Align := by omega
        exact Int.dvd_trans
          (hdiv g (hperm.mem_iff.mp hg) f (hperm.mem_iff.mp hf) hle) (hopt f hf).2.2.2)
  obtain ⟨offs, hoffs, hpacked⟩ := padLoop_packed (optimize fields) 0 (le_refl 0)
    hpos (optimize_noOverflow fields hfit) (fun g _ => Int.dvd_zero _) hpair
  obtain ⟨offsets, hoff, _, hpad⟩ :=
    pad_eq_some (optimize fields) (fun f hf => by have := hpos f hf; omega)
  rw [hoffs] at hoff
  cases hoff
  rw [hpacked] at hpad
  have htotal : totalSize (packFrom 0 (optimize fields))
      = (fields.map (fun f => f.Size)).sum := by
    rw [← (hperm.map (fun f => f.Size)).sum_eq]
    by_cases hne : optimize fields = []
    · rw [hne]
      rfl
    · rw [totalSize_packFrom _ 0 hne]
      omega
  refine ⟨_, hpad, packFrom_not_padding _ (fun f hf => (hopt f hf).1) 0, htotal, ?_⟩
  intro q hq
  have hqpos : ∀ f ∈ q, f.IsPadding = false ∧ 0 < f.Align ∧ 0 ≤ f.Size :=
    fun f hf => by obtain ⟨h1, h2, h3, _⟩ := h f (hq.mem_iff.mp hf); exact ⟨h1, h2, h3⟩
  have hqfit : 0 + (q.map (fun f => f.Size + f.Align)).sum ≤ maxInt64 := by
    unfold noOverflow at hfit
    rw [(hq.map _).sum_eq]
    omega
  obtain ⟨offq, hoffq, hge⟩ := padLoop_total_ge q 0 (le_refl 0) hqpos hqfit
  obtain ⟨offsq, hoffsq, _, hpadq⟩ :=
    pad_eq_some q (fun f hf => by have := hqpos f hf; omega)
  rw [hoffq] at hoffsq
  cases hoffsq
  refine ⟨_, hpadq, ?_⟩
  rw [htotal, ← (hq.map (fun f => f.Size)).sum_eq]
  by_cases hqne : q = []
  · subst hqne
    simp [padLoop, totalSize]
  · have := hge hqne
    omega

/-- An instance: the fields of `zeroInTheMiddle`. -/
theorem optimize_layout_without_padding_witness :
    (∀ f ∈ zeroInTheMiddle,
      f.IsPadding = false ∧ 0 < f.Align ∧ 0 ≤ f.Size ∧ f.Align ∣ f.Size) ∧
    (∀ f ∈ zeroInTheMiddle, ∀ g ∈ zeroInTheMiddle,
      f.Align ≤ g.Align → f.Align ∣ g.Align) ∧
    noOverflow zeroInTheMiddle ∧
    ∃ out, pad (optimize zeroInTheMiddle) = some out ∧
      (∀ e ∈ out, e.IsPadding = false) ∧
      totalSize out = (zeroInTheMiddle.map (fun f => f.Size)).sum ∧
      ∀ q : List Field, q.Perm zeroInTheMiddle →
        ∃ outq, pad q = some outq ∧ totalSize out ≤ totalSize outq :=
  ⟨by decide, by decide, by decide,
    optimize_layout_without_padding zeroInTheMiddle (by decide) (by decide)
      (by decide)⟩

/-- C19, as stated, fails: the three fields of `threeHugeEven` are
padding-free with `Align = 2 > 0` and `Size = 2^63 - 2`, a multiple of 2, and
equal alignments divide each other; the cursor of `pad` wraps around and
`pad(optimize(fields))` has a padding entry of two bytes. -/
theorem optimize_layout_padded_on_overflow :
    (∀ f ∈ threeHugeEven,
      f.IsPadding = false ∧ 0 < f.Align ∧ 0 ≤ f.Size ∧ f.Align ∣ f.Size) ∧
    (∀ f ∈ threeHugeEven, ∀ g ∈ threeHugeEven,
      f.Align ≤ g.Align → f.Align ∣ g.Align) ∧
    (pad (optimize threeHugeEven)).map
        (fun out => out.map (fun e => (e.IsPadding, e.Start, e.End)))
      = some [(false, 0, 9223372036854775806), (false, 9223372036854775806, -4),
              (true, -4, -2), (false, -2, 9223372036854775804)] := by
  decide

/-! ### Zero-sized fields -/

theorem wrap64_range (v : Int) : minInt64 ≤ wrap64 v ∧ wrap64 v ≤ maxInt64 := by
  unfold minInt64 maxInt64 wrap64
  omega

/-- At the cursor 0 every positive alignment gives the offset 0. -/
theorem align_zero (a : Int) (ha : 0 < a) : align 0 a = some 0 := by
  have hne : a ≠ 0 := by omega
  have hy : (subInt64 (addInt64 0 a) 1 = a - 1 ∧ a ≤ 9223372036854775808) ∨
      (-9223372036854775808 ≤ subInt64 (addInt64 0 a) 1 ∧
        subInt64 (addInt64 0 a) 1 < 9223372036854775808 ∧
        9223372036854775808 < a) := by
    unfold subInt64 addInt64 wrap64
    omega
  have hmod : Int.tmod (subInt64 (addInt64 0 a) 1) a = subInt64 (addInt64 0 a) 1 := by
    generalize subInt64 (addInt64 0 a) 1 = y at hy
    by_cases hy0 : 0 ≤ y
    · exact Int.tmod_eq_of_lt hy0 (by omega)
    · have hdiv : y.tdiv a = 0 := by
        have h0 : (-y).tdiv a = 0 := Int.tdiv_eq_zero_of_lt (by omega) (by omega)
        have h := Int.neg_tdiv (-y) a
        rw [neg_neg, h0] at h
        simpa using h
      rw [Int.tmod_def, hdiv]
      simp
  simp only [align, remInt64, hne, if_false, Option.bind_eq_bind, Option.some_bind,
    Option.pure_def, hmod]
  simp [subInt64, wrap64]

theorem align_range (x a y : Int) (h : align x a = some y) :
    minInt64 ≤ y ∧ y ≤ maxInt64 := by
  by_cases ha : a = 0
  · simp [align, remInt64, ha] at h
  · simp only [align, remInt64, ha, if_false, Option.bind_eq_bind, Option.some_bind,
      Option.pure_def, Option.some.injEq] at h
    rw [← h]
    exact wrap64_range _

theorem offsetsofLoop_range (fields : List Field) :
    ∀ o offsets, offsetsofLoop o fields = some offsets →
      ∀ off ∈ offsets, minInt64 ≤ off ∧ off ≤ maxInt64 := by
  induction fields with
  | nil =>
    intro o offsets h off hoff
    simp only [offsetsofLoop, Option.some.injEq] at h
    subst h
    simp at hoff
  | cons f rest ih =>
    intro o offsets h off hoff
    cases hal : align o f.Align with
    | none => simp [offsetsofLoop, hal] at h
    | some o1 =>
      cases hrest : offsetsofLoop (addInt64 o1 f.Size) rest with
      | none => simp [offsetsofLoop, hal, hrest] at h
      | some offs =>
        simp [offsetsofLoop, hal, hrest] at h
        subst h
        rcases List.mem_cons.mp hoff with rfl | hmem
        · exact align_range o f.Align off hal
        · exact ih _ _ hrest off hmem

/-- Whatever the cursor does, no entry that `pad` emits for fields of non-zero
size has size zero: a padding entry spans two different `int64` values. -/
theorem padLoop_size_ne_zero (fields : List Field) :
    ∀ pos offsets, minInt64 ≤ pos → pos ≤ maxInt64 →
      (∀ off ∈ offsets, minInt64 ≤ off ∧ off ≤ maxInt64) →
      (∀ f ∈ fields, f.Size ≠ 0) →
      ∀ e ∈ padLoop pos fields offsets, e.Size ≠ 0 := by
  induction fields with
  | nil => intro pos offsets _ _ _ _ e he; simp [padLoop] at he
  | cons f rest ih =>
    intro pos offsets hp1 hp2 hoffs hsz e he
    cases offsets with
    | nil => simp [padLoop] at he
    | cons off offs =>
      have hoff := hoffs off (List.mem_cons_self _ _)
      have hoffs1 : ∀ v ∈ offs, minInt64 ≤ v ∧ v ≤ maxInt64 :=
        fun v hv => hoffs v (List.mem_cons_of_mem _ hv)
      have hrest : ∀ g ∈ rest, g.Size ≠ 0 :=
        fun g hg => hsz g (List.mem_cons_of_mem _ hg)
      have hf := hsz f (List.mem_cons_self _ _)
      by_cases hgt : off > pos
      · simp only [padLoop, hgt, if_true, List.mem_cons] at he
        rcases he with rfl | rfl | he
        · show subInt64 off pos ≠ 0
          unfold minInt64 at hp1 hoff
          unfold maxInt64 at hp2 hoff
          unfold subInt64 wrap64
          omega
        · exact hf
        · exact ih _ offs (wrap64_range _).1 (wrap64_range _).2 hoffs1 hrest e he
      · simp only [padLoop, hgt, if_false, List.mem_cons] at he
        rcases he with rfl | he
        · exact hf
        · exact ih _ offs (wrap64_range _).1 (wrap64_range _).2 hoffs1 hrest e he

/-- Zero-sized fields of positive alignment at the cursor 0 keep both loops at
the cursor 0. -/
theorem zero_sized_front (zeros : List Field)
    (hz : ∀ z ∈ zeros, z.Size = 0 ∧ 0 < z.Align) (others : List Field) :
    offsetsofLoop 0 (zeros ++ others) =
      (offsetsofLoop 0 others).map (fun offsets => zeros.map (fun _ => 0) ++ offsets) ∧
    ∀ offsets, padLoop 0 (zeros ++ others) (zeros.map (fun _ => 0) ++ offsets) =
      zeros.map (fun z => { z with Start := 0, End := 0 }) ++
        padLoop 0 others offsets := by
  induction zeros with
  | nil =>
    refine ⟨?_, fun offsets => by simp⟩
    cases hothers : offsetsofLoop 0 others <;> simp [hothers]
  | cons z rest ih =>
    obtain ⟨hzs, hza⟩ := hz z (List.mem_cons_self _ _)
    obtain ⟨ih1, ih2⟩ := ih (fun g hg => hz g (List.mem_cons_of_mem _ hg))
    have hadd : addInt64 0 0 = 0 := by decide
    refine ⟨?_, fun offsets => ?_⟩
    · cases hothers : offsetsofLoop 0 others with
      | none =>
        have h1 : offsetsofLoop 0 (rest ++ others) = none := by
          rw [ih1, hothers]
          rfl
        simp [offsetsofLoop, align_zero z.Align hza, hzs, hadd, h1]
      | some offs =>
        have h1 : offsetsofLoop 0 (rest ++ others)
            = some (rest.map (fun _ => 0) ++ offs) := by
          rw [ih1, hothers]
          rfl
        simp [offsetsofLoop, align_zero z.Align hza, hzs, hadd, h1]
    · simp only [List.cons_append, List.map_cons, padLoop, gt_iff_lt, lt_self_iff_false,
        if_false, hzs, hadd]
      exact congrArg (List.cons _) (ih2 offsets)

/-- A list in which no field is `Less` than a field before it is its
zero-sized fields followed by its fields of non-zero size. -/
theorem sorted_zero_sized_first (l : List Field)
    (hp : List.Pairwise (fun a b : Field => Less b a = false) l) :
    ∃ zeros others, l = zeros ++ others ∧ (∀ z ∈ zeros, z.Size = 0) ∧
      ∀ n ∈ others, n.Size ≠ 0 := by
  induction l with
  | nil => exact ⟨[], [], rfl, by simp, by simp⟩
  | cons a t ih =>
    obtain ⟨hhead, htail⟩ := List.pairwise_cons.mp hp
    by_cases ha : a.Size = 0
    · obtain ⟨zeros, others, heq, hz, hn⟩ := ih htail
      refine ⟨a :: zeros, others, by rw [heq]; rfl, ?_, hn⟩
      intro z hzmem
      rcases List.mem_cons.mp hzmem with rfl | hzmem
      · exact ha
      · exact hz z hzmem
    · refine ⟨[], a :: t, rfl, by simp, ?_⟩
      intro n hn
      rcases List.mem_cons.mp hn with rfl | hn
      · exact ha
      · have := hhead n hn
        rw [Less_eq_false_iff] at this
        omega

/-- C15. For a padding-free field sequence with all `Align > 0` and
`Size ≥ 0`, the output of `pad(optimize(fields))` is a run of entries of size
zero, each one a field at `Start = End = 0`, followed by entries of non-zero
size only; every zero-sized field of the input is in the first run. So every
zero-sized field comes before every field of non-zero size and occupies the
span `Start = End = 0`. -/
theorem zero_sized_fields_first (fields : List Field)
    (h : ∀ f ∈ fields, f.IsPadding = false ∧ 0 < f.Align ∧ 0 ≤ f.Size) :
    ∃ zs nzs, pad (optimize fields) = some (zs ++ nzs) ∧
      (∀ e ∈ zs, e.IsPadding = false ∧ e.Size = 0 ∧ e.Start = 0 ∧ e.End = 0) ∧
      (∀ e ∈ nzs, e.Size ≠ 0) ∧
      (∀ f ∈ fields, f.Size = 0 → ∃ e ∈ zs, content e = content f) ∧
      (∀ e ∈ zs ++ nzs, e.Size = 0 → e.Start = 0 ∧ e.End = 0) := by
  have hperm := optimize_perm_fields fields
  obtain ⟨zeros, others, heq, hz, hn⟩ :=
    sorted_zero_sized_first (optimize fields) (optimize_pairwise fields)
  have hmem : ∀ f ∈ zeros ++ others, f.IsPadding = false ∧ 0 < f.Align ∧ 0 ≤ f.Size :=
    fun f hf => h f (hperm.mem_iff.mp (heq ▸ hf))
  obtain ⟨offsets, hoff, _, hpad⟩ :=
    pad_eq_some (optimize fields) (fun f hf => by
      have := h f (hperm.mem_iff.mp hf); omega)
  obtain ⟨hfront1, hfront2⟩ := zero_sized_front zeros
    (fun z hzm => ⟨hz z hzm, (hmem z (List.mem_append_left _ hzm)).2.1⟩) others
  rw [heq, hfront1] at hoff
  cases hothers : offsetsofLoop 0 others with
  | none => simp [hothers] at hoff
  | some offs =>
    simp only [hothers, Option.map_some', Option.some.injEq] at hoff
    rw [heq, ← hoff, hfront2 offs] at hpad
    have hzs : ∀ e ∈ zeros.map (fun z : Field => { z with Start := 0, End := 0 }),
        e.IsPadding = false ∧ e.Size = 0 ∧ e.Start = 0 ∧ e.End = 0 := by
      intro e he
      obtain ⟨z, hzm, rfl⟩ := List.mem_map.mp he
      exact ⟨(hmem z (List.mem_append_left _ hzm)).1, hz z hzm, rfl, rfl⟩
    have hnzs : ∀ e ∈ padLoop 0 others offs, e.Size ≠ 0 :=
      padLoop_size_ne_zero others 0 offs (by decide) (by decide)
        (offsetsofLoop_range others 0 offs hothers) hn
    refine ⟨_, _, by rw [heq]; exact hpad, hzs, hnzs, ?_, ?_⟩
    · intro f hf hfz
      have hfo : f ∈ zeros ++ others := heq ▸ hperm.mem_iff.mpr hf
      rcases List.mem_append.mp hfo with hfz1 | hfn
      · exact ⟨{ f with Start := 0, End := 0 }, List.mem_map.mpr ⟨f, hfz1, rfl⟩, rfl⟩
      · exact absurd hfz (hn f hfn)
    · intro e he hez
      rcases List.mem_append.mp he with he1 | he2
      · exact (hzs e he1).2.2
      · exact absurd hez (hnzs e he2)

/-- An instance: the zero-sized field of `zeroInTheMiddle`. -/
theorem zero_sized_fields_first_witness :
    (∀ f ∈ zeroInTheMiddle, f.IsPadding = false ∧ 0 < f.Align ∧ 0 ≤ f.Size) ∧
    ∃ zs nzs, pad (optimize zeroInTheMiddle) = some (zs ++ nzs) ∧
      (∀ e ∈ zs, e.IsPadding = false ∧ e.Size = 0 ∧ e.Start = 0 ∧ e.End = 0) ∧
      (∀ e ∈ nzs, e.Size ≠ 0) ∧
      (∀ f ∈ zeroInTheMiddle, f.Size = 0 → ∃ e ∈ zs, content e = content f) ∧
      (∀ e ∈ zs ++ nzs, e.Size = 0 → e.Start = 0 ∧ e.End = 0) :=
  ⟨by decide, zero_sized_fields_first zeroInTheMiddle (by decide)⟩

/-! ### Ties of the sort -/

theorem Less_keyField (a b : Field) :
    Less (keyField (sortKey b)) (keyField (sortKey a)) = Less b a := rfl

/-- Two lists in the order of `Less` that are permutations of each other have
the same sizes and alignments, position by position. -/
theorem sorted_perm_same_keys (p q : List Field) (hpq : p.Perm q)
    (hps : List.Chain' (fun a b : Field => Less b a = false) p)
    (hqs : List.Chain' (fun a b : Field => Less b a = false) q) :
    p.map sortKey = q.map sortKey := by
  haveI : IsTrans Field (fun a b : Field => Less b a = false) :=
    ⟨fun a b c hab hbc => Less_false_trans a b c hab hbc⟩
  haveI : IsAntisymm (Int × Int)
      (fun k1 k2 => Less (keyField k2) (keyField k1) = false) :=
    ⟨fun k1 k2 h12 h21 => by
      rw [Less_eq_false_iff] at h12 h21
      have h1 : k1.1 = k2.1 := by
        show (keyField k1).Size = (keyField k2).Size
        omega
      have h2 : k1.2 = k2.2 := by
        show (keyField k1).Align = (keyField k2).Align
        omega
      exact Prod.ext h1 h2⟩
  have hsorted : ∀ l : List Field,
      List.Chain' (fun a b : Field => Less b a = false) l →
      List.Sorted (fun k1 k2 => Less (keyField k2) (keyField k1) = false)
        (l.map sortKey) := by
    intro l hl
    have hpw : List.Pairwise (fun a b : Field => Less b a = false) l :=
      List.chain'_iff_pairwise.mp hl
    exact List.pairwise_map.mpr
      (hpw.imp (fun {a b} hab => by rw [Less_keyField]; exact hab))
  exact List.eq_of_perm_of_sorted (hpq.map sortKey) (hsorted p hps) (hsorted q hqs)

/-- The offsets and the layout of `pad` depend on the sizes and alignments of
the fields only. -/
theorem pad_depends_on_keys (p : List Field) :
    ∀ q : List Field, p.map sortKey = q.map sortKey →
      (∀ f ∈ p, f.IsPadding = false) → (∀ f ∈ q, f.IsPadding = false) →
      (∀ o, offsetsofLoop o p = offsetsofLoop o q) ∧
      ∀ pos offsets,
        (padLoop pos p offsets).map layout = (padLoop pos q offsets).map layout := by
  induction p with
  | nil =>
    intro q hk _ _
    have hq : q = [] := by simpa using hk.symm
    subst hq
    exact ⟨fun _ => rfl, fun _ _ => rfl⟩
  | cons a p ih =>
    intro q hk hp hq
    cases q with
    | nil => simp at hk
    | cons b q =>
      simp only [List.map_cons, List.cons.injEq, sortKey, Prod.mk.injEq] at hk
      obtain ⟨⟨hsize, halign⟩, hrest⟩ := hk
      have ha : a.IsPadding = false := hp a (List.mem_cons_self _ _)
      have hb : b.IsPadding = false := hq b (List.mem_cons_self _ _)
      obtain ⟨ih1, ih2⟩ := ih q hrest
        (fun f hf => hp f (List.mem_cons_of_mem _ hf))
        (fun f hf => hq f (List.mem_cons_of_mem _ hf))
      refine ⟨fun o => ?_, fun pos offsets => ?_⟩
      · simp only [offsetsofLoop, hsize, halign, ih1]
      · cases offsets with
        | nil => simp [padLoop]
        | cons off offs =>
          by_cases hgt : off > pos
          · simp only [padLoop, hgt, if_true, List.map_cons, layout, hsize, halign,
              ha, hb, ih2]
          · simp only [padLoop, hgt, if_false, List.map_cons, layout, hsize, halign,
              ha, hb, ih2]

/-- C20. The layout does not depend on how the sort breaks ties: for two
permutations `p` and `q` of one padding-free field sequence with all
`Align > 0`, both in the order of `Less` (no field is `Less` than its left
neighbour), `pad p` and `pad q` have the same length and agree, entry by
entry, on `Start`, `End`, `Size`, `Align` and `IsPadding`. -/
theorem layout_independent_of_ties (fields p q : List Field)
    (h : ∀ f ∈ fields, f.IsPadding = false ∧ 0 < f.Align)
    (hp : p.Perm fields) (hq : q.Perm fields)
    (hps : List.Chain' (fun a b : Field => Less b a = false) p)
    (hqs : List.Chain' (fun a b : Field => Less b a = false) q) :
    ∃ outp outq, pad p = some outp ∧ pad q = some outq ∧
      outp.length = outq.length ∧ outp.map layout = outq.map layout := by
  have hkeys := sorted_perm_same_keys p q (hp.trans hq.symm) hps hqs
  have hpp : ∀ f ∈ p, f.IsPadding = false := fun f hf => (h f (hp.mem_iff.mp hf)).1
  have hqp : ∀ f ∈ q, f.IsPadding = false := fun f hf => (h f (hq.mem_iff.mp hf)).1
  obtain ⟨hoffs, hlay⟩ := pad_depends_on_keys p q hkeys hpp hqp
  obtain ⟨offp, hoffp, _, hpadp⟩ :=
    pad_eq_some p (fun f hf => by have := h f (hp.mem_iff.mp hf); omega)
  obtain ⟨offq, hoffq, _, hpadq⟩ :=
    pad_eq_some q (fun f hf => by have := h f (hq.mem_iff.mp hf); omega)
  rw [hoffs 0, hoffq] at hoffp
  have hsame : offq = offp := Option.some.inj hoffp
  subst hsame
  have hmap := hlay 0 offq
  refine ⟨_, _, hpadp, hpadq, ?_, hmap⟩
  have := congrArg List.length hmap
  simpa using this

/-- An instance: the two orders of `twoWords`. -/
theorem layout_independent_of_ties_witness :
    (∀ f ∈ twoWords, f.IsPadding = false ∧ 0 < f.Align) ∧
    twoWords.Perm twoWords ∧ twoWordsSwapped.Perm twoWords ∧
    List.Chain' (fun a b : Field => Less b a = false) twoWords ∧
    List.Chain' (fun a b : Field => Less b a = false) twoWordsSwapped ∧
    ∃ outp outq, pad twoWords = some outp ∧ pad twoWordsSwapped = some outq ∧
      outp.length = outq.length ∧ outp.map layout = outq.map layout :=
  ⟨by decide, List.Perm.refl _, List.Perm.swap _ _ _,
    List.chain'_cons.mpr ⟨by decide, List.chain'_singleton _⟩,
    List.chain'_cons.mpr ⟨by decide, List.chain'_singleton _⟩,
    layout_independent_of_ties twoWords twoWords twoWordsSwapped (by decide)
      (List.Perm.refl _) (List.Perm.swap _ _ _)
      (List.chain'_cons.mpr ⟨by decide, List.chain'_singleton _⟩)
      (List.chain'_cons.mpr ⟨by decide, List.chain'_singleton _⟩)⟩

end StructLayout
